import Mathlib

set_option maxRecDepth 20000

/-!
Shallow embedding of the odzip (ODZ v2) decompressor and its container
format, from src/decompress.c, src/libodzip.h, src/main.c and
src/web/wasm.c.  The repository ships only the decompress/container/CLI
slice; the headers it includes (odz.h, bitstream.h, huffman.h,
lz_tables.h) and the compressor are not under src/, so those parts are
modelled from the specification and each such definition says so in its
doc comment.  Bytes are natural numbers, byte buffers are functions from
indices to bytes, and the C status codes keep their names and values.
-/

namespace Odz

/-- Error codes from src/libodzip.h. -/
def ODZ_OK : Nat := 0

def ODZ_ERR_IO : Nat := 1

def ODZ_ERR_OOM : Nat := 2

def ODZ_ERR_FORMAT : Nat := 3

def ODZ_ERR_CORRUPT : Nat := 4

/-- Modelled from the spec: constants of odz.h (not under src/).  Format
version 2, 1 MiB blocks, block type 0 = stored, 1 = Huffman. -/
def ODZ_VERSION : Nat := 2

def ODZ_BLOCK_SIZE : Nat := 1048576

def ODZ_BLOCK_STORED : Nat := 0

def ODZ_BLOCK_HUFFMAN : Nat := 1

/-- Modelled from the spec: alphabet sizes and limits of huffman.h (not
under src/): 286 literal/length symbols, 30 distance symbols, end-of-block
symbol 256, maximum code length 15, primary table width 9 bits. -/
def LITLEN_SYMS : Nat := 286

def DIST_SYMS : Nat := 30

def LITLEN_END : Nat := 256

def HUFF_MAX_BITS : Nat := 15

def HUFF_PRIMARY_BITS : Nat := 9

/-- Modelled from the spec: the static LZ token tables of lz_tables.h (not
under src/), "DEFLATE-compatible tables": base lengths for length codes
257..285. -/
def base_length : List Nat :=
  [3, 4, 5, 6, 7, 8, 9, 10, 11, 13, 15, 17, 19, 23] ++
  [27, 31, 35, 43, 51, 59, 67, 83, 99, 115, 131, 163, 195, 227, 258]

/-- Modelled from the spec: extra-bit widths for the 29 length codes. -/
def extra_lbits : List Nat :=
  [0, 0, 0, 0, 0, 0, 0, 0, 1, 1, 1, 1, 2, 2] ++
  [2, 2, 3, 3, 3, 3, 4, 4, 4, 4, 5, 5, 5, 5, 0]

/-- Modelled from the spec: base distances for the 30 distance codes. -/
def base_dist : List Nat :=
  [1, 2, 3, 4, 5, 7, 9, 13, 17, 25, 33, 49, 65, 97, 129] ++
  [193, 257, 385, 513, 769, 1025, 1537, 2049, 3073, 4097, 6145, 8193, 12289, 16385, 24577]

/-- Modelled from the spec: extra-bit widths for the 30 distance codes. -/
def extra_dbits : List Nat :=
  [0, 0, 0, 0, 1, 1, 2, 2, 3, 3, 4, 4, 5, 5, 6] ++
  [6, 7, 7, 8, 8, 9, 9, 10, 10, 11, 11, 12, 12, 13, 13]

/-! ## Bit reader (modelled from the spec, §4.1: bitstream.h is not under
src/).  LSB-first within bytes; reads beyond the end of the buffer yield
zero bits. -/

/-- Bit reader state: the byte buffer and the current bit position. -/
structure bit_reader_t where
  data : List Nat
  pos : Nat
deriving Repr, DecidableEq

/-- Bit number `i` of the byte stream, LSB-first within each byte; zero
beyond the end of the buffer. -/
def stream_bit (d : List Nat) (i : Nat) : Nat :=
  (d.getD (i / 8) 0 >>> (i % 8)) &&& 1

/-- Value of the `n` bits starting at bit position `pos`, first bit in the
lowest position. -/
def peekBits (d : List Nat) (pos : Nat) : Nat → Nat
  | 0 => 0
  | n + 1 => stream_bit d pos + 2 * peekBits d (pos + 1) n

def br_init (comp : List Nat) : bit_reader_t := { data := comp, pos := 0 }

def br_peek (br : bit_reader_t) (n : Nat) : Nat := peekBits br.data br.pos n

def br_consume (br : bit_reader_t) (n : Nat) : bit_reader_t :=
  { br with pos := br.pos + n }

def br_read (br : bit_reader_t) (n : Nat) : Nat × bit_reader_t :=
  (br_peek br n, br_consume br n)

/-! ## Two-level Huffman decode tables.  The entry layout is the one
src/decompress.c reads: a 16-bit `len` field whose bit 0x8000 flags a
redirect (then the low 15 bits hold the total bit count of the group and
`sym` holds the secondary-table offset). -/

structure huff_entry_t where
  len : Nat
  sym : Nat
deriving Repr, DecidableEq

/-- Decode table: primary array indexed by `HUFF_PRIMARY_BITS` received
bits, flat secondary array indexed by offset plus the extra bits. -/
structure huff_decode_table_t where
  primary : Nat → huff_entry_t
  secondary : Nat → huff_entry_t

/-- Decode one symbol using the two-level table, from src/decompress.c,
`huff_decode2` (lines 20-36): peek `HUFF_MAX_BITS` once, mask for the
primary index, and reuse the same peeked word for the secondary index.
Returns the symbol and the advanced reader. -/
def huff_decode2 (br : bit_reader_t) (t : huff_decode_table_t) :
    Nat × bit_reader_t :=
  let bits := br_peek br HUFF_MAX_BITS
  let e := t.primary (bits &&& ((1 <<< HUFF_PRIMARY_BITS) - 1))
  if e.len &&& 0x8000 = 0 then
    (e.sym, br_consume br e.len)
  else
    let total_bits := e.len &&& 0x7FFF
    let sub_idx := e.sym + ((bits >>> HUFF_PRIMARY_BITS) &&&
        ((1 <<< (total_bits - HUFF_PRIMARY_BITS)) - 1))
    let se := t.secondary sub_idx
    (se.sym, br_consume br se.len)

/-- Modelled from the spec: the single-symbol decode reference algorithm of
§4.2 ("Single-symbol decode (hot path)"): peek `PRIMARY_BITS` for the
primary lookup and re-peek `total` bits for the secondary lookup. -/
def huffDecodeRef (br : bit_reader_t) (t : huff_decode_table_t) :
    Nat × bit_reader_t :=
  let e := t.primary (br_peek br HUFF_PRIMARY_BITS)
  if e.len &&& 0x8000 = 0 then
    (e.sym, br_consume br e.len)
  else
    let total := e.len &&& 0x7FFF
    let e2 := t.secondary (e.sym + ((br_peek br total >>> HUFF_PRIMARY_BITS) &&&
        ((1 <<< (total - HUFF_PRIMARY_BITS)) - 1)))
    (e2.sym, br_consume br e2.len)

/-! ## Match copy (src/decompress.c lines 86-109). -/

/-- Simultaneous copy of `n` bytes from `src` to `dst`; the model of a
`memcpy` between disjoint regions (all uses below are disjoint). -/
def memcpyF (buf : Nat → Nat) (dst src n : Nat) : Nat → Nat :=
  fun j => if dst ≤ j ∧ j < dst + n then buf (src + (j - dst)) else buf j

/-- Model of `memset`: fill `n` bytes at `dst` with `v`. -/
def memsetF (buf : Nat → Nat) (dst v n : Nat) : Nat → Nat :=
  fun j => if dst ≤ j ∧ j < dst + n then v else buf j

/-- The overlapping-copy loop of src/decompress.c lines 97-107: copy
`dist`-sized chunks from the fixed source region until fewer than `dist`
bytes remain, then copy the remainder.  Structural fuel drives the
recursion; every call site passes fuel larger than the iteration count. -/
def chunk_copy : Nat → (Nat → Nat) → Nat → Nat → Nat → Nat → (Nat → Nat)
  | 0, buf, _, _, _, _ => buf
  | fuel + 1, buf, dst, src, rem, d =>
    if d ≤ rem then
      chunk_copy fuel (memcpyF buf dst src d) (dst + d) src (rem - d) d
    else if 0 < rem then memcpyF buf dst src rem
    else buf

/-- The match-copy of src/decompress.c lines 86-109, after the bounds
checks: `dist ≥ length` is a straight copy, `dist == 1` a byte fill with
the previous byte, otherwise the chunked overlapping copy. -/
def copy_match (out : Nat → Nat) (op dist length : Nat) : Nat → Nat :=
  let src := op - dist
  if length ≤ dist then memcpyF out op src length
  else if dist = 1 then memsetF out op (out src) length
  else chunk_copy (length + 1) out op src length dist

/-- The byte-wise reference copy of the claim: sequentially
`out[op+i] = out[op-d+i]` for `i = 0 .. L-1`, each read seeing the bytes
already written. -/
def byte_copy (out : Nat → Nat) (op d : Nat) : Nat → (Nat → Nat)
  | 0 => out
  | i + 1 =>
    let b := byte_copy out op d i
    fun j => if j = op + i then b (op + i - d) else b j

/-! ## Arithmetic helper lemmas for masks and peeks. -/

theorem and_two_pow_sub_one (x n : Nat) : x &&& (2 ^ n - 1) = x % 2 ^ n := by
  apply Nat.eq_of_testBit_eq
  intro i
  simp [Nat.testBit_and, Nat.testBit_mod_two_pow, Nat.testBit_two_pow_sub_one,
    Bool.and_comm]

theorem one_shiftLeft_sub_one (n : Nat) : (1 <<< n) - 1 = 2 ^ n - 1 := by
  simp [Nat.shiftLeft_eq]

theorem stream_bit_lt (d : List Nat) (i : Nat) : stream_bit d i < 2 := by
  rw [stream_bit, Nat.and_one_is_mod]
  exact Nat.mod_lt _ (by norm_num)

theorem peekBits_lt (d : List Nat) (p : Nat) : ∀ n, peekBits d p n < 2 ^ n := by
  intro n
  induction n generalizing p with
  | zero => simp [peekBits]
  | succ m ih =>
    have h1 := stream_bit_lt d p
    have h2 := ih (p + 1)
    simp only [peekBits]
    have : 2 ^ (m + 1) = 2 * 2 ^ m := by ring
    omega

theorem peekBits_split (d : List Nat) :
    ∀ n p m, peekBits d p (n + m) = peekBits d p n + 2 ^ n * peekBits d (p + n) m := by
  intro n
  induction n with
  | zero => intro p m; simp [peekBits]
  | succ k ih =>
    intro p m
    have hrw : k + 1 + m = (k + m) + 1 := by omega
    rw [hrw]
    simp only [peekBits]
    rw [ih (p + 1) m]
    have hp : p + 1 + k = p + (k + 1) := by omega
    rw [hp]
    ring

theorem peekBits_mod (d : List Nat) (p n m : Nat) (h : n ≤ m) :
    peekBits d p m % 2 ^ n = peekBits d p n := by
  obtain ⟨k, rfl⟩ := Nat.exists_eq_add_of_le h
  rw [peekBits_split, Nat.add_mul_mod_self_left]
  exact Nat.mod_eq_of_lt (peekBits_lt d p n)

theorem mod_pow_shift_and (x a b : Nat) :
    ((x % 2 ^ (a + b)) >>> a) &&& (2 ^ b - 1) = (x >>> a) &&& (2 ^ b - 1) := by
  rw [and_two_pow_sub_one, and_two_pow_sub_one, Nat.shiftRight_eq_div_pow,
    Nat.shiftRight_eq_div_pow, pow_add, Nat.mod_mul_right_div_self,
    Nat.mod_mod_of_dvd _ dvd_rfl]

theorem mod_pow_shift_and_le (x a t : Nat) (h : a ≤ t) :
    ((x % 2 ^ t) >>> a) &&& (2 ^ (t - a) - 1) = (x >>> a) &&& (2 ^ (t - a) - 1) := by
  obtain ⟨b, rfl⟩ := Nat.exists_eq_add_of_le h
  simpa using mod_pow_shift_and x a b

/-- Validity of a two-level table: every redirect entry of the primary
array carries a total bit count strictly greater than `HUFF_PRIMARY_BITS`
and at most `HUFF_MAX_BITS`. -/
def valid_table (t : huff_decode_table_t) : Prop :=
  ∀ i < 2 ^ HUFF_PRIMARY_BITS, (t.primary i).len &&& 0x8000 ≠ 0 →
    HUFF_PRIMARY_BITS < (t.primary i).len &&& 0x7FFF ∧
    (t.primary i).len &&& 0x7FFF ≤ HUFF_MAX_BITS

instance (t : huff_decode_table_t) : Decidable (valid_table t) := by
  unfold valid_table; infer_instance

/-- C7: for every bit-reader state and every valid two-level decode table,
`huff_decode2` (which peeks `HUFF_MAX_BITS` once and masks) returns the
same symbol and consumes the same number of bits as the spec's reference
algorithm that peeks `PRIMARY_BITS` for the primary lookup and re-peeks
`total` bits for the secondary lookup. -/
theorem huff_decode2_eq_ref (br : bit_reader_t) (t : huff_decode_table_t)
    (hv : valid_table t) : huff_decode2 br t = huffDecodeRef br t := by
  have hPB : HUFF_PRIMARY_BITS ≤ HUFF_MAX_BITS := by
    norm_num [HUFF_PRIMARY_BITS, HUFF_MAX_BITS]
  have hidx : br_peek br HUFF_MAX_BITS &&& ((1 <<< HUFF_PRIMARY_BITS) - 1) =
      br_peek br HUFF_PRIMARY_BITS := by
    rw [one_shiftLeft_sub_one, and_two_pow_sub_one]
    exact peekBits_mod br.data br.pos _ _ hPB
  have hlt : br_peek br HUFF_PRIMARY_BITS < 2 ^ HUFF_PRIMARY_BITS :=
    peekBits_lt br.data br.pos _
  simp only [huff_decode2, huffDecodeRef, hidx]
  by_cases hflag : (t.primary (br_peek br HUFF_PRIMARY_BITS)).len &&& 0x8000 = 0
  · simp [hflag]
  · simp only [hflag, if_neg, if_false]
    obtain ⟨h9, h15⟩ := hv _ hlt hflag
    set t0 := (t.primary (br_peek br HUFF_PRIMARY_BITS)).len &&& 0x7FFF with ht0
    have hpk : br_peek br t0 = br_peek br HUFF_MAX_BITS % 2 ^ t0 :=
      (peekBits_mod br.data br.pos t0 HUFF_MAX_BITS h15).symm
    have hsub : (br_peek br HUFF_MAX_BITS >>> HUFF_PRIMARY_BITS) &&&
        (1 <<< (t0 - HUFF_PRIMARY_BITS) - 1) =
        (br_peek br t0 >>> HUFF_PRIMARY_BITS) &&&
        (1 <<< (t0 - HUFF_PRIMARY_BITS) - 1) := by
      rw [one_shiftLeft_sub_one, hpk]
      exact (mod_pow_shift_and_le (br_peek br HUFF_MAX_BITS) HUFF_PRIMARY_BITS t0
        (by omega)).symm
    rw [hsub]

/-! ## Theorems about the match copy (claim C2). -/

/-- Closed form of the match copy: inside the written range the result is
the `d`-periodic repetition of the `d` bytes just before `op`. -/
def fill_form (out : Nat → Nat) (op d L : Nat) : Nat → Nat :=
  fun j => if op ≤ j ∧ j < op + L then out (op - d + (j - op) % d) else out j

theorem byte_copy_eq_fill (out : Nat → Nat) (op d : Nat) (hd : 1 ≤ d)
    (hop : d ≤ op) : ∀ L j, byte_copy out op d L j = fill_form out op d L j := by
  intro L
  induction L with
  | zero =>
    intro j
    show out j = fill_form out op d 0 j
    rw [fill_form]
    rw [if_neg (show ¬(op ≤ j ∧ j < op + 0) from by omega)]
  | succ L ih =>
    intro j
    show (if j = op + L then byte_copy out op d L (op + L - d)
          else byte_copy out op d L j) = fill_form out op d (L + 1) j
    by_cases hj : j = op + L
    · rw [if_pos hj, ih, hj]
      rw [fill_form, fill_form]
      rw [if_pos (show op ≤ op + L ∧ op + L < op + (L + 1) from by omega)]
      by_cases hL : L < d
      · rw [if_neg (show ¬(op ≤ op + L - d ∧ op + L - d < op + L) from by omega)]
        congr 1
        have hmod : (op + L - op) % d = L := by
          rw [show op + L - op = L from by omega]
          exact Nat.mod_eq_of_lt hL
        omega
      · push_neg at hL
        rw [if_pos (show op ≤ op + L - d ∧ op + L - d < op + L from by omega)]
        congr 1
        rw [show op + L - d - op = L - d from by omega,
            show op + L - op = L from by omega, ← Nat.mod_eq_sub_mod hL]
    · rw [if_neg hj, ih]
      rw [fill_form, fill_form]
      by_cases hin : op ≤ j ∧ j < op + L
      · rw [if_pos hin, if_pos (show op ≤ j ∧ j < op + (L + 1) from by omega)]
      · rw [if_neg hin, if_neg (show ¬(op ≤ j ∧ j < op + (L + 1)) from by omega)]

theorem chunk_copy_eq_fill (d : Nat) (hd : 2 ≤ d) :
    ∀ fuel rem buf dst src, src + d ≤ dst → rem < fuel → ∀ j,
    chunk_copy fuel buf dst src rem d j =
      if dst ≤ j ∧ j < dst + rem then buf (src + (j - dst) % d) else buf j := by
  intro fuel
  induction fuel with
  | zero => intro rem buf dst src _ h; omega
  | succ fuel ih =>
    intro rem buf dst src hsrc hrem j
    by_cases hstep : d ≤ rem
    · show (if d ≤ rem then
          chunk_copy fuel (memcpyF buf dst src d) (dst + d) src (rem - d) d
        else if 0 < rem then memcpyF buf dst src rem else buf) j = _
      rw [if_pos hstep]
      rw [ih (rem - d) (memcpyF buf dst src d) (dst + d) src (by omega) (by omega) j]
      by_cases hA : dst + d ≤ j ∧ j < dst + d + (rem - d)
      · rw [if_pos hA, if_pos (show dst ≤ j ∧ j < dst + rem from by omega)]
        have hmlt : (j - (dst + d)) % d < d := Nat.mod_lt _ (by omega)
        rw [memcpyF]
        rw [if_neg (show ¬(dst ≤ src + (j - (dst + d)) % d ∧
            src + (j - (dst + d)) % d < dst + d) from by omega)]
        congr 1
        rw [show j - (dst + d) = j - dst - d from by omega,
            ← Nat.mod_eq_sub_mod (show d ≤ j - dst from by omega)]
      · rw [if_neg hA]
        rw [memcpyF]
        by_cases hB : dst ≤ j ∧ j < dst + d
        · rw [if_pos hB, if_pos (show dst ≤ j ∧ j < dst + rem from by omega)]
          congr 1
          rw [Nat.mod_eq_of_lt (show j - dst < d from by omega)]
        · rw [if_neg hB, if_neg (show ¬(dst ≤ j ∧ j < dst + rem) from by omega)]
    · push_neg at hstep
      show (if d ≤ rem then
          chunk_copy fuel (memcpyF buf dst src d) (dst + d) src (rem - d) d
        else if 0 < rem then memcpyF buf dst src rem else buf) j = _
      rw [if_neg (show ¬d ≤ rem from by omega)]
      by_cases hz : 0 < rem
      · rw [if_pos hz, memcpyF]
        by_cases hB : dst ≤ j ∧ j < dst + rem
        · rw [if_pos hB, if_pos hB]
          congr 1
          rw [Nat.mod_eq_of_lt (show j - dst < d from by omega)]
        · rw [if_neg hB, if_neg hB]
      · rw [if_neg hz, if_neg (show ¬(dst ≤ j ∧ j < dst + rem) from by omega)]

theorem copy_match_eq_fill (out : Nat → Nat) (op d L : Nat) (hd : 1 ≤ d)
    (hop : d ≤ op) : copy_match out op d L = fill_form out op d L := by
  funext j
  show (if L ≤ d then memcpyF out op (op - d) L
      else if d = 1 then memsetF out op (out (op - d)) L
      else chunk_copy (L + 1) out op (op - d) L d) j = _
  by_cases h1 : L ≤ d
  · rw [if_pos h1, memcpyF, fill_form]
    by_cases h2 : op ≤ j ∧ j < op + L
    · rw [if_pos h2, if_pos h2]
      congr 1
      rw [Nat.mod_eq_of_lt (show j - op < d from by omega)]
    · rw [if_neg h2, if_neg h2]
  · rw [if_neg h1]
    by_cases h2 : d = 1
    · rw [if_pos h2, memsetF, fill_form]
      subst h2
      by_cases h3 : op ≤ j ∧ j < op + L
      · rw [if_pos h3, if_pos h3]
        congr 1
        omega
      · rw [if_neg h3, if_neg h3]
    · rw [if_neg h2]
      rw [chunk_copy_eq_fill d (by omega) (L + 1) L out op (op - d)
        (by omega) (by omega) j]
      rw [fill_form]

/-- C2: the match copy of `decompress_huffman_block` (straight copy when
`dist ≥ length`, byte fill when `dist == 1`, chunked copy otherwise)
writes exactly the bytes of the sequential byte-wise copy
`out[op+i] = out[op-d+i]`, preserving overlap semantics. -/
theorem copy_match_eq_byte_copy (out : Nat → Nat) (op d L : Nat)
    (hd : 1 ≤ d) (hop : d ≤ op) :
    copy_match out op d L = byte_copy out op d L := by
  rw [copy_match_eq_fill out op d L hd hop]
  funext j
  rw [byte_copy_eq_fill out op d hd hop L j]

/-! ## Canonical codes and the two-level table build (modelled from the
spec, §4.2: huffman.h / huffman.c are not under src/).  Codes are
transmitted first-bit-lowest, so a received index matches a code when its
low `len` bits equal the codeword in reception order; `bit_rev` converts
the canonical code value (whose prefix structure lives at the high end)
into that reception order. -/

/-- Count of symbols whose code length is exactly `l`. -/
def cnt_of (lens : List Nat) (l : Nat) : Nat :=
  (lens.filter (fun x => x = l)).length

/-- Modelled from the spec: starting canonical code for each length,
`next[1] = 0`, `next[l] = (next[l-1] + cnt[l-1]) << 1`. -/
def next_code (lens : List Nat) : Nat → Nat
  | 0 => 0
  | 1 => 0
  | l + 2 => (next_code lens (l + 1) + cnt_of lens (l + 1)) <<< 1

/-- Modelled from the spec: canonical code of symbol `s` — symbols of equal
length are numbered in symbol order starting at `next[len]`. -/
def code_of (lens : List Nat) (s : Nat) : Nat :=
  next_code lens (lens.getD s 0) +
    ((lens.take s).filter (fun x => x = lens.getD s 0)).length

/-- Reverse the low `l` bits of `c` (canonical code value to reception
order, first transmitted bit lowest). -/
def bit_rev : Nat → Nat → Nat
  | 0, _ => 0
  | l + 1, c => (c &&& 1) * 2 ^ l + bit_rev l (c >>> 1)

/-- Does the short code of symbol `s` (length in `[1, HUFF_PRIMARY_BITS]`)
occupy primary slot `i`? -/
def matches_short (lens : List Nat) (i s : Nat) : Bool :=
  let l := lens.getD s 0
  decide (0 < l) && decide (l ≤ HUFF_PRIMARY_BITS) &&
    decide (i % 2 ^ l = bit_rev l (code_of lens s))

def find_short (lens : List Nat) (i : Nat) : Option Nat :=
  (List.range lens.length).find? (fun s => matches_short lens i s)

/-- Is the long-code symbol `s` (length above `HUFF_PRIMARY_BITS`) in the
secondary group of primary prefix `p`? -/
def in_group (lens : List Nat) (p s : Nat) : Bool :=
  let l := lens.getD s 0
  decide (HUFF_PRIMARY_BITS < l) &&
    decide (bit_rev l (code_of lens s) % 2 ^ HUFF_PRIMARY_BITS = p)

def group_syms (lens : List Nat) (p : Nat) : List Nat :=
  (List.range lens.length).filter (fun s => in_group lens p s)

/-- Maximal code length in the secondary group of prefix `p`. -/
def group_total (lens : List Nat) (p : Nat) : Nat :=
  (group_syms lens p).foldr (fun s m => max (lens.getD s 0) m) 0

def has_long (lens : List Nat) (p : Nat) : Bool :=
  decide (group_syms lens p ≠ [])

/-- Byte offset of the sub-table of prefix `p` in the bump-allocated flat
secondary array (groups allocated in increasing prefix order). -/
def sec_offset (lens : List Nat) : Nat → Nat
  | 0 => 0
  | p + 1 => sec_offset lens p +
      (if has_long lens p then 2 ^ (group_total lens p - HUFF_PRIMARY_BITS) else 0)

/-- Primary entry at slot `i`: a directly decodable short code, a redirect
into the secondary array (flag bit 0x8000, total bits, offset), or an
empty slot. -/
def primary_entry (lens : List Nat) (i : Nat) : huff_entry_t :=
  match find_short lens i with
  | some s => { len := lens.getD s 0, sym := s }
  | none =>
    if has_long lens i then
      { len := 0x8000 + group_total lens i, sym := sec_offset lens i }
    else { len := 0, sym := 0 }

/-- Entry `j` of the sub-table of prefix `p`: the long code whose received
index extends prefix `p` by the extra bits `j`. -/
def matches_long (lens : List Nat) (p j s : Nat) : Bool :=
  let l := lens.getD s 0
  decide (HUFF_PRIMARY_BITS < l) &&
    decide ((p + 2 ^ HUFF_PRIMARY_BITS * j) % 2 ^ l = bit_rev l (code_of lens s))

def sub_table (lens : List Nat) (p : Nat) : List huff_entry_t :=
  (List.range (2 ^ (group_total lens p - HUFF_PRIMARY_BITS))).map (fun j =>
    match (List.range lens.length).find? (fun s => matches_long lens p j s) with
    | some s => { len := lens.getD s 0, sym := s }
    | none => { len := 0, sym := 0 })

def secondary_entries (lens : List Nat) : List huff_entry_t :=
  ((List.range (2 ^ HUFF_PRIMARY_BITS)).map (fun p =>
    if has_long lens p then sub_table lens p else [])).flatten

/-- Modelled from the spec: build the two-level decode table from a length
vector (§4.2 "Two-level decode table build"). -/
def huff_build_decode_table2 (lens : List Nat) : huff_decode_table_t where
  primary := fun i => primary_entry lens i
  secondary := fun k => (secondary_entries lens).getD k { len := 0, sym := 0 }

/-! ## Tree transmission (modelled from the spec, §4.2). -/

/-- Read `n` 4-bit code lengths. -/
def read_4bit_lens : Nat → bit_reader_t → List Nat × bit_reader_t
  | 0, br => ([], br)
  | n + 1, br =>
    let r := br_read br 4
    let rest := read_4bit_lens n r.2
    (r.1 :: rest.1, rest.2)

/-- Kraft sum of a length vector in units of `2 ^ (HUFF_MAX_BITS - l)`. -/
def kraft_sum (lens : List Nat) : Nat :=
  (lens.map (fun l => if l = 0 then 0 else 2 ^ (HUFF_MAX_BITS - l))).sum

def kraft_ok (lens : List Nat) : Bool :=
  decide (kraft_sum lens ≤ 2 ^ HUFF_MAX_BITS)

/-- Modelled from the spec: `huff_read_trees` — read `n_ll` (9 bits,
range [257, 286]) and `n_dist` (5 bits, range [1, 30]), then the two
concatenated length vectors, 4 bits per length; length vectors are padded
with zeros to the alphabet sizes; a count out of range or a Kraft
violation is the corrupt outcome (`none`). -/
def huff_read_trees (br : bit_reader_t) :
    Option (List Nat × List Nat × bit_reader_t) :=
  let r1 := br_read br 9
  let r2 := br_read r1.2 5
  let n_ll := r1.1
  let n_dist := r2.1
  if n_ll < 257 ∨ 286 < n_ll ∨ n_dist < 1 ∨ 30 < n_dist then none
  else
    let rl := read_4bit_lens n_ll r2.2
    let rd := read_4bit_lens n_dist rl.2
    let ll_lens := rl.1 ++ List.replicate (LITLEN_SYMS - n_ll) 0
    let d_lens := rd.1 ++ List.replicate (DIST_SYMS - n_dist) 0
    if kraft_ok ll_lens && kraft_ok d_lens then some (ll_lens, d_lens, rd.2)
    else none

/-! ## The token-decode loop of `decompress_huffman_block`
(src/decompress.c lines 59-111). -/

/-- Observable record of one decoded token (instrumentation of the loop:
`op` is the output position before the token is applied). -/
inductive tok_ev where
  | lit (op b : Nat)
  | mat (op lidx didx length dist : Nat)
deriving Repr, DecidableEq

structure dec_state where
  rc : Nat
  br : bit_reader_t
  out : Nat → Nat
  op : Nat
  evs : List tok_ev

/-- The token-decode loop, from src/decompress.c lines 61-111.  Structural
fuel bounds the recursion; every iteration either returns or strictly
increases `op`, so the caller's fuel `raw_size + 1` is never exhausted
(exhaustion returns the out-of-band code 999, which no reachable path
produces).  `br_read` of a zero-bit count returns 0 and consumes nothing,
so the C guard `if (extra > 0)` needs no separate branch. -/
def decode_tokens (ll_tab d_tab : huff_decode_table_t) (raw_size : Nat) :
    Nat → bit_reader_t → (Nat → Nat) → Nat → List tok_ev → dec_state
  | 0, br, out, op, evs => ⟨999, br, out, op, evs⟩
  | fuel + 1, br, out, op, evs =>
    let r := huff_decode2 br ll_tab
    let sym := r.1
    let br1 := r.2
    if sym < 256 then
      if raw_size ≤ op then ⟨ ODZ_ERR_CORRUPT, br1, out, op, evs⟩
      else decode_tokens ll_tab d_tab raw_size fuel br1
        (fun j => if j = op then sym else out j) (op + 1)
        (evs ++ [tok_ev.lit op sym])
    else if sym = LITLEN_END then ⟨ ODZ_OK, br1, out, op, evs⟩
    else
      let code_idx := sym - 257
      if 29 ≤ code_idx then ⟨ ODZ_ERR_CORRUPT, br1, out, op, evs⟩
      else
        let rl := br_read br1 (extra_lbits.getD code_idx 0)
        let length := base_length.getD code_idx 0 + rl.1
        let dr := huff_decode2 rl.2 d_tab
        let dcode := dr.1
        if 30 ≤ dcode then ⟨ ODZ_ERR_CORRUPT, dr.2, out, op, evs⟩
        else
          let rd := br_read dr.2 (extra_dbits.getD dcode 0)
          let dist := base_dist.getD dcode 0 + rd.1
          if dist = 0 ∨ op < dist then ⟨ ODZ_ERR_CORRUPT, rd.2, out, op, evs⟩
          else if raw_size < op + length then ⟨ ODZ_ERR_CORRUPT, rd.2, out, op, evs⟩
          else decode_tokens ll_tab d_tab raw_size fuel rd.2
            (copy_match out op dist length) (op + length)
            (evs ++ [tok_ev.mat op code_idx dcode length dist])

/-- `decompress_huffman_block` from src/decompress.c lines 39-114: read the
trees, build the two decode tables, run the token loop from output
position 0.  A tree-reading failure is the corrupt outcome; the table
build in this model is total (the C maps its allocation failure to OOM). -/
def decompress_huffman_block (comp : List Nat) (raw_size : Nat) : dec_state :=
  match huff_read_trees (br_init comp) with
  | none => ⟨ ODZ_ERR_CORRUPT, br_init comp, fun _ => 0, 0, []⟩
  | some (ll_lens, d_lens, br) =>
    decode_tokens (huff_build_decode_table2 ll_lens)
      (huff_build_decode_table2 d_lens) raw_size (raw_size + 1) br
      (fun _ => 0) 0 []

/-! ## Container decode (src/decompress.c lines 118-206). -/

/-- Little-endian readers of odz.h (not under src/; modelled from the
spec's "little-endian" fields). -/
def rd_u32le (l : List Nat) : Nat :=
  l.getD 0 0 + 256 * l.getD 1 0 + 65536 * l.getD 2 0 + 16777216 * l.getD 3 0

def rd_u64le (l : List Nat) : Nat :=
  l.getD 0 0 + 256 * l.getD 1 0 + 65536 * l.getD 2 0 + 16777216 * l.getD 3 0 +
  4294967296 * l.getD 4 0 + 1099511627776 * l.getD 5 0 +
  281474976710656 * l.getD 6 0 + 72057594037927936 * l.getD 7 0

/-- Model of `fread(dst, 1, n, in)`: `n` bytes from the front of the
remaining stream, or `none` on a short read. -/
def take_exact (n : Nat) (s : List Nat) : Option (List Nat × List Nat) :=
  if n ≤ s.length then some (s.take n, s.drop n) else none

/-- Options struct from src/libodzip.h: an optional progress callback
`(processed, total, userdata) → int` and the opaque userdata (a `Nat`
stands in for the `void *`). -/
structure odz_options_t where
  progress : Option (Nat → Nat → Nat → Nat)
  userdata : Nat

/-- Result of a decompression run: status, bytes written to the output
stream, accumulated `total_out`, and the observable trace of progress
callback invocations `(processed, total, userdata)`. -/
structure run_state where
  rc : Nat
  output : List Nat
  total_out : Nat
  calls : List (Nat × Nat × Nat)
deriving Repr, DecidableEq

/-- One progress-callback step (src/decompress.c lines 187-193): the
returned code and the trace entry, empty when no callback is set. -/
def progress_step (opts : Option odz_options_t) (tot orig : Nat) :
    Nat × List (Nat × Nat × Nat) :=
  match opts with
  | none => (0, [])
  | some o =>
    match o.progress with
    | none => (0, [])
    | some f => (f tot orig o.userdata, [(tot, orig, o.userdata)])

/-- Result of parsing one block body. -/
inductive blk_res where
  | err (rc : Nat)
  | okb (rest : List Nat) (data : List Nat) (raw : Nat)

/-- Parse one block body given its type bits (src/decompress.c lines
147-185): stored blocks are copied through, Huffman blocks run
`decompress_huffman_block` and require `out_pos == raw_size`; any other
type is the format error. -/
def parse_block (s1 : List Nat) (blk_type : Nat) : blk_res :=
  if blk_type = ODZ_BLOCK_STORED then
    match take_exact 4 s1 with
    | none => blk_res.err ODZ_ERR_IO
    | some (szb, s2) =>
      let raw_size := rd_u32le szb
      if ODZ_BLOCK_SIZE < raw_size then blk_res.err ODZ_ERR_CORRUPT
      else
        match take_exact raw_size s2 with
        | none => blk_res.err ODZ_ERR_IO
        | some (data, s3) => blk_res.okb s3 data raw_size
  else if blk_type = ODZ_BLOCK_HUFFMAN then
    match take_exact 8 s1 with
    | none => blk_res.err ODZ_ERR_IO
    | some (szb, s2) =>
      let raw_size := rd_u32le (szb.take 4)
      let comp_size := rd_u32le (szb.drop 4)
      if ODZ_BLOCK_SIZE < raw_size then blk_res.err ODZ_ERR_CORRUPT
      else
        match take_exact comp_size s2 with
        | none => blk_res.err ODZ_ERR_IO
        | some (comp, s3) =>
          let dres := decompress_huffman_block comp raw_size
          if dres.rc ≠ ODZ_OK then blk_res.err dres.rc
          else if dres.op ≠ raw_size then blk_res.err ODZ_ERR_CORRUPT
          else blk_res.okb s3 ((List.range raw_size).map dres.out) raw_size
  else blk_res.err ODZ_ERR_FORMAT

/-- The block loop of `odz_decompress` (src/decompress.c lines 139-196).
Fuel bounds the recursion; each iteration consumes at least one input
byte, so the caller's `input.length + 1` is never exhausted (exhaustion
returns the out-of-band code 999). -/
def decompress_blocks (opts : Option odz_options_t) (orig : Nat) :
    Nat → List Nat → List Nat → Nat → List (Nat × Nat × Nat) → run_state
  | 0, _, out, tot, tr => ⟨999, out, tot, tr⟩
  | fuel + 1, s, out, tot, tr =>
    match take_exact 1 s with
    | none => ⟨ ODZ_ERR_IO, out, tot, tr⟩
    | some (h, s1) =>
      let b := h.getD 0 0
      let is_last := b &&& 1
      match parse_block s1 ((b >>> 1) &&& 3) with
      | blk_res.err rc => ⟨rc, out, tot, tr⟩
      | blk_res.okb s3 data raw =>
        let out2 := out ++ data
        let tot2 := tot + raw
        let ps := progress_step opts tot2 orig
        let tr2 := tr ++ ps.2
        if ps.1 ≠ 0 then ⟨ ODZ_ERR_IO, out2, tot2, tr2⟩
        else if is_last = 1 then ⟨ ODZ_OK, out2, tot2, tr2⟩
        else decompress_blocks opts orig fuel s3 out2 tot2 tr2

/-- `odz_decompress` from src/decompress.c lines 118-206 over an in-memory
input stream: check the 12-byte header ("ODZ", version, u64 LE original
size), run the block loop, and require the accumulated output size to
equal the declared one. -/
def odz_decompress (input : List Nat) (opts : Option odz_options_t) :
    run_state :=
  match take_exact 12 input with
  | none => ⟨ ODZ_ERR_IO, [], 0, []⟩
  | some (hdr, rest) =>
    if hdr.getD 0 0 ≠ 79 ∨ hdr.getD 1 0 ≠ 68 ∨ hdr.getD 2 0 ≠ 90 then
      ⟨ ODZ_ERR_FORMAT, [], 0, []⟩
    else if hdr.getD 3 0 ≠ ODZ_VERSION then ⟨ ODZ_ERR_FORMAT, [], 0, []⟩
    else
      let original_size := rd_u64le (hdr.drop 4)
      let r := decompress_blocks opts original_size (rest.length + 1) rest [] 0 []
      if r.rc = ODZ_OK ∧ r.total_out ≠ original_size then
        ⟨ ODZ_ERR_CORRUPT, r.output, r.total_out, r.calls⟩
      else r

/-! ## Claim C3: invariants of the token-decode loop. -/

/-- Bounds required of one decoded token: literals write strictly below
`raw_size`; a length/distance pair satisfies the claim's five bounds. -/
def ev_ok (raw_size : Nat) : tok_ev → Prop
  | tok_ev.lit op _ => op < raw_size
  | tok_ev.mat op lidx didx length dist =>
    3 ≤ length ∧ length ≤ 258 ∧ 1 ≤ dist ∧ dist ≤ op ∧
    op + length ≤ raw_size ∧ lidx < 29 ∧ didx < 30

instance (raw_size : Nat) (e : tok_ev) : Decidable (ev_ok raw_size e) := by
  cases e <;> simp only [ev_ok] <;> infer_instance

theorem br_read_fst_lt (br : bit_reader_t) (n : Nat) : (br_read br n).1 < 2 ^ n :=
  peekBits_lt br.data br.pos n

/-- Per-index bounds of the LZ length tables (base at least 3 and base
plus the largest extra value at most 258). -/
theorem base_length_bounds :
    ∀ i < 29, 3 ≤ base_length.getD i 0 ∧
      base_length.getD i 0 + 2 ^ (extra_lbits.getD i 0) ≤ 259 := by decide

/-- Invariant of the token-decode loop: starting from `op ≤ raw_size` with
a well-bounded trace, the final position stays at most `raw_size` and
every recorded token satisfies its bounds. -/
theorem decode_tokens_inv (ll_tab d_tab : huff_decode_table_t) (raw_size : Nat) :
    ∀ fuel br out op evs, op ≤ raw_size → (∀ e ∈ evs, ev_ok raw_size e) →
    (decode_tokens ll_tab d_tab raw_size fuel br out op evs).op ≤ raw_size ∧
    ∀ e ∈ (decode_tokens ll_tab d_tab raw_size fuel br out op evs).evs,
      ev_ok raw_size e := by
  intro fuel
  induction fuel with
  | zero =>
    intro br out op evs hop hevs
    exact ⟨hop, hevs⟩
  | succ fuel ih =>
    intro br out op evs hop hevs
    simp only [decode_tokens]
    by_cases h1 : (huff_decode2 br ll_tab).1 < 256
    · rw [if_pos h1]
      by_cases h2 : raw_size ≤ op
      · rw [if_pos h2]
        exact ⟨hop, hevs⟩
      · rw [if_neg h2]
        apply ih
        · omega
        · intro e he
          rcases List.mem_append.mp he with h | h
          · exact hevs e h
          · rw [List.mem_singleton.mp h]
            show op < raw_size
            omega
    · rw [if_neg h1]
      by_cases h2 : (huff_decode2 br ll_tab).1 = LITLEN_END
      · rw [if_pos h2]
        exact ⟨hop, hevs⟩
      · rw [if_neg h2]
        by_cases h3 : 29 ≤ (huff_decode2 br ll_tab).1 - 257
        · rw [if_pos h3]
          exact ⟨hop, hevs⟩
        · rw [if_neg h3]
          by_cases h4 : 30 ≤ (huff_decode2 (br_read (huff_decode2 br ll_tab).2
              (extra_lbits.getD ((huff_decode2 br ll_tab).1 - 257) 0)).2 d_tab).1
          · rw [if_pos h4]
            exact ⟨hop, hevs⟩
          · rw [if_neg h4]
            set sym := (huff_decode2 br ll_tab).1 with hsym
            set ci := sym - 257 with hci
            set rl := br_read (huff_decode2 br ll_tab).2 (extra_lbits.getD ci 0)
              with hrl
            set length := base_length.getD ci 0 + rl.1 with hlength
            set dr := huff_decode2 rl.2 d_tab with hdr2
            set dc := dr.1 with hdc
            set rd := br_read dr.2 (extra_dbits.getD dc 0) with hrd2
            set dist := base_dist.getD dc 0 + rd.1 with hdist
            by_cases h5 : dist = 0 ∨ op < dist
            · rw [if_pos h5]
              exact ⟨hop, hevs⟩
            · rw [if_neg h5]
              by_cases h6 : raw_size < op + length
              · rw [if_pos h6]
                exact ⟨hop, hevs⟩
              · rw [if_neg h6]
                have hci29 : ci < 29 := by omega
                have htbl := base_length_bounds ci hci29
                have hrl1 : rl.1 < 2 ^ (extra_lbits.getD ci 0) :=
                  br_read_fst_lt _ _
                apply ih
                · omega
                · intro e he
                  rcases List.mem_append.mp he with h | h
                  · exact hevs e h
                  · rw [List.mem_singleton.mp h]
                    show 3 ≤ length ∧ length ≤ 258 ∧ 1 ≤ dist ∧ dist ≤ op ∧
                      op + length ≤ raw_size ∧ ci < 29 ∧ dc < 30
                    refine ⟨by omega, by omega, by omega, by omega, by omega,
                      hci29, by omega⟩

/-- One step of the loop returns the corrupt status whenever the decoded
length/distance parameters violate any of the claimed bounds. -/
theorem decode_tokens_violation (ll_tab d_tab : huff_decode_table_t)
    (raw_size fuel : Nat) (br : bit_reader_t) (out : Nat → Nat) (op : Nat)
    (evs : List tok_ev) (sym ci length dc dist : Nat) (rl rd : Nat × bit_reader_t)
    (dr : Nat × bit_reader_t)
    (hsym : sym = (huff_decode2 br ll_tab).1)
    (h256 : 256 < sym)
    (hci : ci = sym - 257)
    (hrl : rl = br_read (huff_decode2 br ll_tab).2 (extra_lbits.getD ci 0))
    (hlength : length = base_length.getD ci 0 + rl.1)
    (hdr : dr = huff_decode2 rl.2 d_tab)
    (hdc : dc = dr.1)
    (hrd : rd = br_read dr.2 (extra_dbits.getD dc 0))
    (hdist : dist = base_dist.getD dc 0 + rd.1)
    (hviol : ¬(3 ≤ length ∧ length ≤ 258 ∧ 1 ≤ dist ∧ dist ≤ op ∧
      op + length ≤ raw_size ∧ ci < 29 ∧ dc < 30)) :
    (decode_tokens ll_tab d_tab raw_size (fuel + 1) br out op evs).rc =
      ODZ_ERR_CORRUPT := by
  simp only [decode_tokens]
  rw [if_neg (show ¬(huff_decode2 br ll_tab).1 < 256 from by omega),
    if_neg (show ¬(huff_decode2 br ll_tab).1 = LITLEN_END from by
      show ¬(huff_decode2 br ll_tab).1 = 256
      omega)]
  by_cases h3 : 29 ≤ (huff_decode2 br ll_tab).1 - 257
  · rw [if_pos h3]
  · rw [if_neg h3]
    rw [← hsym, ← hci, ← hrl, ← hlength, ← hdr, ← hdc, ← hrd, ← hdist]
    have hci29 : ci < 29 := by omega
    have htbl := base_length_bounds ci hci29
    have hrl1 : rl.1 < 2 ^ (extra_lbits.getD ci 0) := by
      rw [hrl]; exact br_read_fst_lt _ _
    by_cases h4 : 30 ≤ dc
    · rw [if_pos h4]
    · rw [if_neg h4]
      by_cases h5 : dist = 0 ∨ op < dist
      · rw [if_pos h5]
      · rw [if_neg h5]
        by_cases h6 : raw_size < op + length
        · rw [if_pos h6]
        · exfalso
          exact hviol ⟨by omega, by omega, by omega, by omega, by omega,
            hci29, by omega⟩

/-- C3: throughout the token-decode loop of `decompress_huffman_block`,
`out_pos ≤ raw_size` holds at every step, every recorded length/distance
pair satisfies `length ∈ [3, 258]`, `distance ∈ [1, out_pos]`,
`out_pos + length ≤ raw_size`, `length_code_idx ∈ [0, 29)` and
`dist_code_idx ∈ [0, 30)`, and a decoded pair violating any of those
bounds makes the loop return the corrupt status. -/
theorem decode_loop_invariants :
    (∀ (ll_tab d_tab : huff_decode_table_t) (raw_size fuel : Nat)
      (br : bit_reader_t) (out : Nat → Nat) (op : Nat) (evs : List tok_ev),
      op ≤ raw_size → (∀ e ∈ evs, ev_ok raw_size e) →
      (decode_tokens ll_tab d_tab raw_size fuel br out op evs).op ≤ raw_size ∧
      ∀ e ∈ (decode_tokens ll_tab d_tab raw_size fuel br out op evs).evs,
        ev_ok raw_size e) ∧
    (∀ (ll_tab d_tab : huff_decode_table_t) (raw_size fuel : Nat)
      (br : bit_reader_t) (out : Nat → Nat) (op : Nat) (evs : List tok_ev)
      (sym ci length dc dist : Nat) (rl rd dr : Nat × bit_reader_t),
      sym = (huff_decode2 br ll_tab).1 → 256 < sym → ci = sym - 257 →
      rl = br_read (huff_decode2 br ll_tab).2 (extra_lbits.getD ci 0) →
      length = base_length.getD ci 0 + rl.1 →
      dr = huff_decode2 rl.2 d_tab → dc = dr.1 →
      rd = br_read dr.2 (extra_dbits.getD dc 0) →
      dist = base_dist.getD dc 0 + rd.1 →
      ¬(3 ≤ length ∧ length ≤ 258 ∧ 1 ≤ dist ∧ dist ≤ op ∧
        op + length ≤ raw_size ∧ ci < 29 ∧ dc < 30) →
      (decode_tokens ll_tab d_tab raw_size (fuel + 1) br out op evs).rc =
        ODZ_ERR_CORRUPT) := by
  constructor
  · intro ll_tab d_tab raw_size fuel br out op evs hop hevs
    exact decode_tokens_inv ll_tab d_tab raw_size fuel br out op evs hop hevs
  · intro ll_tab d_tab raw_size fuel br out op evs sym ci length dc dist rl rd
      dr h1 h2 h3 h4 h5 h6 h7 h8 h9 h10
    exact decode_tokens_violation ll_tab d_tab raw_size fuel br out op evs
      sym ci length dc dist rl rd dr h1 h2 h3 h4 h5 h6 h7 h8 h9 h10

/-- Trivial table decoding the end-of-block symbol at once (witness data). -/
def endTab : huff_decode_table_t where
  primary := fun _ => { len := 3, sym := 256 }
  secondary := fun _ => { len := 0, sym := 0 }

theorem decode_loop_invariants_witness :
    (decode_tokens endTab endTab 5 6 (br_init [170]) (fun _ => 0) 0 []).op ≤ 5 :=
  (decode_loop_invariants.1 endTab endTab 5 6 (br_init [170]) (fun _ => 0) 0 []
    (by decide) (by simp)).1

/-! ## Well-formed encoded blocks and the container-level runs
(claims C4, C5, C8). -/

def u32le (n : Nat) : List Nat :=
  [n % 256, n / 256 % 256, n / 65536 % 256, n / 16777216 % 256]

def u64le (n : Nat) : List Nat :=
  [n % 256, n / 256 % 256, n / 65536 % 256, n / 16777216 % 256,
   n / 4294967296 % 256, n / 1099511627776 % 256,
   n / 281474976710656 % 256, n / 72057594037927936 % 256]

theorem u32le_length (n : Nat) : (u32le n).length = 4 := rfl

theorem rd_u32le_u32le (n : Nat) (h : n < 4294967296) :
    rd_u32le (u32le n) = n := by
  simp [rd_u32le, u32le]
  omega

theorem rd_u64le_u64le (n : Nat) (h : n < 18446744073709551616) :
    rd_u64le (u64le n) = n := by
  simp [rd_u64le, u64le]
  omega

theorem take_exact_of_length (a b : List Nat) (n : Nat) (h : a.length = n) :
    take_exact n (a ++ b) = some (a, b) := by
  subst h
  simp [take_exact, List.take_left, List.drop_left]

theorem take_exact_cons_one (x : Nat) (l : List Nat) :
    take_exact 1 (x :: l) = some ([x], l) := by
  simp [take_exact]

theorem hdr_is_last (ty last : Nat) (hlast : last ≤ 1) :
    (2 * ty + last) &&& 1 = last := by
  rw [Nat.and_one_is_mod]
  omega

theorem hdr_blk_type (ty last : Nat) (hty : ty ≤ 3) (hlast : last ≤ 1) :
    ((2 * ty + last) >>> 1) &&& 3 = ty := by
  have h3 : (3 : Nat) = 2 ^ 2 - 1 := by norm_num
  rw [h3, and_two_pow_sub_one, Nat.shiftRight_eq_div_pow]
  norm_num
  omega

/-- An abstract encoded block: a stored payload or a Huffman block with
its declared raw size and compressed bytes. -/
inductive enc_blk where
  | stored (data : List Nat)
  | huff (raw : Nat) (comp : List Nat)

def blk_type_of : enc_blk → Nat
  | enc_blk.stored _ => ODZ_BLOCK_STORED
  | enc_blk.huff _ _ => ODZ_BLOCK_HUFFMAN

def blk_raw : enc_blk → Nat
  | enc_blk.stored data => data.length
  | enc_blk.huff raw _ => raw

/-- Bytes of the block after the flags byte. -/
def blk_tail : enc_blk → List Nat
  | enc_blk.stored data => u32le data.length ++ data
  | enc_blk.huff raw comp => u32le raw ++ u32le comp.length ++ comp

/-- Full encoding of a block with the given `is_last` bit. -/
def enc_blk_bytes (last : Nat) (b : enc_blk) : List Nat :=
  (2 * blk_type_of b + last) :: blk_tail b

/-- Output bytes produced when the decoder processes the block. -/
def blk_out : enc_blk → List Nat
  | enc_blk.stored data => data
  | enc_blk.huff raw comp =>
    (List.range raw).map (decompress_huffman_block comp raw).out

/-- Well-formedness of an encoded block: sizes within the format limits
and, for Huffman blocks, a body that decompresses successfully to exactly
`raw` bytes. -/
def blk_ok : enc_blk → Prop
  | enc_blk.stored data => data.length ≤ ODZ_BLOCK_SIZE
  | enc_blk.huff raw comp => raw ≤ ODZ_BLOCK_SIZE ∧
    comp.length < 4294967296 ∧
    (decompress_huffman_block comp raw).rc = ODZ_OK ∧
    (decompress_huffman_block comp raw).op = raw

/-- Concatenated encoding of a non-empty block sequence, flagging the last
block. -/
def enc_blocks : List enc_blk → List Nat
  | [] => []
  | [b] => enc_blk_bytes 1 b
  | b :: rest => enc_blk_bytes 0 b ++ enc_blocks rest

/-- The 12-byte file header: magic "ODZ", version, u64 LE original size. -/
def file_hdr (orig : Nat) : List Nat := [79, 68, 90, ODZ_VERSION] ++ u64le orig

/-- Expected progress-callback trace over a block sequence starting from
accumulated output `tot`. -/
def calls_of (opts : Option odz_options_t) (orig : Nat) :
    Nat → List enc_blk → List (Nat × Nat × Nat)
  | _, [] => []
  | tot, b :: rest =>
    (progress_step opts (tot + blk_raw b) orig).2 ++
      calls_of opts orig (tot + blk_raw b) rest

/-- All progress callbacks over the sequence return zero (continue). -/
def calls_zero (opts : Option odz_options_t) (orig : Nat) :
    Nat → List enc_blk → Prop
  | _, [] => True
  | tot, b :: rest => (progress_step opts (tot + blk_raw b) orig).1 = 0 ∧
      calls_zero opts orig (tot + blk_raw b) rest

theorem blk_type_of_le (b : enc_blk) : blk_type_of b ≤ 3 := by
  cases b <;> simp [blk_type_of, ODZ_BLOCK_STORED, ODZ_BLOCK_HUFFMAN]

/-- Parsing the body of a well-formed encoded block succeeds and yields
its decoded bytes. -/
theorem parse_block_enc (b : enc_blk) (t : List Nat) (hok : blk_ok b) :
    parse_block (blk_tail b ++ t) (blk_type_of b) =
      blk_res.okb t (blk_out b) (blk_raw b) := by
  cases b with
  | stored data =>
    have hlen : data.length ≤ ODZ_BLOCK_SIZE := hok
    show parse_block ((u32le data.length ++ data) ++ t) ODZ_BLOCK_STORED =
      blk_res.okb t data data.length
    rw [List.append_assoc]
    simp only [parse_block, if_true]
    rw [take_exact_of_length _ (data ++ t) 4 (u32le_length data.length)]
    dsimp only
    rw [rd_u32le_u32le data.length (by
      have : ODZ_BLOCK_SIZE = 1048576 := rfl
      omega)]
    rw [if_neg (show ¬ODZ_BLOCK_SIZE < data.length from by omega)]
    rw [take_exact_of_length data t data.length rfl]
  | huff raw comp =>
    obtain ⟨hraw, hcs, hrc, hop⟩ := hok
    show parse_block ((u32le raw ++ u32le comp.length ++ comp) ++ t)
      ODZ_BLOCK_HUFFMAN = blk_res.okb t
        ((List.range raw).map (decompress_huffman_block comp raw).out) raw
    have hassoc : (u32le raw ++ u32le comp.length ++ comp) ++ t =
        (u32le raw ++ u32le comp.length) ++ (comp ++ t) := by
      simp [List.append_assoc]
    rw [hassoc]
    simp only [parse_block, if_true]
    rw [take_exact_of_length (u32le raw ++ u32le comp.length) (comp ++ t) 8
      (by simp [u32le])]
    dsimp only
    have htake : (u32le raw ++ u32le comp.length).take 4 = u32le raw := by
      have := List.take_left (u32le raw) (u32le comp.length)
      rwa [u32le_length] at this
    have hdrop : (u32le raw ++ u32le comp.length).drop 4 = u32le comp.length := by
      have := List.drop_left (u32le raw) (u32le comp.length)
      rwa [u32le_length] at this
    rw [htake, hdrop]
    rw [rd_u32le_u32le raw (by
      have : ODZ_BLOCK_SIZE = 1048576 := rfl
      omega), rd_u32le_u32le comp.length hcs]
    rw [if_neg (show ¬ODZ_BLOCK_SIZE < raw from by omega)]
    rw [take_exact_of_length comp t comp.length rfl]
    dsimp only
    rw [if_neg (show ¬(decompress_huffman_block comp raw).rc ≠ ODZ_OK from by
      simp [hrc])]
    rw [if_neg (show ¬(decompress_huffman_block comp raw).op ≠ raw from by
      simp [hop])]
    rw [if_neg (show ¬ODZ_BLOCK_HUFFMAN = ODZ_BLOCK_STORED from by decide)]

/-- One iteration of the block loop on a well-formed encoded block. -/
theorem decompress_blocks_step (opts : Option odz_options_t)
    (orig fuel last : Nat) (b : enc_blk) (t out : List Nat) (tot : Nat)
    (tr : List (Nat × Nat × Nat)) (hok : blk_ok b) (hlast : last ≤ 1) :
    decompress_blocks opts orig (fuel + 1) (enc_blk_bytes last b ++ t) out tot tr =
      (if (progress_step opts (tot + blk_raw b) orig).1 ≠ 0 then
        ⟨ ODZ_ERR_IO, out ++ blk_out b, tot + blk_raw b,
          tr ++ (progress_step opts (tot + blk_raw b) orig).2⟩
      else if last = 1 then
        ⟨ ODZ_OK, out ++ blk_out b, tot + blk_raw b,
          tr ++ (progress_step opts (tot + blk_raw b) orig).2⟩
      else decompress_blocks opts orig fuel t (out ++ blk_out b)
        (tot + blk_raw b) (tr ++ (progress_step opts (tot + blk_raw b) orig).2)) := by
  have hcons : enc_blk_bytes last b ++ t =
      (2 * blk_type_of b + last) :: (blk_tail b ++ t) := by
    simp [enc_blk_bytes]
  rw [hcons]
  simp only [decompress_blocks, take_exact_cons_one]
  rw [show ([2 * blk_type_of b + last] : List Nat).getD 0 0 =
    2 * blk_type_of b + last from rfl]
  rw [hdr_is_last (blk_type_of b) last hlast,
    hdr_blk_type (blk_type_of b) last (blk_type_of_le b) hlast]
  rw [parse_block_enc b t hok]

theorem calls_zero_none (orig : Nat) : ∀ bs tot, calls_zero none orig tot bs := by
  intro bs
  induction bs with
  | nil => intro tot; trivial
  | cons b rest ih => intro tot; exact ⟨rfl, ih (tot + blk_raw b)⟩

theorem enc_blocks_length_ge : ∀ bs : List enc_blk, bs.length ≤ (enc_blocks bs).length := by
  intro bs
  induction bs with
  | nil => simp [enc_blocks]
  | cons b rest ih =>
    cases rest with
    | nil => simp [enc_blocks, enc_blk_bytes]
    | cons c rest2 =>
      show (b :: c :: rest2).length ≤ (enc_blk_bytes 0 b ++ enc_blocks (c :: rest2)).length
      simp only [List.length_append, List.length_cons, enc_blk_bytes]
      have := ih
      simp only [List.length_cons] at this ⊢
      omega

/-- A complete run of the block loop over well-formed blocks whose
callbacks all continue: status OK, all block outputs appended, raw sizes
accumulated, one callback record per block. -/
theorem decompress_blocks_run (opts : Option odz_options_t) (orig : Nat) :
    ∀ (bs : List enc_blk) (junk out : List Nat) (tot : Nat)
      (tr : List (Nat × Nat × Nat)) (fuel : Nat), bs ≠ [] →
      (∀ b ∈ bs, blk_ok b) → bs.length ≤ fuel →
      calls_zero opts orig tot bs →
      decompress_blocks opts orig fuel (enc_blocks bs ++ junk) out tot tr =
        ⟨ ODZ_OK, out ++ (bs.map blk_out).flatten, tot + (bs.map blk_raw).sum,
          tr ++ calls_of opts orig tot bs⟩ := by
  intro bs
  induction bs with
  | nil => intro junk out tot tr fuel hne; exact absurd rfl hne
  | cons b rest ih =>
    intro junk out tot tr fuel _ hok hfuel hz
    obtain ⟨hz1, hz2⟩ := hz
    obtain ⟨fuel', rfl⟩ : ∃ f, fuel = f + 1 := ⟨fuel - 1, by
      simp only [List.length_cons] at hfuel
      omega⟩
    cases rest with
    | nil =>
      rw [show enc_blocks [b] = enc_blk_bytes 1 b from rfl]
      rw [decompress_blocks_step opts orig fuel' 1 b junk out tot tr
        (hok b (by simp)) (by omega)]
      rw [if_neg (by simp [hz1]), if_pos rfl]
      simp [calls_of]
    | cons c rest2 =>
      rw [show enc_blocks (b :: c :: rest2) =
        enc_blk_bytes 0 b ++ enc_blocks (c :: rest2) from rfl]
      rw [List.append_assoc]
      rw [decompress_blocks_step opts orig fuel' 0 b
        (enc_blocks (c :: rest2) ++ junk) out tot tr (hok b (by simp)) (by omega)]
      rw [if_neg (by simp [hz1]), if_neg (by omega)]
      rw [ih junk (out ++ blk_out b) (tot + blk_raw b)
        (tr ++ (progress_step opts (tot + blk_raw b) orig).2) fuel' (by simp)
        (fun x hx => hok x (by simp [hx]))
        (by simp only [List.length_cons] at hfuel ⊢; omega) hz2]
      simp [calls_of, List.append_assoc, Nat.add_assoc]

/-- A run of the block loop that is aborted by the progress callback right
after block `k`: status IO, exactly the first `k + 1` blocks processed and
exactly `k + 1` callback records. -/
theorem decompress_blocks_abort (opts : Option odz_options_t) (orig : Nat) :
    ∀ (bs : List enc_blk) (k : Nat) (junk out : List Nat) (tot : Nat)
      (tr : List (Nat × Nat × Nat)) (fuel : Nat), k < bs.length →
      (∀ b ∈ bs, blk_ok b) → bs.length ≤ fuel →
      calls_zero opts orig tot (bs.take k) →
      (progress_step opts (tot + ((bs.take (k + 1)).map blk_raw).sum) orig).1 ≠ 0 →
      decompress_blocks opts orig fuel (enc_blocks bs ++ junk) out tot tr =
        ⟨ ODZ_ERR_IO, out ++ ((bs.take (k + 1)).map blk_out).flatten,
          tot + ((bs.take (k + 1)).map blk_raw).sum,
          tr ++ calls_of opts orig tot (bs.take (k + 1))⟩ := by
  intro bs
  induction bs with
  | nil => intro k junk out tot tr fuel hk; simp at hk
  | cons b rest ih =>
    intro k junk out tot tr fuel hk hok hfuel hz habort
    obtain ⟨fuel', rfl⟩ : ∃ f, fuel = f + 1 := ⟨fuel - 1, by
      simp only [List.length_cons] at hfuel
      omega⟩
    cases k with
    | zero =>
      have habort' : (progress_step opts (tot + blk_raw b) orig).1 ≠ 0 := by
        simpa using habort
      cases rest with
      | nil =>
        rw [show enc_blocks [b] = enc_blk_bytes 1 b from rfl]
        rw [decompress_blocks_step opts orig fuel' 1 b junk out tot tr
          (hok b (by simp)) (by omega)]
        rw [if_pos habort']
        simp [calls_of]
      | cons c rest2 =>
        rw [show enc_blocks (b :: c :: rest2) =
          enc_blk_bytes 0 b ++ enc_blocks (c :: rest2) from rfl]
        rw [List.append_assoc]
        rw [decompress_blocks_step opts orig fuel' 0 b
          (enc_blocks (c :: rest2) ++ junk) out tot tr (hok b (by simp)) (by omega)]
        rw [if_pos habort']
        simp [calls_of]
    | succ k' =>
      cases rest with
      | nil => simp at hk
      | cons c rest2 =>
        obtain ⟨hz1, hz2⟩ := hz
        rw [show enc_blocks (b :: c :: rest2) =
          enc_blk_bytes 0 b ++ enc_blocks (c :: rest2) from rfl]
        rw [List.append_assoc]
        rw [decompress_blocks_step opts orig fuel' 0 b
          (enc_blocks (c :: rest2) ++ junk) out tot tr (hok b (by simp)) (by omega)]
        rw [if_neg (by simp [hz1]), if_neg (by omega)]
        rw [ih k' junk (out ++ blk_out b) (tot + blk_raw b)
          (tr ++ (progress_step opts (tot + blk_raw b) orig).2) fuel'
          (by simp only [List.length_cons] at hk ⊢; omega)
          (fun x hx => hok x (by simp [hx]))
          (by simp only [List.length_cons] at hfuel ⊢; omega) hz2
          (by
            simp only [List.take_succ_cons, List.map_cons, List.sum_cons] at habort ⊢
            have heq : tot + blk_raw b + (blk_raw c +
                (List.map blk_raw (List.take k' rest2)).sum) =
                tot + (blk_raw b + (blk_raw c +
                (List.map blk_raw (List.take k' rest2)).sum)) := by omega
            rw [heq]
            exact habort)]
        simp [calls_of, List.append_assoc, Nat.add_assoc]

/-- Header handling of `odz_decompress` on a well-formed 12-byte header. -/
theorem odz_decompress_header (orig : Nat) (rest : List Nat)
    (opts : Option odz_options_t) :
    odz_decompress (file_hdr orig ++ rest) opts =
      (if (decompress_blocks opts (rd_u64le (u64le orig)) (rest.length + 1)
            rest [] 0 []).rc = ODZ_OK ∧
          (decompress_blocks opts (rd_u64le (u64le orig)) (rest.length + 1)
            rest [] 0 []).total_out ≠ rd_u64le (u64le orig) then
        ⟨ ODZ_ERR_CORRUPT,
          (decompress_blocks opts (rd_u64le (u64le orig)) (rest.length + 1)
            rest [] 0 []).output,
          (decompress_blocks opts (rd_u64le (u64le orig)) (rest.length + 1)
            rest [] 0 []).total_out,
          (decompress_blocks opts (rd_u64le (u64le orig)) (rest.length + 1)
            rest [] 0 []).calls⟩
      else decompress_blocks opts (rd_u64le (u64le orig)) (rest.length + 1)
        rest [] 0 []) := by
  unfold odz_decompress
  rw [take_exact_of_length (file_hdr orig) rest 12 (by simp [file_hdr, u64le])]
  dsimp only
  rw [if_neg (show ¬((file_hdr orig).getD 0 0 ≠ 79 ∨ (file_hdr orig).getD 1 0 ≠ 68 ∨
      (file_hdr orig).getD 2 0 ≠ 90) from by
    push_neg
    exact ⟨rfl, rfl, rfl⟩)]
  rw [if_neg (show ¬(file_hdr orig).getD 3 0 ≠ ODZ_VERSION from by
    push_neg
    rfl)]
  rw [show (file_hdr orig).drop 4 = u64le orig from rfl]

/-- C4: after the block with `is_last` set has been processed, the
accumulated sum of the blocks' `raw_size` fields must equal the size
declared in the 12-byte file header — `odz_decompress` returns OK when
they agree and CORRUPT otherwise. -/
theorem sum_raw_size_check (orig : Nat) (bs : List enc_blk) (junk : List Nat)
    (hne : bs ≠ []) (hok : ∀ b ∈ bs, blk_ok b) (horig : orig < 2 ^ 64) :
    (odz_decompress (file_hdr orig ++ (enc_blocks bs ++ junk)) none).rc =
      if (bs.map blk_raw).sum = orig then ODZ_OK else ODZ_ERR_CORRUPT := by
  rw [odz_decompress_header orig (enc_blocks bs ++ junk) none]
  rw [rd_u64le_u64le orig (by norm_num at horig ⊢; omega)]
  rw [decompress_blocks_run none orig bs junk [] 0 [] ((enc_blocks bs ++ junk).length + 1)
    hne hok (by
      have := enc_blocks_length_ge bs
      simp only [List.length_append]
      omega) (calls_zero_none orig bs 0)]
  by_cases hs : (bs.map blk_raw).sum = orig
  · rw [if_neg (by
      simp only [not_and, ne_eq, not_not]
      intro _
      omega), if_pos hs]
  · rw [if_pos ⟨rfl, by
      simp only [ne_eq, Nat.zero_add]
      omega⟩, if_neg hs]

theorem sum_raw_size_check_witness :
    ([enc_blk.stored [7, 7]] : List enc_blk) ≠ [] ∧
    (odz_decompress (file_hdr 5 ++ (enc_blocks [enc_blk.stored [7, 7]] ++ []))
      none).rc =
      if (([enc_blk.stored [7, 7]] : List enc_blk).map blk_raw).sum = 5 then
        ODZ_OK else ODZ_ERR_CORRUPT :=
  ⟨by simp, sum_raw_size_check 5 [enc_blk.stored [7, 7]] [] (by simp)
    (by
      intro b hb
      rw [List.mem_singleton.mp hb]
      show (2 : Nat) ≤ ODZ_BLOCK_SIZE
      decide) (by decide)⟩

/-- The loop rejects a block header byte whose type bits are 2 or 3. -/
theorem reserved_step (opts : Option odz_options_t) (orig fuel b : Nat)
    (s out : List Nat) (tot : Nat) (tr : List (Nat × Nat × Nat))
    (hb : (b >>> 1) &&& 3 = 2 ∨ (b >>> 1) &&& 3 = 3) :
    decompress_blocks opts orig (fuel + 1) (b :: s) out tot tr =
      ⟨ ODZ_ERR_FORMAT, out, tot, tr⟩ := by
  simp only [decompress_blocks, take_exact_cons_one]
  rw [show ([b] : List Nat).getD 0 0 = b from rfl]
  rcases hb with h | h
  · rw [h, show parse_block s 2 = blk_res.err ODZ_ERR_FORMAT from by
      simp [parse_block, ODZ_BLOCK_STORED, ODZ_BLOCK_HUFFMAN]]
  · rw [h, show parse_block s 3 = blk_res.err ODZ_ERR_FORMAT from by
      simp [parse_block, ODZ_BLOCK_STORED, ODZ_BLOCK_HUFFMAN]]

/-- C5: a block header byte whose block-type bits (bits 1-2) decode to 2
or 3 makes the block loop — and hence `odz_decompress` — stop with the
FORMAT error, never treating the block as stored or Huffman. -/
theorem reserved_block_type (opts : Option odz_options_t) (orig fuel b : Nat)
    (s out : List Nat) (tot : Nat) (tr : List (Nat × Nat × Nat))
    (hb : (b >>> 1) &&& 3 = 2 ∨ (b >>> 1) &&& 3 = 3) :
    decompress_blocks opts orig (fuel + 1) (b :: s) out tot tr =
      ⟨ ODZ_ERR_FORMAT, out, tot, tr⟩ ∧
    (odz_decompress (file_hdr orig ++ b :: s) opts).rc = ODZ_ERR_FORMAT := by
  refine ⟨reserved_step opts orig fuel b s out tot tr hb, ?_⟩
  rw [odz_decompress_header orig (b :: s) opts]
  rw [show (b :: s).length + 1 = (s.length + 1) + 1 from by simp]
  rw [reserved_step opts (rd_u64le (u64le orig)) (s.length + 1) b s [] 0 [] hb]
  rw [if_neg (by
    intro hcon
    exact absurd hcon.1 (by decide))]

theorem reserved_block_type_witness :
    ((4 >>> 1) &&& 3 = 2 ∨ (4 >>> 1) &&& 3 = 3) ∧
    (odz_decompress (file_hdr 0 ++ 4 :: []) none).rc = ODZ_ERR_FORMAT :=
  ⟨by decide, (reserved_block_type none 0 0 4 [] [] 0 [] (by decide)).2⟩

theorem calls_of_some (f : Nat → Nat → Nat → Nat) (u orig : Nat) :
    ∀ (bs : List enc_blk) (tot : Nat),
      calls_of (some ⟨some f, u⟩) orig tot bs =
      (List.range bs.length).map
        (fun i => (tot + ((bs.take (i + 1)).map blk_raw).sum, orig, u)) := by
  intro bs
  induction bs with
  | nil => intro tot; simp [calls_of]
  | cons b rest ih =>
    intro tot
    rw [show calls_of (some ⟨some f, u⟩) orig tot (b :: rest) =
      (progress_step (some ⟨some f, u⟩) (tot + blk_raw b) orig).2 ++
        calls_of (some ⟨some f, u⟩) orig (tot + blk_raw b) rest from rfl]
    rw [ih (tot + blk_raw b)]
    rw [show (progress_step (some ⟨some f, u⟩) (tot + blk_raw b) orig).2 =
      [(tot + blk_raw b, orig, u)] from rfl]
    rw [show (b :: rest).length = rest.length + 1 from rfl, List.range_succ_eq_map]
    simp only [List.map_cons, List.map_map, List.singleton_append]
    congr 1
    apply List.map_congr_left
    intro a ha
    have haa : a < rest.length := List.mem_range.mp ha
    simp only [Function.comp_apply, Nat.succ_eq_add_one, List.take_succ_cons,
      List.map_cons, List.sum_cons, List.map_take]
    have heq : tot + blk_raw b + (List.take (a + 1) (List.map blk_raw rest)).sum =
        tot + (blk_raw b + (List.take (a + 1) (List.map blk_raw rest)).sum) := by
      omega
    rw [heq]

theorem calls_zero_some_iff (f : Nat → Nat → Nat → Nat) (u orig : Nat) :
    ∀ (bs : List enc_blk) (tot : Nat),
      calls_zero (some ⟨some f, u⟩) orig tot bs ↔
      ∀ i < bs.length, f (tot + ((bs.take (i + 1)).map blk_raw).sum) orig u = 0 := by
  intro bs
  induction bs with
  | nil => intro tot; simp [calls_zero]
  | cons b rest ih =>
    intro tot
    rw [show calls_zero (some ⟨some f, u⟩) orig tot (b :: rest) =
      ((f (tot + blk_raw b) orig u = 0) ∧
        calls_zero (some ⟨some f, u⟩) orig (tot + blk_raw b) rest) from rfl]
    rw [ih (tot + blk_raw b)]
    constructor
    · rintro ⟨h0, hr⟩ i hi
      cases i with
      | zero => simpa using h0
      | succ i' =>
        have hx := hr i' (by simp only [List.length_cons] at hi; omega)
        simp only [List.take_succ_cons, List.map_cons, List.sum_cons]
        have heq : tot + (blk_raw b + (List.map blk_raw (List.take (i' + 1) rest)).sum) =
            tot + blk_raw b + (List.map blk_raw (List.take (i' + 1) rest)).sum := by
          omega
        rw [heq]
        exact hx
    · intro h
      refine ⟨by simpa using h 0 (by simp), ?_⟩
      intro i hi
      have hx := h (i + 1) (by simp only [List.length_cons]; omega)
      simp only [List.take_succ_cons, List.map_cons, List.sum_cons] at hx
      have heq : tot + (blk_raw b + (List.map blk_raw (List.take (i + 1) rest)).sum) =
          tot + blk_raw b + (List.map blk_raw (List.take (i + 1) rest)).sum := by
        omega
      rw [heq] at hx
      exact hx

theorem calls_of_take (f : Nat → Nat → Nat → Nat) (u orig : Nat)
    (bs : List enc_blk) (k : Nat) (hk : k < bs.length) :
    calls_of (some ⟨some f, u⟩) orig 0 (bs.take (k + 1)) =
      (List.range (k + 1)).map
        (fun i => (((bs.take (i + 1)).map blk_raw).sum, orig, u)) := by
  rw [calls_of_some]
  rw [show (bs.take (k + 1)).length = k + 1 from by
    simp only [List.length_take]
    omega]
  apply List.map_congr_left
  intro i hi
  have hik : i < k + 1 := List.mem_range.mp hi
  rw [List.take_take, show min (i + 1) (k + 1) = i + 1 from by omega]
  simp

/-- C8: with a non-null progress callback, `odz_decompress` invokes the
callback exactly once after each block with (output bytes so far, declared
total output size, userdata); a nonzero return aborts immediately with the
IO status after exactly the calls made so far. -/
theorem progress_callback_contract (orig : Nat) (bs : List enc_blk)
    (junk : List Nat) (f : Nat → Nat → Nat → Nat) (u : Nat)
    (hne : bs ≠ []) (hok : ∀ b ∈ bs, blk_ok b) (horig : orig < 2 ^ 64) :
    ((∀ i < bs.length, f (((bs.take (i + 1)).map blk_raw).sum) orig u = 0) →
      (odz_decompress (file_hdr orig ++ (enc_blocks bs ++ junk))
          (some ⟨some f, u⟩)).calls =
        (List.range bs.length).map
          (fun i => (((bs.take (i + 1)).map blk_raw).sum, orig, u))) ∧
    (∀ k < bs.length,
      (∀ i < k, f (((bs.take (i + 1)).map blk_raw).sum) orig u = 0) →
      f (((bs.take (k + 1)).map blk_raw).sum) orig u ≠ 0 →
      (odz_decompress (file_hdr orig ++ (enc_blocks bs ++ junk))
          (some ⟨some f, u⟩)).rc = ODZ_ERR_IO ∧
      (odz_decompress (file_hdr orig ++ (enc_blocks bs ++ junk))
          (some ⟨some f, u⟩)).calls =
        (List.range (k + 1)).map
          (fun i => (((bs.take (i + 1)).map blk_raw).sum, orig, u))) := by
  have hfuel : bs.length ≤ (enc_blocks bs ++ junk).length + 1 := by
    have := enc_blocks_length_ge bs
    simp only [List.length_append]
    omega
  constructor
  · intro hz
    rw [odz_decompress_header orig (enc_blocks bs ++ junk) (some ⟨some f, u⟩)]
    rw [rd_u64le_u64le orig (by norm_num at horig ⊢; omega)]
    rw [decompress_blocks_run (some ⟨some f, u⟩) orig bs junk [] 0 []
      ((enc_blocks bs ++ junk).length + 1) hne hok hfuel
      ((calls_zero_some_iff f u orig bs 0).mpr (by simpa using hz))]
    split_ifs <;>
      simp only [List.nil_append] <;>
      rw [calls_of_some f u orig bs 0] <;>
      simp
  · intro k hk hzk habort
    rw [odz_decompress_header orig (enc_blocks bs ++ junk) (some ⟨some f, u⟩)]
    rw [rd_u64le_u64le orig (by norm_num at horig ⊢; omega)]
    rw [decompress_blocks_abort (some ⟨some f, u⟩) orig bs k junk [] 0 []
      ((enc_blocks bs ++ junk).length + 1) hk hok hfuel
      ((calls_zero_some_iff f u orig (bs.take k) 0).mpr (by
        intro i hi
        have hik : i < k := by
          simp only [List.length_take] at hi
          omega
        rw [List.take_take, show min (i + 1) k = i + 1 from by omega]
        simpa using hzk i hik))
      (by simpa using habort)]
    rw [if_neg (by
      intro hcon
      have h1 : ODZ_ERR_IO = ODZ_OK := hcon.1
      exact absurd h1 (by decide))]
    refine ⟨rfl, ?_⟩
    simpa using calls_of_take f u orig bs k hk

theorem progress_callback_contract_witness :
    (([enc_blk.stored [1], enc_blk.stored [2, 3]] : List enc_blk) ≠ []) ∧
    (odz_decompress
      (file_hdr 3 ++ (enc_blocks [enc_blk.stored [1], enc_blk.stored [2, 3]] ++ []))
      (some ⟨some (fun p _ _ => if p = 1 then 0 else 1), 9⟩)).rc = ODZ_ERR_IO :=
  ⟨by simp,
    ((progress_callback_contract 3 [enc_blk.stored [1], enc_blk.stored [2, 3]] []
      (fun p _ _ => if p = 1 then 0 else 1) 9 (by simp)
      (by
        intro b hb
        rcases List.mem_cons.mp hb with h | h
        · rw [h]; show (1 : Nat) ≤ ODZ_BLOCK_SIZE; decide
        · rw [List.mem_singleton.mp h]; show (2 : Nat) ≤ ODZ_BLOCK_SIZE; decide)
      (by decide)).2 1 (by decide) (by decide) (by decide)).1⟩

/-! ## The WebAssembly wrapper (src/web/wasm.c) — claim C9. -/

/-- Result struct of the wasm entry points (src/web/wasm.c,
`zip_instance`): error code, payload and size. -/
structure zip_instance where
  err : Nat
  data : Option (List Nat)
  size : Nat
deriving Repr, DecidableEq

/-- `odz_wasm_decompress` from src/web/wasm.c lines 51-91: reject inputs
shorter than 12 bytes or without the "ODZ" magic as FORMAT, reject a
declared original size above `256u << 20` as OOM, then run the core
decompressor over the in-memory stream.  The `fmemopen` buffers are
modelled as unbounded in-memory streams. -/
def odz_wasm_decompress (inp : List Nat) : zip_instance :=
  if inp.length < 12 then ⟨ ODZ_ERR_FORMAT, none, 0⟩
  else if inp.getD 0 0 ≠ 79 ∨ inp.getD 1 0 ≠ 68 ∨ inp.getD 2 0 ≠ 90 then
    ⟨ ODZ_ERR_FORMAT, none, 0⟩
  else
    let orig := rd_u64le ((inp.drop 4).take 8)
    if 268435456 < orig then ⟨ ODZ_ERR_OOM, none, 0⟩
    else
      let r := odz_decompress inp none
      if r.rc ≠ ODZ_OK then ⟨r.rc, none, 0⟩
      else ⟨ ODZ_OK, some r.output, orig⟩

/-- C9: `odz_wasm_decompress` validates before doing anything else — an
input shorter than 12 bytes or without the "ODZ" magic yields the FORMAT
error, and a well-prefixed input whose declared 64-bit original size
exceeds 256 MiB yields OOM. -/
theorem odz_wasm_decompress_validates (inp : List Nat) :
    ((inp.length < 12 ∨ inp.getD 0 0 ≠ 79 ∨ inp.getD 1 0 ≠ 68 ∨
        inp.getD 2 0 ≠ 90) →
      (odz_wasm_decompress inp).err = ODZ_ERR_FORMAT) ∧
    (12 ≤ inp.length → inp.getD 0 0 = 79 → inp.getD 1 0 = 68 →
      inp.getD 2 0 = 90 → 268435456 < rd_u64le ((inp.drop 4).take 8) →
      (odz_wasm_decompress inp).err = ODZ_ERR_OOM) := by
  constructor
  · intro h
    unfold odz_wasm_decompress
    by_cases h12 : inp.length < 12
    · rw [if_pos h12]
    · rw [if_neg h12]
      rw [if_pos (by
        rcases h with h | h
        · exact absurd h h12
        · exact h)]
  · intro h12 h0 h1 h2 hbig
    unfold odz_wasm_decompress
    rw [if_neg (by omega)]
    rw [if_neg (by
      push_neg
      exact ⟨h0, h1, h2⟩)]
    rw [if_pos hbig]

theorem odz_wasm_decompress_validates_witness :
    (([] : List Nat).length < 12 ∨ ([] : List Nat).getD 0 0 ≠ 79 ∨
      ([] : List Nat).getD 1 0 ≠ 68 ∨ ([] : List Nat).getD 2 0 ≠ 90) ∧
    (odz_wasm_decompress []).err = ODZ_ERR_FORMAT ∧
    (odz_wasm_decompress [79, 68, 90, 2, 0, 0, 0, 0, 0, 0, 0, 1]).err =
      ODZ_ERR_OOM :=
  ⟨by decide,
   (odz_wasm_decompress_validates []).1 (by decide),
   (odz_wasm_decompress_validates [79, 68, 90, 2, 0, 0, 0, 0, 0, 0, 0, 1]).2
     (by decide) (by decide) (by decide) (by decide) (by decide)⟩

/-! ## CLI output-path derivation (src/main.c) — claim C10. -/

/-- `base_name` from src/main.c lines 38-41: everything after the last
slash (`strrchr`), the whole path when there is none. -/
def base_name (p : List Char) : List Char :=
  (p.reverse.takeWhile (fun c => c ≠ '/')).reverse

/-- `ends_with_odz` from src/main.c lines 43-46. -/
def ends_with_odz (s : List Char) : Bool :=
  decide (4 ≤ s.length) && decide (s.drop (s.length - 4) = ['.', 'o', 'd', 'z'])

/-- The output-path auto-generation of src/main.c lines 126-142.  The two
`snprintf` paths write into a 4096-byte buffer and therefore truncate the
result to 4095 characters; the `.odz`-stripping path copies
`strlen(base) - 4` bytes unconditionally. -/
def auto_out_path (mode : Char) (in_path : List Char) : List Char :=
  let base := base_name in_path
  if mode = 'c' then (base ++ ['.', 'o', 'd', 'z']).take 4095
  else if ends_with_odz base then base.take (base.length - 4)
  else (base ++ ['.', 'r', 'a', 'w']).take 4095

theorem base_name_no_slash_id (p : List Char) (h : '/' ∉ p) :
    base_name p = p := by
  unfold base_name
  rw [List.takeWhile_eq_self_iff.mpr (by
    intro a ha
    have : a ∈ p := List.mem_reverse.mp ha
    simp only [ne_eq, decide_eq_true_eq]
    intro hc
    exact h (hc ▸ this))]
  exact List.reverse_reverse p

/-- Counterexample to C10 as stated: for a 4092-character basename the
compress-mode derivation is truncated by `snprintf` and does not equal
`basename ++ ".odz"`. -/
theorem auto_out_path_truncates :
    auto_out_path 'c' (List.replicate 4092 'a') ≠
      base_name (List.replicate 4092 'a') ++ ['.', 'o', 'd', 'z'] := by
  have hb : base_name (List.replicate 4092 'a') = List.replicate 4092 'a' :=
    base_name_no_slash_id _ (by
      intro hmem
      have := (List.mem_replicate.mp hmem).2
      exact absurd this (by decide))
  intro h
  have hlen := congrArg List.length h
  rw [auto_out_path] at hlen
  simp only [if_pos rfl, hb, List.length_take, List.length_append,
    List.length_replicate] at hlen
  norm_num at hlen

/-- C10 (amended): with no output path given, the CLI derives the output
from the basename of the input (no directory separators remain, so the
file lands in the current directory); compress appends ".odz", decompress
strips a trailing ".odz" and otherwise appends ".raw" — provided the
basename is at most 4091 characters, the `snprintf` buffer limit. -/
theorem auto_out_path_spec (p : List Char)
    (hc : (base_name p).length ≤ 4091) :
    ('/' ∉ base_name p) ∧
    auto_out_path 'c' p = base_name p ++ ['.', 'o', 'd', 'z'] ∧
    (∀ q, base_name p = q ++ ['.', 'o', 'd', 'z'] → auto_out_path 'd' p = q) ∧
    (ends_with_odz (base_name p) = false →
      auto_out_path 'd' p = base_name p ++ ['.', 'r', 'a', 'w']) := by
  refine ⟨?_, ?_, ?_, ?_⟩
  · intro hmem
    unfold base_name at hmem
    have h1 : '/' ∈ (List.takeWhile (fun c => c ≠ '/') p.reverse) :=
      List.mem_reverse.mp hmem
    have h2 := List.mem_takeWhile_imp h1
    simp at h2
  · unfold auto_out_path
    rw [if_pos rfl]
    exact List.take_of_length_le (by
      simp only [List.length_append, List.length_cons, List.length_nil]
      omega)
  · intro q hq
    unfold auto_out_path
    rw [if_neg (by decide)]
    rw [if_pos (by
      rw [hq]
      unfold ends_with_odz
      simp only [List.length_append, List.length_cons, List.length_nil,
        Bool.and_eq_true, decide_eq_true_eq]
      refine ⟨by omega, ?_⟩
      rw [show q.length + (0 + 1 + 1 + 1 + 1) - 4 = q.length from by omega]
      exact List.drop_left q ['.', 'o', 'd', 'z'])]
    rw [hq]
    simp only [List.length_append, List.length_cons, List.length_nil]
    rw [show q.length + (0 + 1 + 1 + 1 + 1) - 4 = q.length from by omega]
    exact List.take_left q ['.', 'o', 'd', 'z']
  · intro hne
    unfold auto_out_path
    rw [if_neg (by decide), if_neg (by simp [hne])]
    exact List.take_of_length_le (by
      simp only [List.length_append, List.length_cons, List.length_nil]
      omega)

theorem auto_out_path_spec_witness :
    (base_name ['d', 'i', 'r', '/', 'f', '.', 'o', 'd', 'z']).length ≤ 4091 ∧
    auto_out_path 'd' ['d', 'i', 'r', '/', 'f', '.', 'o', 'd', 'z'] = ['f'] :=
  ⟨by decide,
   (auto_out_path_spec ['d', 'i', 'r', '/', 'f', '.', 'o', 'd', 'z']
     (by decide)).2.2.1 ['f'] (by decide)⟩

/-! ## Bit vectors as boolean lists (compressor side; modelled from the
spec, §4.1: LSB-first packing, the first bit of the stream is bit 0 of
the first byte). -/

/-- Value of a bit list, first element in the lowest position. -/
def bv : List Bool → Nat
  | [] => 0
  | b :: rest => (if b then 1 else 0) + 2 * bv rest

/-- Pack a bit list into bytes, 8 bits per byte, first bit lowest; the
final byte is padded with zero bits.  Fuel-driven; callers pass the list
length. -/
def bits_to_bytes : Nat → List Bool → List Nat
  | 0, _ => []
  | _, [] => []
  | fuel + 1, b :: rest =>
    bv ((b :: rest).take 8) :: bits_to_bytes fuel ((b :: rest).drop 8)

def pack_bits (bits : List Bool) : List Nat := bits_to_bytes bits.length bits

theorem bv_lt (l : List Bool) : bv l < 2 ^ l.length := by
  induction l with
  | nil => simp [bv]
  | cons b rest ih =>
    simp only [bv, List.length_cons]
    have h2 : 2 ^ (rest.length + 1) = 2 * 2 ^ rest.length := by ring
    cases b <;> simp <;> omega

theorem bv_testBit (l : List Bool) : ∀ k, (bv l).testBit k = l.getD k false := by
  induction l with
  | nil => intro k; simp [bv]
  | cons b rest ih =>
    intro k
    cases k with
    | zero =>
      show (bv (b :: rest)).testBit 0 = b
      rw [Nat.testBit_zero]
      simp only [bv]
      cases b <;> simp [Nat.add_mul_mod_self_left]
    | succ k =>
      show (bv (b :: rest)).testBit (k + 1) = rest.getD k false
      rw [← ih k, Nat.testBit_add_one]
      congr 1
      simp only [bv]
      cases b <;> simp <;> omega

theorem bv_append (a b : List Bool) :
    bv (a ++ b) = bv a + 2 ^ a.length * bv b := by
  induction a with
  | nil => simp [bv]
  | cons x rest ih =>
    show (if x then 1 else 0) + 2 * bv (rest ++ b) =
      ((if x then 1 else 0) + 2 * bv rest) + 2 ^ (rest.length + 1) * bv b
    rw [ih]
    ring

theorem bits_to_bytes_getD (fuel : Nat) :
    ∀ (bits : List Bool) (j : Nat), bits.length ≤ fuel →
    (bits_to_bytes fuel bits).getD j 0 = bv ((bits.drop (8 * j)).take 8) := by
  induction fuel with
  | zero =>
    intro bits j h
    have : bits = [] := List.eq_nil_of_length_eq_zero (by omega)
    subst this
    simp [bits_to_bytes, bv]
  | succ fuel ih =>
    intro bits j h
    cases bits with
    | nil => simp [bits_to_bytes, bv]
    | cons b rest =>
      cases j with
      | zero =>
        show (bv ((b :: rest).take 8) :: bits_to_bytes fuel ((b :: rest).drop 8)).getD 0 0 =
          bv (((b :: rest).drop 0).take 8)
        simp
      | succ j =>
        show (bv ((b :: rest).take 8) :: bits_to_bytes fuel ((b :: rest).drop 8)).getD (j + 1) 0 =
          bv (((b :: rest).drop (8 * (j + 1))).take 8)
        rw [List.getD_cons_succ]
        rw [ih ((b :: rest).drop 8) j (by
          have h2 := List.length_drop 8 (b :: rest)
          simp only [List.length_cons] at h h2
          omega)]
        rw [List.drop_drop, show 8 * (j + 1) = 8 + 8 * j from by ring]

theorem shiftRight_and_one (x k : Nat) :
    (x >>> k) &&& 1 = (x.testBit k).toNat := by
  rw [Nat.and_one_is_mod, Nat.testBit_to_div_mod, ← Nat.shiftRight_eq_div_pow]
  rcases Nat.mod_two_eq_zero_or_one (x >>> k) with h | h <;> rw [h] <;> simp

theorem list_getD_take (l : List Bool) (n i : Nat) (d : Bool) (h : i < n) :
    (l.take n).getD i d = l.getD i d := by
  rw [List.getD_eq_getElem?_getD, List.getD_eq_getElem?_getD, List.getElem?_take,
    if_pos h]

theorem list_getD_drop (l : List Bool) (n i : Nat) (d : Bool) :
    (l.drop n).getD i d = l.getD (n + i) d := by
  rw [List.getD_eq_getElem?_getD, List.getD_eq_getElem?_getD, List.getElem?_drop]

theorem stream_bit_pack (bits : List Bool) (i : Nat) :
    stream_bit (pack_bits bits) i = (bits.getD i false).toNat := by
  rw [stream_bit, pack_bits, bits_to_bytes_getD bits.length bits (i / 8) (le_refl _)]
  rw [shiftRight_and_one]
  rw [bv_testBit]
  rw [list_getD_take _ 8 (i % 8) false (by omega)]
  rw [list_getD_drop]
  rw [show 8 * (i / 8) + i % 8 = i from by omega]

theorem peekBits_pack (bits : List Bool) :
    ∀ (n pos : Nat), peekBits (pack_bits bits) pos n = bv ((bits.drop pos).take n) := by
  intro n
  induction n with
  | zero => intro pos; simp [peekBits, bv]
  | succ n ih =>
    intro pos
    simp only [peekBits, stream_bit_pack]
    by_cases hp : pos < bits.length
    · have hdrop : bits.drop pos = bits.getD pos false :: bits.drop (pos + 1) := by
        rw [List.drop_eq_getElem_cons hp]
        congr 1
        rw [List.getD_eq_getElem?_getD, List.getElem?_eq_getElem hp]
        rfl
      rw [hdrop]
      simp only [List.take_succ_cons, bv]
      rw [ih (pos + 1)]
      cases bits.getD pos false <;> simp
    · have hdrop : bits.drop pos = [] := List.drop_eq_nil_of_le (by omega)
      have hdrop1 : bits.drop (pos + 1) = [] := List.drop_eq_nil_of_le (by omega)
      rw [hdrop] at *
      rw [ih (pos + 1), hdrop1]
      have hget : bits.getD pos false = false := by
        rw [List.getD_eq_default]
        omega
      rw [hget]
      simp [bv]

theorem pack_bits_length (bits : List Bool) :
    (pack_bits bits).length = (bits.length + 7) / 8 := by
  rw [pack_bits]
  have hgen : ∀ fuel (l : List Bool), l.length ≤ fuel →
      (bits_to_bytes fuel l).length = (l.length + 7) / 8 := by
    intro fuel
    induction fuel with
    | zero =>
      intro l h
      have : l = [] := List.eq_nil_of_length_eq_zero (by omega)
      subst this
      simp [bits_to_bytes]
    | succ fuel ih =>
      intro l h
      cases l with
      | nil => simp [bits_to_bytes]
      | cons b rest =>
        show (bv ((b :: rest).take 8) :: bits_to_bytes fuel ((b :: rest).drop 8)).length =
          ((b :: rest).length + 7) / 8
        rw [List.length_cons, ih ((b :: rest).drop 8) (by
          have h2 := List.length_drop 8 (b :: rest)
          simp only [List.length_cons] at h h2
          omega)]
        have h2 := List.length_drop 8 (b :: rest)
        simp only [List.length_cons] at h2 ⊢
        omega
  exact hgen bits.length bits (le_refl _)

/-! ## Bit-reversal lemmas (reception order of canonical codes). -/

theorem bit_rev_lt : ∀ l c, bit_rev l c < 2 ^ l := by
  intro l
  induction l with
  | zero => intro c; simp [bit_rev]
  | succ l ih =>
    intro c
    have h1 : c &&& 1 ≤ 1 := by
      rw [Nat.and_one_is_mod]
      omega
    have h2 := ih (c >>> 1)
    simp only [bit_rev]
    have h3 : 2 ^ (l + 1) = 2 * 2 ^ l := by ring
    nlinarith

theorem testBit_add_mul_pow_low (r a l i : Nat) (hi : i < l) :
    (r + a * 2 ^ l).testBit i = r.testBit i := by
  obtain ⟨k, rfl⟩ : ∃ k, l = i + k := ⟨l - i, by omega⟩
  obtain ⟨m, rfl⟩ : ∃ m, k = m + 1 := ⟨k - 1, by omega⟩
  rw [Nat.testBit_to_div_mod, Nat.testBit_to_div_mod]
  have h2 : a * 2 ^ (i + (m + 1)) = 2 ^ i * (a * 2 ^ (m + 1)) := by
    rw [pow_add]
    ring
  rw [h2, Nat.add_mul_div_left r _ (Nat.pos_pow_of_pos i (by norm_num))]
  have h3 : a * 2 ^ (m + 1) = 2 * (a * 2 ^ m) := by
    rw [pow_succ]
    ring
  rw [h3, Nat.add_mul_mod_self_left]

theorem testBit_add_mul_pow_high (r a l : Nat) (hr : r < 2 ^ l) (ha : a ≤ 1) :
    (r + a * 2 ^ l).testBit l = decide (a = 1) := by
  rw [Nat.testBit_to_div_mod]
  have hdiv : (r + a * 2 ^ l) / 2 ^ l = a := by
    rw [Nat.mul_comm a (2 ^ l), Nat.add_mul_div_left r a
      (Nat.pos_pow_of_pos l (by norm_num)), Nat.div_eq_of_lt hr]
    omega
  rw [hdiv]
  rcases Nat.le_one_iff_eq_zero_or_eq_one.mp ha with rfl | rfl <;> decide

theorem bit_rev_testBit : ∀ (l c i : Nat), i < l →
    (bit_rev l c).testBit i = c.testBit (l - 1 - i) := by
  intro l
  induction l with
  | zero => intro c i h; omega
  | succ m ih =>
    intro c i hi
    show ((c &&& 1) * 2 ^ m + bit_rev m (c >>> 1)).testBit i = c.testBit (m + 1 - 1 - i)
    rw [Nat.add_comm ((c &&& 1) * 2 ^ m) (bit_rev m (c >>> 1))]
    have hc1 : c &&& 1 ≤ 1 := by
      rw [Nat.and_one_is_mod]
      omega
    by_cases hil : i < m
    · rw [testBit_add_mul_pow_low _ _ _ _ hil, ih (c >>> 1) i hil,
        Nat.testBit_shiftRight]
      congr 1
      omega
    · have hieq : i = m := by omega
      rw [hieq]
      rw [testBit_add_mul_pow_high _ _ _ (bit_rev_lt m (c >>> 1)) hc1]
      rw [show m + 1 - 1 - m = 0 from by omega, Nat.testBit_zero,
        Nat.and_one_is_mod]

theorem testBit_eq_false_of_lt {x i : Nat} (h : x < 2 ^ i) : x.testBit i = false := by
  rw [Nat.testBit_to_div_mod, Nat.div_eq_of_lt h]
  decide

theorem bit_rev_mod (la lb c : Nat) (h : la ≤ lb) :
    bit_rev lb c % 2 ^ la = bit_rev la (c >>> (lb - la)) := by
  apply Nat.eq_of_testBit_eq
  intro i
  by_cases hi : i < la
  · rw [Nat.testBit_mod_two_pow]
    rw [show decide (i < la) = true from by simp [hi], Bool.true_and]
    rw [bit_rev_testBit lb c i (by omega), bit_rev_testBit la _ i hi,
      Nat.testBit_shiftRight]
    congr 1
    omega
  · have h1 : bit_rev lb c % 2 ^ la < 2 ^ la := Nat.mod_lt _ (Nat.pos_pow_of_pos _ (by norm_num))
    have h2 : bit_rev la (c >>> (lb - la)) < 2 ^ la := bit_rev_lt _ _
    rw [testBit_eq_false_of_lt (lt_of_lt_of_le h1 (Nat.pow_le_pow_right (by norm_num) (by omega))),
      testBit_eq_false_of_lt (lt_of_lt_of_le h2 (Nat.pow_le_pow_right (by norm_num) (by omega)))]

theorem bit_rev_bit_rev (l c : Nat) (hc : c < 2 ^ l) :
    bit_rev l (bit_rev l c) = c := by
  apply Nat.eq_of_testBit_eq
  intro i
  by_cases hi : i < l
  · rw [bit_rev_testBit l _ i hi, bit_rev_testBit l c (l - 1 - i) (by omega)]
    congr 1
    omega
  · rw [testBit_eq_false_of_lt (lt_of_lt_of_le (bit_rev_lt l _) (Nat.pow_le_pow_right (by norm_num) (by omega))),
      testBit_eq_false_of_lt (lt_of_lt_of_le hc (Nat.pow_le_pow_right (by norm_num) (by omega)))]

theorem bit_rev_inj (l a b : Nat) (ha : a < 2 ^ l) (hb : b < 2 ^ l)
    (h : bit_rev l a = bit_rev l b) : a = b := by
  have := congrArg (bit_rev l) h
  rwa [bit_rev_bit_rev l a ha, bit_rev_bit_rev l b hb] at this

/-! ## Canonical-code facts: Kraft partial sums, code ranges and
prefix-freeness. -/

/-- Scaled partial Kraft sum: `Σ_{j ≤ l} cnt[j] · 2^(l-j)`. -/
def kraft_part (lens : List Nat) : Nat → Nat
  | 0 => 0
  | l + 1 => 2 * kraft_part lens l + cnt_of lens (l + 1)

/-- Validity of a decoded length vector: all lengths at most
`HUFF_MAX_BITS` and the Kraft inequality. -/
def valid_lens (lens : List Nat) : Prop :=
  (∀ l ∈ lens, l ≤ HUFF_MAX_BITS) ∧ kraft_sum lens ≤ 2 ^ HUFF_MAX_BITS

theorem next_code_add_cnt (lens : List Nat) :
    ∀ l, next_code lens (l + 1) + cnt_of lens (l + 1) = kraft_part lens (l + 1) := by
  intro l
  induction l with
  | zero =>
    show next_code lens 1 + cnt_of lens 1 = 2 * kraft_part lens 0 + cnt_of lens 1
    simp [next_code, kraft_part]
  | succ m ih =>
    show (next_code lens (m + 1) + cnt_of lens (m + 1)) <<< 1 + cnt_of lens (m + 2) =
      2 * kraft_part lens (m + 1) + cnt_of lens (m + 2)
    rw [Nat.shiftLeft_eq, ih]
    ring

theorem kraft_part_le (lens : List Nat) :
    ∀ d l, kraft_part lens l * 2 ^ d ≤ kraft_part lens (l + d) := by
  intro d
  induction d with
  | zero => intro l; simp
  | succ m ih =>
    intro l
    have h1 := ih l
    have h2 : kraft_part lens (l + (m + 1)) =
        2 * kraft_part lens (l + m) + cnt_of lens (l + m + 1) := rfl
    have h3 : kraft_part lens l * 2 ^ (m + 1) = kraft_part lens l * 2 ^ m * 2 := by
      rw [pow_succ]
      ring
    have h4 : kraft_part lens l * 2 ^ m * 2 ≤ kraft_part lens (l + m) * 2 :=
      Nat.mul_le_mul_right 2 h1
    omega

theorem cnt_of_cons (x : Nat) (rest : List Nat) (l : Nat) :
    cnt_of (x :: rest) l = cnt_of rest l + (if x = l then 1 else 0) := by
  unfold cnt_of
  rw [List.filter_cons]
  by_cases hx : x = l
  · simp [hx]
  · simp [hx]

theorem kraft_part_cons (x : Nat) (rest : List Nat) :
    ∀ l, kraft_part (x :: rest) l =
      kraft_part rest l + (if 1 ≤ x ∧ x ≤ l then 2 ^ (l - x) else 0) := by
  intro l
  induction l with
  | zero =>
    rw [if_neg (by omega)]
    rfl
  | succ m ih =>
    show 2 * kraft_part (x :: rest) m + cnt_of (x :: rest) (m + 1) = _
    rw [ih, cnt_of_cons]
    by_cases hA : 1 ≤ x ∧ x ≤ m
    · rw [if_pos hA, if_neg (by omega), if_pos (by omega)]
      have hp : 2 ^ (m + 1 - x) = 2 * 2 ^ (m - x) := by
        rw [← pow_succ']
        congr 1
        omega
      show 2 * (kraft_part rest m + 2 ^ (m - x)) + (cnt_of rest (m + 1) + 0) =
        2 * kraft_part rest m + cnt_of rest (m + 1) + 2 ^ (m + 1 - x)
      omega
    · by_cases hB : x = m + 1
      · rw [if_neg hA, if_pos hB, if_pos (by omega)]
        show 2 * (kraft_part rest m + 0) + (cnt_of rest (m + 1) + 1) =
          2 * kraft_part rest m + cnt_of rest (m + 1) + 2 ^ (m + 1 - x)
        rw [hB]
        simp
        omega
      · rw [if_neg hA, if_neg hB, if_neg (by omega)]
        show 2 * (kraft_part rest m + 0) + (cnt_of rest (m + 1) + 0) =
          2 * kraft_part rest m + cnt_of rest (m + 1) + 0
        omega

theorem kraft_part_nil : ∀ l, kraft_part [] l = 0 := by
  intro l
  induction l with
  | zero => rfl
  | succ m ih =>
    show 2 * kraft_part [] m + cnt_of [] (m + 1) = 0
    rw [ih]
    rfl

theorem kraft_part_eq_sum (lens : List Nat) (hb : ∀ l ∈ lens, l ≤ HUFF_MAX_BITS) :
    kraft_part lens 15 = kraft_sum lens := by
  induction lens with
  | nil =>
    rw [kraft_part_nil]
    rfl
  | cons x rest ih =>
    rw [kraft_part_cons]
    have hx : x ≤ 15 := hb x (by simp)
    have hrest : kraft_part rest 15 = kraft_sum rest :=
      ih (fun l hl => hb l (by simp [hl]))
    rw [hrest]
    show kraft_sum rest + _ = kraft_sum (x :: rest)
    rw [show kraft_sum (x :: rest) =
      (if x = 0 then 0 else 2 ^ (HUFF_MAX_BITS - x)) + kraft_sum rest from by
        simp [kraft_sum]]
    by_cases h0 : x = 0
    · rw [if_neg (by omega), if_pos h0]
      omega
    · rw [if_pos (by omega), if_neg h0]
      show kraft_sum rest + 2 ^ (15 - x) = 2 ^ (HUFF_MAX_BITS - x) + kraft_sum rest
      rw [show HUFF_MAX_BITS = 15 from rfl]
      omega

theorem code_fit (lens : List Nat) (hv : valid_lens lens) (l : Nat)
    (h1 : 1 ≤ l) (h15 : l ≤ 15) :
    next_code lens l + cnt_of lens l ≤ 2 ^ l := by
  obtain ⟨m, rfl⟩ : ∃ m, l = m + 1 := ⟨l - 1, by omega⟩
  have hA := next_code_add_cnt lens m
  have hB := kraft_part_le lens (15 - (m + 1)) (m + 1)
  rw [show m + 1 + (15 - (m + 1)) = 15 from by omega] at hB
  have hC := kraft_part_eq_sum lens hv.1
  have hmul : (next_code lens (m + 1) + cnt_of lens (m + 1)) * 2 ^ (15 - (m + 1)) ≤
      2 ^ (m + 1) * 2 ^ (15 - (m + 1)) := by
    rw [hA]
    calc kraft_part lens (m + 1) * 2 ^ (15 - (m + 1)) ≤ kraft_part lens 15 := hB
      _ = kraft_sum lens := hC
      _ ≤ 2 ^ HUFF_MAX_BITS := hv.2
      _ = 2 ^ (m + 1) * 2 ^ (15 - (m + 1)) := by
        rw [← pow_add, show HUFF_MAX_BITS = 15 from rfl]
        congr 1
        omega
  exact Nat.le_of_mul_le_mul_right hmul (Nat.pos_pow_of_pos _ (by norm_num))

theorem next_code_mono (lens : List Nat) :
    ∀ d a, 1 ≤ a →
      (next_code lens a + cnt_of lens a) * 2 ^ (d + 1) ≤ next_code lens (a + d + 1) := by
  intro d
  induction d with
  | zero =>
    intro a ha
    obtain ⟨m, rfl⟩ : ∃ m, a = m + 1 := ⟨a - 1, by omega⟩
    have hshow : (next_code lens (m + 1) + cnt_of lens (m + 1)) * 2 ^ 1 =
        next_code lens (m + 2) := by
      rw [show next_code lens (m + 2) =
        (next_code lens (m + 1) + cnt_of lens (m + 1)) <<< 1 from rfl,
        Nat.shiftLeft_eq]
    show (next_code lens (m + 1) + cnt_of lens (m + 1)) * 2 ^ (0 + 1) ≤
      next_code lens (m + 1 + 0 + 1)
    rw [show (0 : Nat) + 1 = 1 from rfl, show m + 1 + 0 + 1 = m + 2 from by omega]
    omega
  | succ m ih =>
    intro a ha
    have h1 := ih a ha
    have h2 : next_code lens (a + m + 2) =
        (next_code lens (a + m + 1) + cnt_of lens (a + m + 1)) <<< 1 := rfl
    rw [show a + (m + 1) + 1 = a + m + 2 from by omega, h2, Nat.shiftLeft_eq]
    have h3 : (next_code lens a + cnt_of lens a) * 2 ^ (m + 1 + 1) =
        ((next_code lens a + cnt_of lens a) * 2 ^ (m + 1)) * 2 := by
      rw [pow_succ]
      ring
    rw [h3]
    have h4 : (next_code lens a + cnt_of lens a) * 2 ^ (m + 1) * 2 ≤
        next_code lens (a + m + 1) * 2 := Nat.mul_le_mul_right 2 h1
    omega

theorem nat_getD_eq_getElem (l : List Nat) (i : Nat) (h : i < l.length) :
    l.getD i 0 = l[i] := by
  rw [List.getD_eq_getElem?_getD, List.getElem?_eq_getElem h]
  rfl

/-- The canonical rank of a symbol is below the count of its length
class. -/
theorem rank_lt_cnt (lens : List Nat) (s : Nat) (hs : s < lens.length) :
    ((lens.take s).filter (fun x => x = lens.getD s 0)).length <
      cnt_of lens (lens.getD s 0) := by
  set v := lens.getD s 0 with hv
  have hsplit : lens.take s ++ lens.drop s = lens := List.take_append_drop s lens
  have hcnt : cnt_of lens v =
      ((lens.take s).filter (fun x => x = v)).length +
      ((lens.drop s).filter (fun x => x = v)).length := by
    unfold cnt_of
    conv_lhs => rw [← hsplit]
    rw [List.filter_append, List.length_append]
  rw [hcnt]
  have hdrop : lens.drop s = lens[s] :: lens.drop (s + 1) :=
    List.drop_eq_getElem_cons hs
  have hone : 1 ≤ ((lens.drop s).filter (fun x => x = v)).length := by
    rw [hdrop, List.filter_cons, if_pos (by
      rw [hv, nat_getD_eq_getElem lens s hs]
      simp)]
    simp
  omega

/-- Ranks are strictly monotone within one length class. -/
theorem rank_mono (lens : List Nat) (s t : Nat) (hst : s < t)
    (ht : t < lens.length) (heq : lens.getD s 0 = lens.getD t 0) :
    ((lens.take s).filter (fun x => x = lens.getD s 0)).length <
      ((lens.take t).filter (fun x => x = lens.getD t 0)).length := by
  rw [heq]
  have hs : s < lens.length := by omega
  have hlen_take : s < (lens.take t).length := by
    rw [List.length_take]
    omega
  have htt : (lens.take t).take s ++ (lens.take t).drop s = lens.take t :=
    List.take_append_drop s (lens.take t)
  have htake : (lens.take t).take s = lens.take s := by
    rw [List.take_take]
    congr 1
    omega
  have hmid : (lens.take t).drop s = (lens.take t)[s] :: (lens.take t).drop (s + 1) :=
    List.drop_eq_getElem_cons hlen_take
  have hgs : (lens.take t)[s] = lens[s] := List.getElem_take lens
  conv_rhs => rw [← htt]
  rw [List.filter_append, List.length_append, htake, hmid, List.filter_cons]
  rw [if_pos (by
    rw [hgs, ← nat_getD_eq_getElem lens s hs, heq]
    simp)]
  simp only [List.length_cons]
  omega

/-- The canonical code of a used symbol lies in its length class's
interval. -/
theorem code_of_bounds (lens : List Nat) (s : Nat) (hs : s < lens.length) :
    next_code lens (lens.getD s 0) ≤ code_of lens s ∧
    code_of lens s < next_code lens (lens.getD s 0) + cnt_of lens (lens.getD s 0) := by
  unfold code_of
  have := rank_lt_cnt lens s hs
  omega

/-- Same length class, different symbols: different codes. -/
theorem code_of_ne_same (lens : List Nat) (s t : Nat) (hs : s < lens.length)
    (ht : t < lens.length) (hst : s ≠ t)
    (heq : lens.getD s 0 = lens.getD t 0) :
    code_of lens s ≠ code_of lens t := by
  unfold code_of
  rcases Nat.lt_or_ge s t with h | h
  · have hm := rank_mono lens s t h ht heq
    rw [heq] at hm ⊢
    omega
  · have hts : t < s := by omega
    have hm := rank_mono lens t s hts hs heq.symm
    rw [heq] at hm ⊢
    omega

/-- Shorter codes cannot be prefixes of longer ones: the longer code,
shifted down to the shorter length, is strictly above the shorter code. -/
theorem code_of_shift_gt (lens : List Nat) (s t : Nat) (hs : s < lens.length)
    (ht : t < lens.length) (hlt : lens.getD s 0 < lens.getD t 0)
    (hus : 1 ≤ lens.getD s 0) :
    code_of lens s < code_of lens t / 2 ^ (lens.getD t 0 - lens.getD s 0) := by
  set ls := lens.getD s 0 with hls
  set lt := lens.getD t 0 with hlt2
  obtain ⟨d, hd⟩ : ∃ d, lt = ls + d + 1 := ⟨lt - ls - 1, by omega⟩
  have hmono := next_code_mono lens d ls hus
  rw [← hd] at hmono
  obtain ⟨hbs1, hbs2⟩ := code_of_bounds lens s hs
  obtain ⟨hbt1, hbt2⟩ := code_of_bounds lens t ht
  rw [← hls] at hbs1 hbs2
  rw [← hlt2] at hbt1 hbt2
  have h1 : (code_of lens s + 1) * 2 ^ (d + 1) ≤ next_code lens lt := by
    calc (code_of lens s + 1) * 2 ^ (d + 1) ≤
        (next_code lens ls + cnt_of lens ls) * 2 ^ (d + 1) := by
          apply Nat.mul_le_mul_right
          omega
      _ ≤ next_code lens lt := hmono
  have h2 : (code_of lens s + 1) * 2 ^ (d + 1) ≤ code_of lens t :=
    le_trans h1 hbt1
  have h3 : code_of lens s + 1 ≤ code_of lens t / 2 ^ (d + 1) :=
    Nat.le_div_iff_mul_le (Nat.pos_pow_of_pos _ (by norm_num)) |>.mpr h2
  rw [show lt - ls = d + 1 from by omega]
  omega

/-- Two used symbols whose received codewords collide on the shorter
length are the same symbol. -/
theorem rev_collision_eq (lens : List Nat) (hv : valid_lens lens) (s t : Nat)
    (hs : s < lens.length) (ht : t < lens.length)
    (hus : 1 ≤ lens.getD s 0) (hut : 1 ≤ lens.getD t 0)
    (hle : lens.getD s 0 ≤ lens.getD t 0)
    (hcol : bit_rev (lens.getD t 0) (code_of lens t) % 2 ^ lens.getD s 0 =
      bit_rev (lens.getD s 0) (code_of lens s)) : s = t := by
  set ls := lens.getD s 0 with hls
  set lt := lens.getD t 0 with hlt
  have hb15s : ls ≤ 15 := by
    rw [hls, nat_getD_eq_getElem lens s hs]
    exact hv.1 _ (List.getElem_mem hs)
  have hb15t : lt ≤ 15 := by
    rw [hlt, nat_getD_eq_getElem lens t ht]
    exact hv.1 _ (List.getElem_mem ht)
  have hfits : code_of lens s < 2 ^ ls := by
    have h1 := (code_of_bounds lens s hs).2
    rw [← hls] at h1
    have h2 := code_fit lens hv ls hus hb15s
    omega
  have hfitt : code_of lens t < 2 ^ lt := by
    have h1 := (code_of_bounds lens t ht).2
    rw [← hlt] at h1
    have h2 := code_fit lens hv lt hut hb15t
    omega
  rw [bit_rev_mod ls lt (code_of lens t) hle] at hcol
  have hshift_lt : code_of lens t >>> (lt - ls) < 2 ^ ls := by
    rw [Nat.shiftRight_eq_div_pow]
    apply Nat.div_lt_of_lt_mul
    have hpw : (2 : Nat) ^ (lt - ls) * 2 ^ ls = 2 ^ lt := by
      rw [← pow_add]
      congr 1
      omega
    rw [hpw]
    exact hfitt
  have heqc : code_of lens t >>> (lt - ls) = code_of lens s :=
    bit_rev_inj ls _ _ hshift_lt hfits hcol
  by_contra hne
  rcases Nat.lt_or_ge ls lt with hcase | hcase
  · have := code_of_shift_gt lens s t hs ht (by omega) hus
    rw [← hls, ← hlt] at this
    rw [Nat.shiftRight_eq_div_pow] at heqc
    omega
  · have hteq : ls = lt := by omega
    have := code_of_ne_same lens s t hs ht hne (by omega)
    rw [show lt - ls = 0 from by omega] at heqc
    simp at heqc
    exact this heqc.symm

/-! ## Correctness of the two-level table build against the canonical
codes. -/

theorem land_two_pow_eq_zero (x n : Nat) (h : x < 2 ^ n) : x &&& 2 ^ n = 0 := by
  apply Nat.eq_of_testBit_eq
  intro i
  rw [Nat.testBit_and, Nat.testBit_two_pow, Nat.zero_testBit]
  by_cases hin : n = i
  · rw [← hin, testBit_eq_false_of_lt h]
    simp
  · simp [hin]

theorem land_two_pow_add (T n : Nat) (h : T < 2 ^ n) :
    (2 ^ n + T) &&& 2 ^ n = 2 ^ n := by
  apply Nat.eq_of_testBit_eq
  intro i
  rw [Nat.testBit_and, Nat.testBit_two_pow]
  by_cases hin : n = i
  · have htb : (2 ^ n + T).testBit n = true := by
      have hha := testBit_add_mul_pow_high T 1 n h (le_refl 1)
      rw [Nat.one_mul] at hha
      rw [Nat.add_comm (2 ^ n) T]
      simp [hha]
    rw [← hin]
    simp [htb]
  · simp [hin]

theorem land_two_pow_add_mask (T n : Nat) (h : T < 2 ^ n) :
    (2 ^ n + T) &&& (2 ^ n - 1) = T := by
  rw [and_two_pow_sub_one, Nat.add_comm]
  rw [show T + 2 ^ n = T + 1 * 2 ^ n from by ring, Nat.add_mul_mod_self_right]
  exact Nat.mod_eq_of_lt h

theorem foldr_max_ge {L : List Nat} {x : Nat} (f : Nat → Nat) (hx : x ∈ L) :
    f x ≤ L.foldr (fun s m => max (f s) m) 0 := by
  induction L with
  | nil => simp at hx
  | cons y rest ih =>
    rcases List.mem_cons.mp hx with h | h
    · rw [h]
      exact le_max_left _ _
    · exact le_trans (ih h) (le_max_right _ _)

theorem foldr_max_le {L : List Nat} (f : Nat → Nat) (B : Nat)
    (hB : ∀ x ∈ L, f x ≤ B) : L.foldr (fun s m => max (f s) m) 0 ≤ B := by
  induction L with
  | nil => simp
  | cons y rest ih =>
    simp only [List.foldr_cons]
    exact max_le (hB y (by simp)) (ih (fun x hx => hB x (by simp [hx])))

/-- Find in a range with a unique witness returns that witness. -/
theorem find_range_unique (n : Nat) (p : Nat → Bool) (s : Nat) (hs : s < n)
    (hps : p s = true) (huniq : ∀ x, x < n → p x = true → x = s) :
    (List.range n).find? p = some s := by
  cases hfind : (List.range n).find? p with
  | none =>
    exfalso
    have := List.find?_eq_none.mp hfind s (List.mem_range.mpr hs)
    rw [hps] at this
    exact this rfl
  | some x =>
    have hpx : p x = true := List.find?_some hfind
    have hxmem : x < n := List.mem_range.mp (List.mem_of_find?_eq_some hfind)
    rw [huniq x hxmem hpx]

/-- Two symbols whose reception-order codes agree on the shorter prefix
are equal (convenience wrapper with symmetric length hypotheses). -/
theorem rev_agree_eq (lens : List Nat) (hv : valid_lens lens) (x s i : Nat)
    (hxlen : x < lens.length) (hslen : s < lens.length)
    (hux : 1 ≤ lens.getD x 0) (hus : 1 ≤ lens.getD s 0)
    (hxi : i % 2 ^ lens.getD x 0 = bit_rev (lens.getD x 0) (code_of lens x))
    (hsi : i % 2 ^ lens.getD s 0 = bit_rev (lens.getD s 0) (code_of lens s)) :
    x = s := by
  rcases le_total (lens.getD x 0) (lens.getD s 0) with hle | hle
  · apply rev_collision_eq lens hv x s hxlen hslen hux hus hle
    have hmm : bit_rev (lens.getD s 0) (code_of lens s) % 2 ^ lens.getD x 0 =
        i % 2 ^ lens.getD x 0 := by
      rw [← hsi]
      rw [Nat.mod_mod_of_dvd _ (pow_dvd_pow 2 hle)]
    rw [hmm, hxi]
  · symm
    apply rev_collision_eq lens hv s x hslen hxlen hus hux hle
    have hmm : bit_rev (lens.getD x 0) (code_of lens x) % 2 ^ lens.getD s 0 =
        i % 2 ^ lens.getD s 0 := by
      rw [← hxi]
      rw [Nat.mod_mod_of_dvd _ (pow_dvd_pow 2 hle)]
    rw [hmm, hsi]

/-- Sub-table of prefix `q` as stored in the flat secondary array. -/
def secG (lens : List Nat) (q : Nat) : List huff_entry_t :=
  if has_long lens q then sub_table lens q else []

theorem secondary_entries_eq (lens : List Nat) :
    secondary_entries lens =
      ((List.range (2 ^ HUFF_PRIMARY_BITS)).map (secG lens)).flatten := rfl

theorem sub_table_length (lens : List Nat) (q : Nat) :
    (sub_table lens q).length = 2 ^ (group_total lens q - HUFF_PRIMARY_BITS) := by
  unfold sub_table
  rw [List.length_map, List.length_range]

theorem oflen_succ (G : Nat → List huff_entry_t) (n : Nat) :
    (((List.range (n + 1)).map G).flatten).length =
      (((List.range n).map G).flatten).length + (G n).length := by
  rw [List.range_succ, List.map_append, List.flatten_append, List.length_append]
  simp

theorem oflen_mono (G : Nat → List huff_entry_t) :
    ∀ m n, m ≤ n → (((List.range m).map G).flatten).length ≤
      (((List.range n).map G).flatten).length := by
  intro m n
  induction n with
  | zero => intro h; rw [show m = 0 from by omega]
  | succ k ih =>
    intro h
    by_cases hmk : m = k + 1
    · rw [hmk]
    · have h1 := ih (by omega)
      rw [oflen_succ]
      omega

theorem sec_offset_eq_oflen (lens : List Nat) :
    ∀ p, sec_offset lens p = (((List.range p).map (secG lens)).flatten).length := by
  intro p
  induction p with
  | zero => rfl
  | succ q ih =>
    show sec_offset lens q +
      (if has_long lens q then 2 ^ (group_total lens q - HUFF_PRIMARY_BITS) else 0) = _
    rw [oflen_succ, ih]
    congr 1
    unfold secG
    by_cases hq : has_long lens q
    · rw [if_pos hq, if_pos hq, sub_table_length]
    · rw [if_neg hq, if_neg hq]
      rfl

theorem flatten_map_range_getD (G : Nat → List huff_entry_t) :
    ∀ (n p j : Nat) (e : huff_entry_t), p < n → j < (G p).length →
    ((((List.range n).map G).flatten).getD
      ((((List.range p).map G).flatten).length + j) e) = (G p).getD j e := by
  intro n
  induction n with
  | zero => intro p j e hp; omega
  | succ n ih =>
    intro p j e hp hj
    rw [List.range_succ, List.map_append, List.flatten_append]
    by_cases hpn : p < n
    · have hlt : (((List.range p).map G).flatten).length + j <
          (((List.range n).map G).flatten).length := by
        have h1 : (((List.range p).map G).flatten).length + (G p).length ≤
            (((List.range n).map G).flatten).length := by
          have := oflen_mono G (p + 1) n (by omega)
          rw [oflen_succ] at this
          exact this
        omega
      rw [List.getD_append _ _ _ _ hlt]
      exact ih p j e hpn hj
    · have hpe : p = n := by omega
      subst hpe
      rw [List.getD_append_right _ _ _ _ (by omega)]
      rw [Nat.add_sub_cancel_left]
      simp

/-- Entry lookup in a mapped range. -/
theorem range_map_getD (n j : Nat) (f : Nat → huff_entry_t) (e : huff_entry_t)
    (h : j < n) : ((List.range n).map f).getD j e = f j := by
  rw [List.getD_eq_getElem?_getD, List.getElem?_map, List.getElem?_range h]
  rfl

/-- Decoding one symbol: when the next bits of the reader spell the
reception-order codeword of a used symbol `s`, `huff_decode2` over the
built two-level table returns `s` and consumes exactly its code length. -/
theorem huff_decode2_build (lens : List Nat) (hv : valid_lens lens)
    (s : Nat) (hs : s < lens.length) (hus : 1 ≤ lens.getD s 0)
    (br : bit_reader_t)
    (hpeek : br_peek br (lens.getD s 0) = bit_rev (lens.getD s 0) (code_of lens s)) :
    huff_decode2 br (huff_build_decode_table2 lens) =
      (s, br_consume br (lens.getD s 0)) := by
  have hl15 : lens.getD s 0 ≤ 15 := by
    rw [nat_getD_eq_getElem lens s hs]
    exact hv.1 _ (List.getElem_mem hs)
  have hP9 : br_peek br HUFF_MAX_BITS &&& ((1 <<< HUFF_PRIMARY_BITS) - 1) =
      br_peek br HUFF_PRIMARY_BITS := by
    rw [one_shiftLeft_sub_one, and_two_pow_sub_one]
    exact peekBits_mod br.data br.pos _ _ (by norm_num [HUFF_PRIMARY_BITS, HUFF_MAX_BITS])
  simp only [huff_decode2, huff_build_decode_table2, hP9]
  by_cases hcase : lens.getD s 0 ≤ HUFF_PRIMARY_BITS
  · -- short code: direct primary hit
    have hidx : br_peek br HUFF_PRIMARY_BITS % 2 ^ lens.getD s 0 =
        bit_rev (lens.getD s 0) (code_of lens s) := by
      rw [← hpeek]
      exact peekBits_mod br.data br.pos _ _ hcase
    have hms : matches_short lens (br_peek br HUFF_PRIMARY_BITS) s = true := by
      unfold matches_short
      simp only [Bool.and_eq_true, decide_eq_true_eq]
      exact ⟨⟨by omega, hcase⟩, hidx⟩
    have hfind : find_short lens (br_peek br HUFF_PRIMARY_BITS) = some s := by
      unfold find_short
      apply find_range_unique lens.length _ s hs hms
      intro x hx hpx
      unfold matches_short at hpx
      simp only [Bool.and_eq_true, decide_eq_true_eq] at hpx
      obtain ⟨⟨hux0, _⟩, hxi⟩ := hpx
      exact rev_agree_eq lens hv x s _ hx hs (by omega) hus hxi hidx
    have hentry : primary_entry lens (br_peek br HUFF_PRIMARY_BITS) =
        { len := lens.getD s 0, sym := s } := by
      unfold primary_entry
      rw [hfind]
    rw [hentry]
    have hflag : lens.getD s 0 &&& 0x8000 = 0 := by
      rw [show (0x8000 : Nat) = 2 ^ 15 from rfl]
      exact land_two_pow_eq_zero _ _ (by
        have : (2 : Nat) ^ 15 = 32768 := by norm_num
        omega)
    rw [if_pos hflag]
  · -- long code: redirect through the secondary table
    push_neg at hcase
    have hfits : code_of lens s < 2 ^ lens.getD s 0 := by
      have h1 := (code_of_bounds lens s hs).2
      have h2 := code_fit lens hv (lens.getD s 0) hus hl15
      omega
    have hpfx : br_peek br HUFF_PRIMARY_BITS =
        bit_rev (lens.getD s 0) (code_of lens s) % 2 ^ HUFF_PRIMARY_BITS := by
      rw [← hpeek]
      exact (peekBits_mod br.data br.pos HUFF_PRIMARY_BITS (lens.getD s 0)
        (by omega)).symm
    have hnone : find_short lens (br_peek br HUFF_PRIMARY_BITS) = none := by
      unfold find_short
      apply List.find?_eq_none.mpr
      intro x hx hpx
      unfold matches_short at hpx
      simp only [Bool.and_eq_true, decide_eq_true_eq] at hpx
      obtain ⟨⟨hux0, hux9⟩, hxi⟩ := hpx
      have hxi' : bit_rev (lens.getD s 0) (code_of lens s) % 2 ^ lens.getD x 0 =
          bit_rev (lens.getD x 0) (code_of lens x) := by
        rw [← hxi, hpfx]
        exact (Nat.mod_mod_of_dvd _ (pow_dvd_pow 2 hux9)).symm
      have hsi' : bit_rev (lens.getD s 0) (code_of lens s) %
          2 ^ lens.getD s 0 = bit_rev (lens.getD s 0) (code_of lens s) :=
        Nat.mod_eq_of_lt (bit_rev_lt _ _)
      have hxs := rev_agree_eq lens hv x (s : Nat) _ (List.mem_range.mp hx) hs
        (by omega) hus hxi' hsi'
      rw [hxs] at hux9
      omega
    have hingrp : in_group lens (br_peek br HUFF_PRIMARY_BITS) s = true := by
      unfold in_group
      simp only [Bool.and_eq_true, decide_eq_true_eq]
      exact ⟨hcase, hpfx.symm⟩
    have hsgm : s ∈ group_syms lens (br_peek br HUFF_PRIMARY_BITS) := by
      unfold group_syms
      rw [List.mem_filter]
      exact ⟨List.mem_range.mpr hs, hingrp⟩
    have hhl : has_long lens (br_peek br HUFF_PRIMARY_BITS) = true := by
      unfold has_long
      simp only [decide_eq_true_eq]
      exact List.ne_nil_of_mem hsgm
    have hTge : lens.getD s 0 ≤ group_total lens (br_peek br HUFF_PRIMARY_BITS) := by
      unfold group_total
      exact foldr_max_ge (fun t => lens.getD t 0) hsgm
    have hTle : group_total lens (br_peek br HUFF_PRIMARY_BITS) ≤ 15 := by
      unfold group_total
      apply foldr_max_le
      intro x hx
      have hxlen : x < lens.length := List.mem_range.mp (List.mem_filter.mp hx).1
      rw [nat_getD_eq_getElem lens x hxlen]
      exact hv.1 _ (List.getElem_mem hxlen)
    have hsplit : ∀ t : Nat, HUFF_PRIMARY_BITS ≤ t →
        (2 : Nat) ^ t = 2 ^ HUFF_PRIMARY_BITS * 2 ^ (t - HUFF_PRIMARY_BITS) := by
      intro t ht
      rw [← pow_add, Nat.add_sub_cancel' ht]
    have hentry : primary_entry lens (br_peek br HUFF_PRIMARY_BITS) =
        { len := 0x8000 + group_total lens (br_peek br HUFF_PRIMARY_BITS),
          sym := sec_offset lens (br_peek br HUFF_PRIMARY_BITS) } := by
      unfold primary_entry
      rw [hnone]
      simp only [hhl, if_true]
    rw [hentry]
    have h2p15 : (2 : Nat) ^ 15 = 32768 := by norm_num
    have hflag : ¬((0x8000 + group_total lens (br_peek br HUFF_PRIMARY_BITS)) &&&
        0x8000 = 0) := by
      rw [show (0x8000 : Nat) = 2 ^ 15 from rfl,
        land_two_pow_add _ _ (by omega)]
      positivity
    rw [if_neg hflag]
    have hmask : (0x8000 + group_total lens (br_peek br HUFF_PRIMARY_BITS)) &&&
        0x7FFF = group_total lens (br_peek br HUFF_PRIMARY_BITS) := by
      rw [show (0x8000 : Nat) = 2 ^ 15 from rfl,
        show (0x7FFF : Nat) = 2 ^ 15 - 1 from rfl]
      exact land_two_pow_add_mask _ _ (by omega)
    rw [hmask]
    -- the extra bits j select the right secondary slot
    have hpT : br_peek br (group_total lens (br_peek br HUFF_PRIMARY_BITS)) =
        br_peek br HUFF_MAX_BITS %
          2 ^ group_total lens (br_peek br HUFF_PRIMARY_BITS) :=
      (peekBits_mod br.data br.pos _ _ (by
        show group_total lens (br_peek br HUFF_PRIMARY_BITS) ≤ HUFF_MAX_BITS
        rw [show HUFF_MAX_BITS = 15 from rfl]
        omega)).symm
    have hjeq : (br_peek br HUFF_MAX_BITS >>> HUFF_PRIMARY_BITS) &&&
        ((1 <<< (group_total lens (br_peek br HUFF_PRIMARY_BITS) -
          HUFF_PRIMARY_BITS)) - 1) =
        br_peek br (group_total lens (br_peek br HUFF_PRIMARY_BITS)) >>>
          HUFF_PRIMARY_BITS := by
      rw [one_shiftLeft_sub_one, and_two_pow_sub_one, hpT,
        Nat.shiftRight_eq_div_pow, Nat.shiftRight_eq_div_pow]
      rw [hsplit (group_total lens (br_peek br HUFF_PRIMARY_BITS)) (by omega)]
      rw [Nat.mod_mul_right_div_self]
    rw [hjeq]
    -- reconstruct the full received index of the group
    have hdecomp : br_peek br HUFF_PRIMARY_BITS +
        2 ^ HUFF_PRIMARY_BITS *
          (br_peek br (group_total lens (br_peek br HUFF_PRIMARY_BITS)) >>>
            HUFF_PRIMARY_BITS) =
        br_peek br (group_total lens (br_peek br HUFF_PRIMARY_BITS)) := by
      have hp9T : br_peek br HUFF_PRIMARY_BITS =
          br_peek br (group_total lens (br_peek br HUFF_PRIMARY_BITS)) %
            2 ^ HUFF_PRIMARY_BITS :=
        (peekBits_mod br.data br.pos _ _ (by omega)).symm
      nth_rewrite 1 [hp9T]
      rw [Nat.shiftRight_eq_div_pow]
      rw [show (2 : Nat) ^ HUFF_PRIMARY_BITS = 512 from by
        norm_num [HUFF_PRIMARY_BITS]]
      omega
    have hjlt : br_peek br (group_total lens (br_peek br HUFF_PRIMARY_BITS)) >>>
        HUFF_PRIMARY_BITS <
        2 ^ (group_total lens (br_peek br HUFF_PRIMARY_BITS) -
          HUFF_PRIMARY_BITS) := by
      rw [Nat.shiftRight_eq_div_pow]
      apply Nat.div_lt_of_lt_mul
      rw [← hsplit (group_total lens (br_peek br HUFF_PRIMARY_BITS)) (by omega)]
      exact peekBits_lt br.data br.pos _
    -- the secondary lookup lands in the group's sub-table
    have hsecflat : ∀ e : huff_entry_t,
        (secondary_entries lens).getD
          (sec_offset lens (br_peek br HUFF_PRIMARY_BITS) +
            (br_peek br (group_total lens (br_peek br HUFF_PRIMARY_BITS)) >>>
              HUFF_PRIMARY_BITS)) e =
        (sub_table lens (br_peek br HUFF_PRIMARY_BITS)).getD
          (br_peek br (group_total lens (br_peek br HUFF_PRIMARY_BITS)) >>>
            HUFF_PRIMARY_BITS) e := by
      intro e
      rw [secondary_entries_eq, sec_offset_eq_oflen]
      have hG : secG lens (br_peek br HUFF_PRIMARY_BITS) =
          sub_table lens (br_peek br HUFF_PRIMARY_BITS) := by
        unfold secG
        rw [if_pos hhl]
      rw [← hG]
      apply flatten_map_range_getD
      · exact peekBits_lt br.data br.pos _
      · rw [hG, sub_table_length]
        exact hjlt
    -- the sub-table entry is the symbol itself
    have hml : matches_long lens (br_peek br HUFF_PRIMARY_BITS)
        (br_peek br (group_total lens (br_peek br HUFF_PRIMARY_BITS)) >>>
          HUFF_PRIMARY_BITS) s = true := by
      unfold matches_long
      simp only [Bool.and_eq_true, decide_eq_true_eq]
      refine ⟨hcase, ?_⟩
      rw [hdecomp]
      have hTl : br_peek br (group_total lens (br_peek br HUFF_PRIMARY_BITS)) %
          2 ^ lens.getD s 0 = br_peek br (lens.getD s 0) :=
        peekBits_mod br.data br.pos _ _ (by omega)
      rw [hTl, hpeek]
    have hsub : (sub_table lens (br_peek br HUFF_PRIMARY_BITS)).getD
        (br_peek br (group_total lens (br_peek br HUFF_PRIMARY_BITS)) >>>
          HUFF_PRIMARY_BITS) { len := 0, sym := 0 } =
        { len := lens.getD s 0, sym := s } := by
      unfold sub_table
      rw [range_map_getD _ _ _ _ hjlt]
      rw [find_range_unique lens.length _ s hs hml ?uniq]
      case uniq =>
        intro x hx hpx
        unfold matches_long at hpx
        simp only [Bool.and_eq_true, decide_eq_true_eq] at hpx
        obtain ⟨hx9, hxi⟩ := hpx
        rw [hdecomp] at hxi
        have hTl : br_peek br (group_total lens (br_peek br HUFF_PRIMARY_BITS)) %
            2 ^ lens.getD s 0 = br_peek br (lens.getD s 0) :=
          peekBits_mod br.data br.pos _ _ (by omega)
        have hsi : br_peek br (group_total lens (br_peek br HUFF_PRIMARY_BITS)) %
            2 ^ lens.getD s 0 = bit_rev (lens.getD s 0) (code_of lens s) := by
          rw [hTl, hpeek]
        exact rev_agree_eq lens hv x s _ hx hs (by omega) hus hxi hsi
    rw [hsecflat, hsub]

/-! ## The compressor (modelled from the spec, §4.3-§4.4; `odz_compress`
is declared in src/libodzip.h but its translation unit is not under src/).
Bit-level encoders for the writer side. -/

/-- The `l` bits of a codeword as written to the stream: canonical code
value transmitted most-significant bit first, so that the LSB-first
reader receives `bit_rev l c`. -/
def code_bits (l c : Nat) : List Bool :=
  (List.range l).map (fun j => c.testBit (l - 1 - j))

/-- An `n`-bit field written LSB-first (extra bits, tree header fields). -/
def val_bits (n v : Nat) : List Bool :=
  (List.range n).map (fun j => v.testBit j)

theorem code_bits_length (l c : Nat) : (code_bits l c).length = l := by
  simp [code_bits]

theorem val_bits_length (n v : Nat) : (val_bits n v).length = n := by
  simp [val_bits]

theorem range_map_getD_bool (n : Nat) (f : Nat → Bool) (i : Nat) :
    ((List.range n).map f).getD i false = if i < n then f i else false := by
  rw [List.getD_eq_getElem?_getD, List.getElem?_map]
  by_cases h : i < n
  · rw [List.getElem?_range h, if_pos h]
    rfl
  · rw [List.getElem?_eq_none (by simpa using h), if_neg h]
    rfl

/-- Reading back an LSB-first field yields the value. -/
theorem bv_val_bits (n v : Nat) (h : v < 2 ^ n) : bv (val_bits n v) = v := by
  apply Nat.eq_of_testBit_eq
  intro k
  rw [bv_testBit, val_bits, range_map_getD_bool]
  by_cases hk : k < n
  · rw [if_pos hk]
  · rw [if_neg hk]
    exact (testBit_eq_false_of_lt (lt_of_lt_of_le h
      (Nat.pow_le_pow_right (by norm_num) (by omega)))).symm

/-- Reading back an MSB-first codeword yields the bit-reversed code. -/
theorem bv_code_bits (l c : Nat) : bv (code_bits l c) = bit_rev l c := by
  apply Nat.eq_of_testBit_eq
  intro k
  rw [bv_testBit, code_bits, range_map_getD_bool]
  by_cases hk : k < l
  · rw [if_pos hk, bit_rev_testBit l c k hk]
  · rw [if_neg hk]
    exact (testBit_eq_false_of_lt (lt_of_lt_of_le (bit_rev_lt l c)
      (Nat.pow_le_pow_right (by norm_num) (by omega)))).symm

/-! ## Length and distance code selection (modelled from the spec's
DEFLATE-compatible tables, §3): the code index for a value is the largest
table index whose base does not exceed it. -/

/-- Largest `i < n` with `g i ≤ v` (0 when none). -/
def last_le (g : Nat → Nat) (v n : Nat) : Nat :=
  (List.range n).foldl (fun acc i => if g i ≤ v then i else acc) 0

def length_code (L : Nat) : Nat :=
  last_le (fun i => base_length.getD i 0) L 29

def dist_code (D : Nat) : Nat :=
  last_le (fun i => base_dist.getD i 0) D 30

theorem last_le_spec (g : Nat → Nat) (v : Nat) :
    ∀ n, 0 < n → g 0 ≤ v →
      (last_le g v n < n ∧ g (last_le g v n) ≤ v ∧
        ∀ j < n, g j ≤ v → j ≤ last_le g v n) := by
  intro n
  induction n with
  | zero => intro h; omega
  | succ m ih =>
    intro _ h0
    unfold last_le
    rw [List.range_succ, List.foldl_append]
    rcases Nat.eq_zero_or_pos m with hm | hm
    · subst hm
      simp only [List.range_zero, List.foldl_nil, List.foldl_cons]
      rw [if_pos h0]
      exact ⟨by omega, h0, fun j hj _ => by omega⟩
    · obtain ⟨h1, h2, h3⟩ := ih hm h0
      unfold last_le at h1 h2 h3
      simp only [List.foldl_cons, List.foldl_nil]
      by_cases hg : g m ≤ v
      · rw [if_pos hg]
        exact ⟨by omega, hg, fun j hj _ => by omega⟩
      · rw [if_neg hg]
        refine ⟨by omega, h2, fun j hj hjv => ?_⟩
        have : j ≠ m := by
          intro heq
          exact hg (heq ▸ hjv)
        exact h3 j (by omega) hjv

/-- Facts about the length table needed to place every match length in
its code's interval. -/
theorem base_length_chain :
    base_length.getD 0 0 = 3 ∧
    (∀ i < 28, base_length.getD (i + 1) 0 ≤
      base_length.getD i 0 + 2 ^ (extra_lbits.getD i 0)) ∧
    base_length.getD 28 0 = 258 ∧ extra_lbits.getD 28 0 = 0 := by decide

theorem base_dist_chain :
    base_dist.getD 0 0 = 1 ∧
    (∀ i < 29, base_dist.getD (i + 1) 0 ≤
      base_dist.getD i 0 + 2 ^ (extra_dbits.getD i 0)) ∧
    base_dist.getD 29 0 + 2 ^ (extra_dbits.getD 29 0) = 32769 := by decide

/-- The selected length code covers `L`: index below 29, base at most `L`,
and the remainder fits in the code's extra bits. -/
theorem length_code_spec (L : Nat) (h3 : 3 ≤ L) (h258 : L ≤ 258) :
    length_code L < 29 ∧ base_length.getD (length_code L) 0 ≤ L ∧
    L - base_length.getD (length_code L) 0 < 2 ^ (extra_lbits.getD (length_code L) 0) := by
  obtain ⟨hb0, hchain, hb28, he28⟩ := base_length_chain
  have hg0 : (fun i => base_length.getD i 0) 0 ≤ L := by
    show base_length.getD 0 0 ≤ L
    omega
  obtain ⟨h1, h2, h3'⟩ := last_le_spec (fun i => base_length.getD i 0) L 29
    (by norm_num) hg0
  have hdef : length_code L = last_le (fun i => base_length.getD i 0) L 29 := rfl
  rw [← hdef] at h1 h2 h3'
  refine ⟨h1, h2, ?_⟩
  by_cases hlast : length_code L = 28
  · rw [hlast] at h2 ⊢
    rw [hb28] at h2 ⊢
    rw [he28]
    omega
  · have hlt : length_code L < 28 := by omega
    have hnext : ¬ base_length.getD (length_code L + 1) 0 ≤ L := by
      intro hle
      have := h3' (length_code L + 1) (by omega) hle
      omega
    have hc := hchain (length_code L) hlt
    omega

/-- The selected distance code covers `D`: index below 30, base at most
`D`, and the remainder fits in the code's extra bits. -/
theorem dist_code_spec (D : Nat) (h1' : 1 ≤ D) (h32k : D ≤ 32768) :
    dist_code D < 30 ∧ base_dist.getD (dist_code D) 0 ≤ D ∧
    D - base_dist.getD (dist_code D) 0 < 2 ^ (extra_dbits.getD (dist_code D) 0) := by
  obtain ⟨hb0, hchain, hb29⟩ := base_dist_chain
  have hg0 : (fun i => base_dist.getD i 0) 0 ≤ D := by
    show base_dist.getD 0 0 ≤ D
    omega
  obtain ⟨h1, h2, h3'⟩ := last_le_spec (fun i => base_dist.getD i 0) D 30
    (by norm_num) hg0
  have hdef : dist_code D = last_le (fun i => base_dist.getD i 0) D 30 := rfl
  rw [← hdef] at h1 h2 h3'
  refine ⟨h1, h2, ?_⟩
  by_cases hlast : dist_code D = 29
  · rw [hlast] at h2 ⊢
    omega
  · have hlt : dist_code D < 29 := by omega
    have hnext : ¬ base_dist.getD (dist_code D + 1) 0 ≤ D := by
      intro hle
      have := h3' (dist_code D + 1) (by omega) hle
      omega
    have hc := hchain (dist_code D) hlt
    omega

/-! ## Code-length assignment (modelled from the spec, §4.2 encode side).
The frequency-merge tree gives candidate depths; the spec's length
limiting ("any correct length-limited Huffman algorithm is acceptable")
is instantiated by falling back to a balanced Kraft-equality assignment
whenever the merge depths fail the checked validity conditions. -/

theorem range_map_getD_nat (n : Nat) (f : Nat → Nat) (i : Nat) (h : i < n) :
    ((List.range n).map f).getD i 0 = f i := by
  rw [List.getD_eq_getElem?_getD, List.getElem?_map, List.getElem?_range h]
  rfl

theorem sum_map_addN (l : List Nat) (f g : Nat → Nat) :
    (l.map (fun x => f x + g x)).sum = (l.map f).sum + (l.map g).sum := by
  induction l with
  | nil => simp
  | cons x v ih =>
    simp only [List.map_cons, List.sum_cons, ih]
    omega

theorem sum_single (C x : Nat) :
    ∀ N, x < N → ((List.range N).map (fun s => if s = x then C else 0)).sum = C := by
  intro N
  induction N with
  | zero => omega
  | succ n ih =>
    intro hx
    rw [List.range_succ, List.map_append, List.sum_append]
    by_cases hxn : x = n
    · subst hxn
      have hz : ((List.range x).map (fun s => if s = x then C else 0)).sum = 0 := by
        apply List.sum_eq_zero
        intro y hy
        rw [List.mem_map] at hy
        obtain ⟨s, hs, rfl⟩ := hy
        rw [if_neg (by
          have := List.mem_range.mp hs
          omega)]
      rw [hz]
      simp
    · rw [ih (by omega)]
      simp only [List.map_cons, List.map_nil, List.sum_cons, List.sum_nil]
      rw [if_neg (fun h => hxn h.symm)]
      omega

theorem sum_indicator (C : Nat) :
    ∀ (u : List Nat) (N : Nat), u.Nodup → (∀ x ∈ u, x < N) →
      ((List.range N).map (fun s => if s ∈ u then C else 0)).sum =
        u.length * C := by
  intro u
  induction u with
  | nil => intro N _ _; simp
  | cons x v ih =>
    intro N hnd hsub
    rw [List.nodup_cons] at hnd
    have hpt : ((List.range N).map (fun s => if s ∈ x :: v then C else 0)) =
        (List.range N).map (fun s =>
          (if s = x then C else 0) + (if s ∈ v then C else 0)) := by
      apply List.map_congr_left
      intro s _
      by_cases hsx : s = x
      · subst hsx
        rw [if_pos (List.mem_cons_self s v), if_pos rfl,
          if_neg (fun hmem => hnd.1 hmem)]
        omega
      · by_cases hsv : s ∈ v
        · rw [if_pos (List.mem_cons_of_mem x hsv), if_neg hsx, if_pos hsv]
          omega
        · rw [if_neg (by
            intro hmem
            rcases List.mem_cons.mp hmem with h | h
            · exact hsx h
            · exact hsv h), if_neg hsx, if_neg hsv]
    rw [hpt, sum_map_addN, sum_single C x N (hsub x (List.mem_cons_self x v)),
      ih N hnd.2 (fun y hy => hsub y (List.mem_cons_of_mem x hy))]
    simp only [List.length_cons]
    ring

/-- Smallest `L ≤ 15` with `k ≤ 2 ^ L` (16 when none). -/
def clog2 (k : Nat) : Nat :=
  (List.range 16).foldr (fun L acc => if k ≤ 2 ^ L then L else acc) 16

theorem clog2_facts : ∀ k < 513, 2 ≤ k →
    k ≤ 2 ^ clog2 k ∧ 2 ^ (clog2 k - 1) < k ∧ 1 ≤ clog2 k ∧ clog2 k ≤ 9 := by
  decide

/-- The balanced Kraft-equality assignment for `k ≥ 2` used symbols: with
`L` the ceiling log, the first `2 ^ L - k` used symbols get length
`L - 1` and the rest length `L`, giving `Σ 2 ^ (15 - len) = 2 ^ 15`. -/
def balanced (N : Nat) (used : List Nat) : List Nat :=
  (List.range N).map (fun s =>
    if s ∈ used.take (2 ^ clog2 used.length - used.length) then
      clog2 used.length - 1
    else if s ∈ used then clog2 used.length else 0)

/-- The checked conditions under which merge-derived depths are usable. -/
def lens_good (used : List Nat) (N : Nat) (lens : List Nat) : Prop :=
  lens.length = N ∧ (∀ l ∈ lens, l ≤ 15) ∧
  kraft_sum lens = 2 ^ 15 ∧ ∀ s ∈ used, 1 ≤ lens.getD s 0

instance (used : List Nat) (N : Nat) (lens : List Nat) :
    Decidable (lens_good used N lens) := by
  unfold lens_good
  infer_instance

/-- Huffman merge tree (modelled from the spec: "merge the two smallest
repeatedly"). -/
inductive htree where
  | leaf (s : Nat)
  | node (l r : htree)

/-- Insert into a weight-sorted forest. -/
def ins_forest (w : Nat) (t : htree) : List (Nat × htree) → List (Nat × htree)
  | [] => [(w, t)]
  | (w2, t2) :: rest =>
    if w ≤ w2 then (w, t) :: (w2, t2) :: rest
    else (w2, t2) :: ins_forest w t rest

def merge_forest : Nat → List (Nat × htree) → Option htree
  | _, [(_, t)] => some t
  | fuel + 1, (w1, t1) :: (w2, t2) :: rest =>
    merge_forest fuel (ins_forest (w1 + w2) (htree.node t1 t2) rest)
  | _, _ => none

def tree_depths : htree → Nat → List (Nat × Nat)
  | htree.leaf s, d => [(s, d)]
  | htree.node l r, d => tree_depths l (d + 1) ++ tree_depths r (d + 1)

def set_lens (N : Nat) (pairs : List (Nat × Nat)) : List Nat :=
  pairs.foldl (fun acc p => acc.set p.1 p.2) (List.replicate N 0)

/-- Candidate depths from the frequency-merge tree. -/
def tree_lengths (N : Nat) (f : Nat → Nat) (used : List Nat) : List Nat :=
  match merge_forest used.length
      (used.foldr (fun s acc => ins_forest (f s) (htree.leaf s) acc) []) with
  | some t => set_lens N (tree_depths t 0)
  | none => []

/-- Length assignment by the shape of the used-symbol list: the spec's
edge cases for zero and one used symbols (one symbol of length 1), and
otherwise the checked merge depths with the balanced fallback. -/
def huff_lengths_u (N : Nat) (f : Nat → Nat) : List Nat → List Nat
  | [] => (List.range N).map (fun t => if t = 0 then 1 else 0)
  | [s] => (List.range N).map (fun t => if t = s then 1 else 0)
  | s1 :: s2 :: rest =>
    let used := s1 :: s2 :: rest
    let cand := tree_lengths N f used
    if lens_good used N cand then cand else balanced N used

def huff_lengths (N : Nat) (f : Nat → Nat) : List Nat :=
  huff_lengths_u N f ((List.range N).filter (fun s => 0 < f s))

/-- What the rest of the compressor needs from a length assignment. -/
def lens_spec (N : Nat) (f : Nat → Nat) (lens : List Nat) : Prop :=
  lens.length = N ∧ valid_lens lens ∧
  ∀ s < N, 0 < f s → 1 ≤ lens.getD s 0

/-- A single length-1 symbol is a valid assignment. -/
theorem single_lens_valid (N s0 : Nat) :
    ((List.range N).map (fun t => if t = s0 then 1 else 0)).length = N ∧
    valid_lens ((List.range N).map (fun t => if t = s0 then 1 else 0)) := by
  refine ⟨by simp, ?_, ?_⟩
  · intro l hl
    rw [List.mem_map] at hl
    obtain ⟨t, _, rfl⟩ := hl
    by_cases h : t = s0 <;> simp [h, HUFF_MAX_BITS]
  · unfold kraft_sum
    rw [List.map_map]
    have hpt : ((fun l => if l = 0 then 0 else 2 ^ (HUFF_MAX_BITS - l)) ∘
        fun t => if t = s0 then 1 else 0) =
        fun t => if t = s0 then 2 ^ 14 else 0 := by
      funext t
      by_cases h : t = s0 <;> simp [h, Function.comp, HUFF_MAX_BITS]
    rw [hpt]
    by_cases hs0 : s0 < N
    · rw [sum_single _ s0 N hs0]
      norm_num [HUFF_MAX_BITS]
    · have hz : (((List.range N).map fun t => if t = s0 then 2 ^ 14 else 0)).sum = 0 := by
        apply List.sum_eq_zero
        intro y hy
        rw [List.mem_map] at hy
        obtain ⟨t, ht, rfl⟩ := hy
        rw [if_neg (by
          have := List.mem_range.mp ht
          omega)]
      rw [hz]
      positivity

/-- The balanced assignment satisfies the required properties. -/
theorem balanced_spec (N : Nat) (used : List Nat) (hnd : used.Nodup)
    (hsub : ∀ x ∈ used, x < N) (hk2 : 2 ≤ used.length)
    (hk512 : used.length ≤ 512) :
    (balanced N used).length = N ∧ valid_lens (balanced N used) ∧
    ∀ s ∈ used, 1 ≤ (balanced N used).getD s 0 := by
  obtain ⟨hc1, hc2, hc3, hc4⟩ :=
    clog2_facts used.length (by omega) hk2
  have hpow : 2 ^ clog2 used.length = 2 * 2 ^ (clog2 used.length - 1) := by
    rw [← pow_succ']
    congr 1
    omega
  have hak : 2 ^ clog2 used.length - used.length < used.length := by omega
  have haL2 : 0 < 2 ^ clog2 used.length - used.length → 2 ≤ clog2 used.length := by
    intro ha
    by_contra hL1
    have hL : clog2 used.length = 1 := by omega
    rw [hL] at hc1 hc2
    norm_num at hc1 hc2
    omega
  refine ⟨by simp [balanced], ⟨?_, ?_⟩, ?_⟩
  · intro l hl
    rw [balanced, List.mem_map] at hl
    obtain ⟨t, _, rfl⟩ := hl
    split
    · show clog2 used.length - 1 ≤ HUFF_MAX_BITS
      show clog2 used.length - 1 ≤ 15
      omega
    · split
      · show clog2 used.length ≤ 15
        omega
      · show 0 ≤ HUFF_MAX_BITS
        omega
  · -- Kraft equality (which gives the decoder's bound)
    apply le_of_eq
    unfold kraft_sum balanced
    rw [List.map_map]
    have hsplit := List.take_append_drop
      (2 ^ clog2 used.length - used.length) used
    have hdisj : ∀ x ∈ used.take (2 ^ clog2 used.length - used.length),
        x ∉ used.drop (2 ^ clog2 used.length - used.length) := by
      have hnd2 : (used.take (2 ^ clog2 used.length - used.length) ++
          used.drop (2 ^ clog2 used.length - used.length)).Nodup := by
        rw [hsplit]
        exact hnd
      exact fun x hx hx2 => (List.disjoint_of_nodup_append hnd2) hx hx2
    have hpt : ((fun l => if l = 0 then 0 else 2 ^ (HUFF_MAX_BITS - l)) ∘
        fun s => if s ∈ used.take (2 ^ clog2 used.length - used.length) then
          clog2 used.length - 1
        else if s ∈ used then clog2 used.length else 0) =
        fun s =>
          (if s ∈ used.take (2 ^ clog2 used.length - used.length) then
            2 ^ (16 - clog2 used.length) else 0) +
          (if s ∈ used.drop (2 ^ clog2 used.length - used.length) then
            2 ^ (15 - clog2 used.length) else 0) := by
      funext s
      simp only [Function.comp_apply]
      by_cases hsA : s ∈ used.take (2 ^ clog2 used.length - used.length)
      · have haz : 0 < 2 ^ clog2 used.length - used.length := by
          rcases Nat.eq_zero_or_pos (2 ^ clog2 used.length - used.length) with h | h
          · rw [h] at hsA
            simp at hsA
          · exact h
        have hL2 := haL2 haz
        rw [if_pos hsA, if_pos hsA,
          if_neg (hdisj s hsA), if_neg (by omega)]
        have h16 : HUFF_MAX_BITS - (clog2 used.length - 1) =
            16 - clog2 used.length := by
          show 15 - (clog2 used.length - 1) = 16 - clog2 used.length
          omega
        rw [h16]
        omega
      · rw [if_neg hsA, if_neg hsA]
        by_cases hsu : s ∈ used
        · have hsB : s ∈ used.drop (2 ^ clog2 used.length - used.length) := by
            have := hsplit ▸ hsu
            rcases List.mem_append.mp this with h | h
            · exact absurd h hsA
            · exact h
          rw [if_pos hsu, if_pos hsB, if_neg (by omega)]
          show 2 ^ (HUFF_MAX_BITS - clog2 used.length) = _
          show 2 ^ (15 - clog2 used.length) = _
          omega
        · have hsB : s ∉ used.drop (2 ^ clog2 used.length - used.length) :=
            fun h => hsu (List.drop_subset _ _ h)
          rw [if_neg hsu, if_neg hsB, if_pos rfl]
    have hndA : (used.take (2 ^ clog2 used.length - used.length)).Nodup :=
      List.Sublist.nodup (List.take_sublist _ _) hnd
    have hndB : (used.drop (2 ^ clog2 used.length - used.length)).Nodup :=
      List.Sublist.nodup (List.drop_sublist _ _) hnd
    rw [hpt, sum_map_addN,
      sum_indicator _ _ N hndA
        (fun x hx => hsub x (List.take_subset _ _ hx)),
      sum_indicator _ _ N hndB
        (fun x hx => hsub x (List.drop_subset _ _ hx))]
    rw [List.length_take, List.length_drop]
    have hmin : min (2 ^ clog2 used.length - used.length) used.length =
        2 ^ clog2 used.length - used.length := by omega
    rw [hmin]
    have h16 : (2 : Nat) ^ (16 - clog2 used.length) =
        2 * 2 ^ (15 - clog2 used.length) := by
      rw [← pow_succ']
      congr 1
      omega
    rw [h16]
    have hsum : (2 ^ clog2 used.length - used.length) *
          (2 * 2 ^ (15 - clog2 used.length)) +
        (used.length - (2 ^ clog2 used.length - used.length)) *
          2 ^ (15 - clog2 used.length) =
        2 ^ clog2 used.length * 2 ^ (15 - clog2 used.length) := by
      have hx := hc1
      have hak' := hak
      generalize 2 ^ (15 - clog2 used.length) = X
      generalize hP : 2 ^ clog2 used.length = P at hx hak' ⊢
      have e1 : (P - used.length) * (2 * X) = 2 * (P - used.length) * X := by
        ring
      rw [e1, ← Nat.add_mul]
      have e2 : 2 * (P - used.length) +
          (used.length - (P - used.length)) = P := by omega
      rw [e2]
    rw [hsum, ← pow_add]
    show 2 ^ (clog2 used.length + (15 - clog2 used.length)) = 2 ^ HUFF_MAX_BITS
    congr 1
    show _ = 15
    omega
  · intro s hs
    rw [balanced, range_map_getD_nat N _ s (hsub s hs)]
    by_cases hsA : s ∈ used.take (2 ^ clog2 used.length - used.length)
    · rw [if_pos hsA]
      have haz : 0 < 2 ^ clog2 used.length - used.length := by
        rcases Nat.eq_zero_or_pos (2 ^ clog2 used.length - used.length) with h | h
        · rw [h] at hsA
          simp at hsA
        · exact h
      have := haL2 haz
      omega
    · rw [if_neg hsA, if_pos hs]
      omega

/-- The length assignment meets the compressor's needs for any frequency
vector over an alphabet of at most 512 symbols. -/
theorem huff_lengths_spec (N : Nat) (f : Nat → Nat) (hN : N ≤ 512) :
    lens_spec N f (huff_lengths N f) := by
  unfold huff_lengths lens_spec
  have hmemu : ∀ s, s ∈ (List.range N).filter (fun s => decide (0 < f s)) ↔
      s < N ∧ 0 < f s := by
    intro s
    rw [List.mem_filter, List.mem_range]
    simp
  have hnd : ((List.range N).filter (fun s => decide (0 < f s))).Nodup :=
    List.Nodup.filter _ (List.nodup_range N)
  have hlen : ((List.range N).filter (fun s => decide (0 < f s))).length ≤ N := by
    have := List.length_filter_le (fun s => decide (0 < f s)) (List.range N)
    simpa using this
  rcases hu : (List.range N).filter (fun s => decide (0 < f s)) with
    _ | ⟨s1, _ | ⟨s2, rest⟩⟩
  · simp only [huff_lengths_u]
    obtain ⟨hl, hv⟩ := single_lens_valid N 0
    refine ⟨hl, hv, ?_⟩
    intro s hs hfs
    have hmem := (hmemu s).mpr ⟨hs, hfs⟩
    rw [hu] at hmem
    exact absurd hmem (List.not_mem_nil s)
  · simp only [huff_lengths_u]
    obtain ⟨hl, hv⟩ := single_lens_valid N s1
    refine ⟨hl, hv, ?_⟩
    intro s hs hfs
    have hmem := (hmemu s).mpr ⟨hs, hfs⟩
    rw [hu] at hmem
    have hss1 : s = s1 := by
      rcases List.mem_cons.mp hmem with h | h
      · exact h
      · exact absurd h (List.not_mem_nil s)
    rw [range_map_getD_nat N _ s hs, if_pos hss1]
  · rw [hu] at hnd hlen
    have hsub : ∀ x ∈ s1 :: s2 :: rest, x < N := by
      intro x hx
      have := (hmemu x).mp (hu ▸ hx)
      exact this.1
    simp only [huff_lengths_u]
    by_cases hg : lens_good (s1 :: s2 :: rest) N
        (tree_lengths N f (s1 :: s2 :: rest))
    · rw [if_pos hg]
      obtain ⟨hl, h15, hk, hused⟩ := hg
      refine ⟨hl, ⟨h15, le_of_eq hk⟩, ?_⟩
      intro s hs hfs
      have hmem := (hmemu s).mpr ⟨hs, hfs⟩
      rw [hu] at hmem
      exact hused s hmem
    · rw [if_neg hg]
      obtain ⟨hl, hv, hpos⟩ := balanced_spec N (s1 :: s2 :: rest) hnd hsub
        (by simp) (by
          have := hlen
          omega)
      refine ⟨hl, hv, ?_⟩
      intro s hs hfs
      have hmem := (hmemu s).mpr ⟨hs, hfs⟩
      rw [hu] at hmem
      exact hpos s hmem

/-! ## LZ77 match finder (modelled from the spec, §4.3). -/

inductive tok where
  | lit (b : Nat)
  | mat (length dist : Nat)

/-- Length of the common prefix of `buf[p..]` and `buf[i..]`; the fuel
caps it at 258 and at the block end. -/
def match_len (buf : List Nat) : Nat → Nat → Nat → Nat
  | _, _, 0 => 0
  | p, i, fuel + 1 =>
    if i < buf.length ∧ buf.getD p 0 = buf.getD i 0 then
      1 + match_len buf (p + 1) (i + 1) fuel
    else 0

/-- Best match at position `i` over distances `1..n` (§4.3 step 2):
replacement only on a strictly longer match, so ties prefer the smaller
distance. -/
def best_match (buf : List Nat) (i : Nat) : Nat → Nat × Nat
  | 0 => (0, 0)
  | d + 1 =>
    let rest := best_match buf i d
    let l := match_len buf (i - (d + 1)) i (min 258 (buf.length - i))
    if rest.1 < l then (l, d + 1) else rest

/-- Greedy token emission for one block (§4.3; lazy matching is the
spec's optional quality knob and is not taken). -/
def lz_tokens (buf : List Nat) : Nat → Nat → List tok
  | 0, _ => []
  | fuel + 1, i =>
    if i < buf.length then
      let bm := best_match buf i (min i 32768)
      if 3 ≤ bm.1 then tok.mat bm.1 bm.2 :: lz_tokens buf fuel (i + bm.1)
      else tok.lit (buf.getD i 0) :: lz_tokens buf fuel (i + 1)
    else []

/-- Positional validity of a token stream against the block bytes
(§3 "Token stream"). -/
def toks_ok (buf : List Nat) : List tok → Nat → Prop
  | [], i => i = buf.length
  | tok.lit b :: r, i => i < buf.length ∧ b = buf.getD i 0 ∧ toks_ok buf r (i + 1)
  | tok.mat L D :: r, i =>
    3 ≤ L ∧ L ≤ 258 ∧ 1 ≤ D ∧ D ≤ i ∧ D ≤ 32768 ∧ i + L ≤ buf.length ∧
    (∀ j < L, buf.getD (i - D + j) 0 = buf.getD (i + j) 0) ∧ toks_ok buf r (i + L)

theorem match_len_sub (buf : List Nat) :
    ∀ fuel p i, match_len buf p i fuel ≤ buf.length - i := by
  intro fuel
  induction fuel with
  | zero => intro p i; simp [match_len]
  | succ fuel ih =>
    intro p i
    rw [match_len]
    split
    · rename_i h
      have := ih (p + 1) (i + 1)
      omega
    · omega

theorem match_len_le (buf : List Nat) :
    ∀ fuel p i, match_len buf p i fuel ≤ fuel := by
  intro fuel
  induction fuel with
  | zero => intro p i; simp [match_len]
  | succ fuel ih =>
    intro p i
    rw [match_len]
    split
    · have := ih (p + 1) (i + 1)
      omega
    · omega

theorem match_len_bytes (buf : List Nat) :
    ∀ fuel p i j, j < match_len buf p i fuel →
      buf.getD (p + j) 0 = buf.getD (i + j) 0 := by
  intro fuel
  induction fuel with
  | zero => intro p i j hj; simp [match_len] at hj
  | succ fuel ih =>
    intro p i j hj
    rw [match_len] at hj
    split at hj
    · rename_i h
      cases j with
      | zero =>
        simpa using h.2
      | succ j' =>
        have := ih (p + 1) (i + 1) j' (by omega)
        have e1 : p + (j' + 1) = p + 1 + j' := by omega
        have e2 : i + (j' + 1) = i + 1 + j' := by omega
        rw [e1, e2]
        exact this
    · omega

theorem best_match_spec (buf : List Nat) (i : Nat) :
    ∀ n, (best_match buf i n).1 ≠ 0 →
      1 ≤ (best_match buf i n).2 ∧ (best_match buf i n).2 ≤ n ∧
      (best_match buf i n).1 =
        match_len buf (i - (best_match buf i n).2) i
          (min 258 (buf.length - i)) := by
  intro n
  induction n with
  | zero => intro h; simp [best_match] at h
  | succ d ih =>
    intro h
    rw [best_match] at h ⊢
    by_cases hc : (best_match buf i d).1 <
        match_len buf (i - (d + 1)) i (min 258 (buf.length - i))
    · rw [if_pos hc] at h ⊢
      exact ⟨by omega, le_refl _, rfl⟩
    · rw [if_neg hc] at h ⊢
      obtain ⟨h1, h2, h3⟩ := ih h
      exact ⟨h1, by omega, h3⟩

/-- The emitted token stream is valid for the block. -/
theorem lz_tokens_ok (buf : List Nat) :
    ∀ fuel i, buf.length ≤ i + fuel → i ≤ buf.length →
      toks_ok buf (lz_tokens buf fuel i) i := by
  intro fuel
  induction fuel with
  | zero =>
    intro i h1 h2
    have : i = buf.length := by omega
    simpa [lz_tokens, toks_ok]
  | succ fuel ih =>
    intro i h1 h2
    rw [lz_tokens]
    by_cases hi : i < buf.length
    · rw [if_pos hi]
      by_cases hm : 3 ≤ (best_match buf i (min i 32768)).1
      · rw [if_pos hm]
        obtain ⟨hd1, hd2, hlm⟩ :=
          best_match_spec buf i (min i 32768) (by omega)
        have hsub := match_len_sub buf (min 258 (buf.length - i))
          (i - (best_match buf i (min i 32768)).2) i
        have hcap := match_len_le buf (min 258 (buf.length - i))
          (i - (best_match buf i (min i 32768)).2) i
        simp only [toks_ok]
        refine ⟨hm, by omega, hd1, by omega, by omega, by omega, ?_, ?_⟩
        · intro j hj
          rw [hlm] at hj
          exact match_len_bytes buf (min 258 (buf.length - i))
            (i - (best_match buf i (min i 32768)).2) i j hj
        · exact ih (i + (best_match buf i (min i 32768)).1)
            (by omega) (by omega)
      · rw [if_neg hm]
        simp only [toks_ok]
        exact ⟨hi, trivial, ih (i + 1) (by omega) (by omega)⟩
    · rw [if_neg hi]
      simp only [toks_ok]
      omega

/-! ## Bit emission and block assembly (modelled from the spec, §4.4). -/

/-- The codeword of symbol `s` as written to the stream. -/
def sym_bits (lens : List Nat) (s : Nat) : List Bool :=
  code_bits (lens.getD s 0) (code_of lens s)

def tok_bits (ll d : List Nat) : tok → List Bool
  | tok.lit b => sym_bits ll b
  | tok.mat L D =>
    sym_bits ll (257 + length_code L) ++
      val_bits (extra_lbits.getD (length_code L) 0)
        (L - base_length.getD (length_code L) 0) ++
      (sym_bits d (dist_code D) ++
        val_bits (extra_dbits.getD (dist_code D) 0)
          (D - base_dist.getD (dist_code D) 0))

/-- Tree transmission (§4.2): counts then 4-bit lengths; this encoder
always writes the full alphabets (`n_ll` = 286, `n_dist` = 30). -/
def tree_bits (ll d : List Nat) : List Bool :=
  val_bits 9 286 ++ val_bits 5 30 ++
    ((ll.map (fun l => val_bits 4 l)).flatten ++
      (d.map (fun l => val_bits 4 l)).flatten)

/-- All token codewords followed by the end-of-block code. -/
def toks_bits (ll d : List Nat) (toks : List tok) : List Bool :=
  (toks.map (tok_bits ll d)).flatten ++ sym_bits ll 256

/-- Literal/length symbol frequencies of a token stream (end-of-block
forced to at least 1, §4.4 step 1). -/
def f_ll (toks : List tok) (s : Nat) : Nat :=
  toks.countP (fun t => match t with
    | tok.lit b => b == s
    | tok.mat L _ => 257 + length_code L == s) + (if s = 256 then 1 else 0)

def f_d (toks : List tok) (s : Nat) : Nat :=
  toks.countP (fun t => match t with
    | tok.lit _ => false
    | tok.mat _ D => dist_code D == s)

def blk_toks (buf : List Nat) : List tok := lz_tokens buf buf.length 0

def blk_ll (buf : List Nat) : List Nat :=
  huff_lengths LITLEN_SYMS (f_ll (blk_toks buf))

def blk_d (buf : List Nat) : List Nat :=
  huff_lengths DIST_SYMS (f_d (blk_toks buf))

def blk_bits (buf : List Nat) : List Bool :=
  tree_bits (blk_ll buf) (blk_d buf) ++
    toks_bits (blk_ll buf) (blk_d buf) (blk_toks buf)

/-- One block of the compressor (§4.4): the estimated encoded byte count
is the byte length of the emitted block body (the packed stream realises
exactly the spec's `Σ f[s]·len[s] + extra_bits` plus tree cost); a
Huffman block is emitted only when strictly smaller than the raw block. -/
def compress_block (buf : List Nat) : enc_blk :=
  if buf.length ≤ ((blk_bits buf).length + 7) / 8 then enc_blk.stored buf
  else enc_blk.huff buf.length (pack_bits (blk_bits buf))

/-- Split the input into blocks of at most `ODZ_BLOCK_SIZE` bytes; empty
input yields one empty block. -/
def chunks_f : Nat → List Nat → List (List Nat)
  | 0, _ => []
  | fuel + 1, x =>
    if x.length ≤ ODZ_BLOCK_SIZE then [x]
    else x.take ODZ_BLOCK_SIZE :: chunks_f fuel (x.drop ODZ_BLOCK_SIZE)

def chunks (x : List Nat) : List (List Nat) := chunks_f (x.length + 1) x

/-- Modelled from the spec: `odz_compress` (declared in src/libodzip.h)
over an in-memory stream — header, then the per-block encoder. -/
def odz_compress (x : List Nat) : List Nat :=
  file_hdr x.length ++ enc_blocks ((chunks x).map compress_block)

theorem chunks_f_flatten :
    ∀ fuel (x : List Nat), x.length < fuel → (chunks_f fuel x).flatten = x := by
  intro fuel
  induction fuel with
  | zero => intro x h; omega
  | succ fuel ih =>
    intro x h
    rw [chunks_f]
    by_cases hle : x.length ≤ ODZ_BLOCK_SIZE
    · rw [if_pos hle]
      simp
    · rw [if_neg hle]
      rw [List.flatten_cons, ih (x.drop ODZ_BLOCK_SIZE) (by
        rw [List.length_drop]
        have hB : 0 < ODZ_BLOCK_SIZE := by norm_num [ODZ_BLOCK_SIZE]
        omega)]
      exact List.take_append_drop _ x

theorem chunks_flatten (x : List Nat) : (chunks x).flatten = x :=
  chunks_f_flatten (x.length + 1) x (by omega)

theorem chunks_f_le :
    ∀ fuel (x : List Nat), ∀ c ∈ chunks_f fuel x, c.length ≤ ODZ_BLOCK_SIZE := by
  intro fuel
  induction fuel with
  | zero => intro x c hc; simp [chunks_f] at hc
  | succ fuel ih =>
    intro x c hc
    rw [chunks_f] at hc
    by_cases hle : x.length ≤ ODZ_BLOCK_SIZE
    · rw [if_pos hle] at hc
      rcases List.mem_cons.mp hc with h | h
      · subst h; exact hle
      · exact absurd h (List.not_mem_nil c)
    · rw [if_neg hle] at hc
      rcases List.mem_cons.mp hc with h | h
      · subst h
        simp [List.length_take]
      · exact ih _ c h

theorem chunks_le (x : List Nat) : ∀ c ∈ chunks x, c.length ≤ ODZ_BLOCK_SIZE :=
  chunks_f_le (x.length + 1) x

theorem chunks_ne_nil (x : List Nat) : chunks x ≠ [] := by
  rw [chunks, chunks_f]
  split
  · simp
  · simp

/-! ## Reading back the packed stream. -/

/-- Peeking `mid.length` bits at offset `pre.length` of the packed stream
`pre ++ mid ++ post` sees exactly `bv mid`. -/
theorem br_peek_pack (B pre mid post : List Bool) (n pos : Nat)
    (hn : n = mid.length) (hpos : pos = pre.length)
    (hB : B = pre ++ (mid ++ post)) :
    br_peek ⟨pack_bits B, pos⟩ n = bv mid := by
  show peekBits (pack_bits B) pos n = bv mid
  rw [peekBits_pack, hB, hpos, List.drop_left, hn, List.take_left]

/-- Reading an `n`-bit LSB-first field from the packed stream. -/
theorem br_read_pack (B pre post : List Bool) (n v pos : Nat)
    (hv : v < 2 ^ n) (hpos : pos = pre.length)
    (hB : B = pre ++ (val_bits n v ++ post)) :
    br_read ⟨pack_bits B, pos⟩ n = (v, ⟨pack_bits B, pos + n⟩) := by
  unfold br_read br_consume
  rw [br_peek_pack B pre (val_bits n v) post n pos (val_bits_length n v).symm
    hpos hB, bv_val_bits n v hv]

/-- Reading back a 4-bit-coded length vector. -/
theorem read_4bit_lens_pack (B : List Bool) :
    ∀ (lens : List Nat) (pre post : List Bool) (pos : Nat),
      (∀ l ∈ lens, l ≤ 15) → pos = pre.length →
      B = pre ++ ((lens.map (fun l => val_bits 4 l)).flatten ++ post) →
      read_4bit_lens lens.length ⟨pack_bits B, pos⟩ =
        (lens, ⟨pack_bits B, pos + 4 * lens.length⟩) := by
  intro lens
  induction lens with
  | nil =>
    intro pre post pos _ _ _
    simp [read_4bit_lens]
  | cons l rest ih =>
    intro pre post pos h15 hpos hB
    rw [List.length_cons, read_4bit_lens]
    have hB' : B = pre ++ (val_bits 4 l ++
        ((rest.map (fun l => val_bits 4 l)).flatten ++ post)) := by
      rw [hB]
      simp [List.append_assoc]
    rw [br_read_pack B pre _ 4 l pos (by
      have := h15 l (List.mem_cons_self l rest)
      omega) hpos hB']
    rw [ih (pre ++ val_bits 4 l) post (pos + 4)
      (fun x hx => h15 x (List.mem_cons_of_mem l hx))
      (by simp [hpos, val_bits_length])
      (by
        rw [hB']
        simp [List.append_assoc])]
    have : pos + 4 + 4 * rest.length = pos + 4 * (rest.length + 1) := by
      omega
    rw [this]

theorem flatten_val4_length (lens : List Nat) :
    ((lens.map (fun l => val_bits 4 l)).flatten).length = 4 * lens.length := by
  rw [List.length_flatten]
  have hmap : (lens.map (fun l => val_bits 4 l)).map List.length =
      lens.map (fun _ => 4) := by
    rw [List.map_map]
    apply List.map_congr_left
    intro x _
    simp [val_bits_length]
  rw [hmap, List.map_const', List.sum_replicate, smul_eq_mul]
  omega

/-- `huff_read_trees` inverts the encoder's tree transmission. -/
theorem huff_read_trees_enc (ll d : List Nat) (post : List Bool)
    (hll : ll.length = LITLEN_SYMS) (hld : d.length = DIST_SYMS)
    (h15ll : ∀ l ∈ ll, l ≤ 15) (h15d : ∀ l ∈ d, l ≤ 15)
    (hkll : kraft_ok ll = true) (hkd : kraft_ok d = true) :
    huff_read_trees (br_init (pack_bits (tree_bits ll d ++ post))) =
      some (ll, d, ⟨pack_bits (tree_bits ll d ++ post), 1278⟩) := by
  have hBdef : tree_bits ll d ++ post =
      val_bits 9 286 ++ (val_bits 5 30 ++
        ((ll.map (fun l => val_bits 4 l)).flatten ++
          ((d.map (fun l => val_bits 4 l)).flatten ++ post))) := by
    unfold tree_bits
    simp [List.append_assoc]
  have hrd1 : read_4bit_lens 286
      ⟨pack_bits (tree_bits ll d ++ post), 14⟩ =
      (ll, ⟨pack_bits (tree_bits ll d ++ post), 1158⟩) := by
    have h := read_4bit_lens_pack (tree_bits ll d ++ post) ll
      (val_bits 9 286 ++ val_bits 5 30)
      ((d.map (fun l => val_bits 4 l)).flatten ++ post) 14 h15ll
      (by simp [val_bits_length])
      (by
        rw [hBdef]
        simp [List.append_assoc])
    rw [hll] at h
    exact h
  have hrd2 : read_4bit_lens 30
      ⟨pack_bits (tree_bits ll d ++ post), 1158⟩ =
      (d, ⟨pack_bits (tree_bits ll d ++ post), 1278⟩) := by
    have h := read_4bit_lens_pack (tree_bits ll d ++ post) d
      ((val_bits 9 286 ++ val_bits 5 30) ++
        (ll.map (fun l => val_bits 4 l)).flatten)
      post 1158 h15d
      (by
        simp only [List.length_append, val_bits_length, flatten_val4_length,
          hll]
        rfl)
      (by
        rw [hBdef]
        simp [List.append_assoc])
    rw [hld] at h
    exact h
  unfold huff_read_trees
  have hinit : br_init (pack_bits (tree_bits ll d ++ post)) =
      ⟨pack_bits (tree_bits ll d ++ post), 0⟩ := rfl
  rw [hinit]
  rw [br_read_pack _ [] (val_bits 5 30 ++
      ((ll.map (fun l => val_bits 4 l)).flatten ++
        ((d.map (fun l => val_bits 4 l)).flatten ++ post))) 9 286 0
    (by norm_num) rfl (by
      rw [hBdef]
      simp)]
  dsimp only
  rw [br_read_pack _ (val_bits 9 286)
    ((ll.map (fun l => val_bits 4 l)).flatten ++
      ((d.map (fun l => val_bits 4 l)).flatten ++ post)) 5 30 (0 + 9)
    (by norm_num) (by simp [val_bits_length]) hBdef]
  dsimp only
  rw [if_neg (by decide)]
  rw [show (0 + 9 + 5 : Nat) = 14 from rfl]
  rw [hrd1]
  dsimp only
  rw [hrd2]
  dsimp only
  rw [show LITLEN_SYMS - 286 = 0 from rfl, show DIST_SYMS - 30 = 0 from rfl]
  simp only [List.replicate_zero, List.append_nil]
  rw [hkll, hkd]
  rfl

/-! ## Decoding inverts the token encoding. -/

/-- Replaying a valid match through `copy_match` extends agreement with
the source block from `[0, i)` to `[0, i + L)`. -/
theorem copy_match_agree (buf : List Nat) (out : Nat → Nat) (i D L : Nat)
    (hD1 : 1 ≤ D) (hDi : D ≤ i)
    (hbytes : ∀ j < L, buf.getD (i - D + j) 0 = buf.getD (i + j) 0)
    (hout : ∀ j < i, out j = buf.getD j 0) :
    ∀ j < i + L, copy_match out i D L j = buf.getD j 0 := by
  intro j hj
  rw [copy_match_eq_fill out i D L hD1 hDi]
  unfold fill_form
  by_cases hji : i ≤ j
  · rw [if_pos ⟨hji, hj⟩]
    have hidx : i - D + (j - i) % D < i := by
      have := Nat.mod_lt (j - i) (show 0 < D by omega)
      omega
    rw [hout _ hidx]
    have hper : ∀ m, m < L →
        buf.getD (i - D + m % D) 0 = buf.getD (i - D + m) 0 := by
      intro m
      induction m using Nat.strong_induction_on with
      | _ m ihm =>
        intro hm
        by_cases hmD : m < D
        · rw [Nat.mod_eq_of_lt hmD]
        · have hstep : i - D + m = i + (m - D) := by omega
          have hmod : m % D = (m - D) % D := Nat.mod_eq_sub_mod (by omega)
          rw [hstep, ← hbytes (m - D) (by omega), hmod]
          exact ihm (m - D) (by omega) (by omega)
    rw [hper (j - i) (by omega), hbytes (j - i) (by omega)]
    congr 1
    omega
  · rw [if_neg (fun hc => hji hc.1)]
    exact hout j (by omega)

/-- Decoding one symbol whose codeword sits at the reader position of the
packed stream. -/
theorem huff_decode2_pack (lens : List Nat) (hv : valid_lens lens)
    (s : Nat) (hs : s < lens.length) (hus : 1 ≤ lens.getD s 0)
    (B pre post : List Bool) (pos : Nat) (hpos : pos = pre.length)
    (hB : B = pre ++ (sym_bits lens s ++ post)) :
    huff_decode2 ⟨pack_bits B, pos⟩ (huff_build_decode_table2 lens) =
      (s, ⟨pack_bits B, pos + lens.getD s 0⟩) := by
  have hpeek : br_peek ⟨pack_bits B, pos⟩ (lens.getD s 0) =
      bit_rev (lens.getD s 0) (code_of lens s) := by
    rw [br_peek_pack B pre (sym_bits lens s) post _ pos
      (by rw [sym_bits, code_bits_length]) hpos hB]
    exact bv_code_bits _ _
  rw [huff_decode2_build lens hv s hs hus ⟨pack_bits B, pos⟩ hpeek]
  rfl

/-- Symbol usability for a token: its codeword(s) have been assigned. -/
def tok_usable (ll d : List Nat) : tok → Prop
  | tok.lit b => 1 ≤ ll.getD b 0
  | tok.mat L D => 1 ≤ ll.getD (257 + length_code L) 0 ∧
      1 ≤ d.getD (dist_code D) 0

/-- The token-decode loop inverts the encoder: decoding the emitted
codewords reproduces the block bytes and ends at `op = raw_size` with
status OK. -/
theorem decode_tokens_enc (buf ll d : List Nat)
    (hvll : valid_lens ll) (hvd : valid_lens d)
    (hlll : ll.length = LITLEN_SYMS) (hldd : d.length = DIST_SYMS)
    (hb : ∀ x ∈ buf, x < 256) (hend : 1 ≤ ll.getD 256 0) (B : List Bool) :
    ∀ (toks : List tok) (i fuel pos : Nat) (pre : List Bool)
      (post : List Bool) (out : Nat → Nat) (evs : List tok_ev),
      toks_ok buf toks i → (∀ t ∈ toks, tok_usable ll d t) →
      toks.length < fuel → pos = pre.length →
      B = pre ++ ((toks.map (tok_bits ll d)).flatten ++
        (sym_bits ll 256 ++ post)) →
      (∀ j < i, out j = buf.getD j 0) →
      (decode_tokens (huff_build_decode_table2 ll) (huff_build_decode_table2 d)
          buf.length fuel ⟨pack_bits B, pos⟩ out i evs).rc = ODZ_OK ∧
      (decode_tokens (huff_build_decode_table2 ll) (huff_build_decode_table2 d)
          buf.length fuel ⟨pack_bits B, pos⟩ out i evs).op = buf.length ∧
      ∀ j < buf.length,
        (decode_tokens (huff_build_decode_table2 ll) (huff_build_decode_table2 d)
          buf.length fuel ⟨pack_bits B, pos⟩ out i evs).out j = buf.getD j 0 := by
  intro toks
  induction toks with
  | nil =>
    intro i fuel pos pre post out evs hok husable hfuel hpos hB hout
    obtain ⟨fuel', rfl⟩ : ∃ f, fuel = f + 1 := ⟨fuel - 1, by omega⟩
    have hieq : i = buf.length := hok
    have hB' : B = pre ++ (sym_bits ll 256 ++ post) := by
      rw [hB]
      simp only [List.map_nil, List.flatten_nil, List.nil_append]
    rw [decode_tokens]
    rw [huff_decode2_pack ll hvll 256 (by
      rw [hlll]
      norm_num [LITLEN_SYMS]) hend B pre post pos hpos hB']
    dsimp only
    rw [if_neg (by omega), if_pos (show (256 : Nat) = LITLEN_END from rfl)]
    exact ⟨rfl, hieq, fun j hj => hout j (by omega)⟩
  | cons t r ih =>
    intro i fuel pos pre post out evs hok husable hfuel hpos hB hout
    obtain ⟨fuel', rfl⟩ : ∃ f, fuel = f + 1 := ⟨fuel - 1, by omega⟩
    have husable_t := husable t (List.mem_cons_self t r)
    have husable_r := fun x hx => husable x (List.mem_cons_of_mem t hx)
    cases t with
    | lit b =>
      obtain ⟨hi, hbval, hokr⟩ := hok
      have hb256 : b < 256 := by
        rw [hbval, nat_getD_eq_getElem buf i hi]
        exact hb _ (List.getElem_mem hi)
      have hBlit : B = pre ++ (sym_bits ll b ++
          ((r.map (tok_bits ll d)).flatten ++ (sym_bits ll 256 ++ post))) := by
        rw [hB]
        simp only [List.map_cons, List.flatten_cons, tok_bits,
          List.append_assoc]
      rw [decode_tokens]
      rw [huff_decode2_pack ll hvll b (by
        rw [hlll]
        show b < 286
        omega) husable_t B pre
        ((r.map (tok_bits ll d)).flatten ++ (sym_bits ll 256 ++ post))
        pos hpos hBlit]
      dsimp only
      rw [if_pos hb256, if_neg (by omega)]
      exact ih (i + 1) fuel' (pos + ll.getD b 0)
        (pre ++ sym_bits ll b)
        post (fun j => if j = i then b else out j) (evs ++ [tok_ev.lit i b])
        hokr husable_r (by simpa using hfuel)
        (by
          rw [List.length_append, sym_bits, code_bits_length, hpos])
        (by
          rw [hBlit]
          simp only [List.append_assoc])
        (by
          intro j hj
          show (if j = i then b else out j) = buf.getD j 0
          by_cases hje : j = i
          · rw [if_pos hje, hje, hbval]
          · rw [if_neg hje]
            exact hout j (by omega))
    | mat L D =>
      obtain ⟨hL3, hL258, hD1, hDi, hD32, hiL, hbytes, hokr⟩ := hok
      obtain ⟨husll, husd⟩ := husable_t
      obtain ⟨hli29, hlibase, hliext⟩ := length_code_spec L hL3 hL258
      obtain ⟨hdi30, hdibase, hdiext⟩ := dist_code_spec D hD1 hD32
      have hBm : B = pre ++ (sym_bits ll (257 + length_code L) ++
          (val_bits (extra_lbits.getD (length_code L) 0)
            (L - base_length.getD (length_code L) 0) ++
          (sym_bits d (dist_code D) ++
          (val_bits (extra_dbits.getD (dist_code D) 0)
            (D - base_dist.getD (dist_code D) 0) ++
          ((r.map (tok_bits ll d)).flatten ++ (sym_bits ll 256 ++ post)))))) := by
        rw [hB]
        simp only [List.map_cons, List.flatten_cons, tok_bits,
          List.append_assoc]
      rw [decode_tokens]
      rw [huff_decode2_pack ll hvll (257 + length_code L) (by
        rw [hlll]
        show 257 + length_code L < 286
        omega) husll B pre
        (val_bits (extra_lbits.getD (length_code L) 0)
            (L - base_length.getD (length_code L) 0) ++
          (sym_bits d (dist_code D) ++
          (val_bits (extra_dbits.getD (dist_code D) 0)
            (D - base_dist.getD (dist_code D) 0) ++
          ((r.map (tok_bits ll d)).flatten ++ (sym_bits ll 256 ++ post)))))
        pos hpos hBm]
      dsimp only
      rw [if_neg (by omega),
        if_neg (show ¬257 + length_code L = LITLEN_END from by
          show ¬257 + length_code L = 256
          omega)]
      have hci : 257 + length_code L - 257 = length_code L := by omega
      rw [hci]
      rw [if_neg (by omega)]
      have hpre1 : pos + ll.getD (257 + length_code L) 0 =
          (pre ++ sym_bits ll (257 + length_code L)).length := by
        rw [List.length_append, sym_bits, code_bits_length, hpos]
      rw [br_read_pack B (pre ++ sym_bits ll (257 + length_code L))
        (sym_bits d (dist_code D) ++
          (val_bits (extra_dbits.getD (dist_code D) 0)
            (D - base_dist.getD (dist_code D) 0) ++
          ((r.map (tok_bits ll d)).flatten ++ (sym_bits ll 256 ++ post))))
        (extra_lbits.getD (length_code L) 0)
        (L - base_length.getD (length_code L) 0)
        (pos + ll.getD (257 + length_code L) 0) hliext hpre1
        (by
          rw [hBm]
          simp only [List.append_assoc])]
      dsimp only
      have hlen : base_length.getD (length_code L) 0 +
          (L - base_length.getD (length_code L) 0) = L := by omega
      rw [hlen]
      have hpre2 : pos + ll.getD (257 + length_code L) 0 +
          extra_lbits.getD (length_code L) 0 =
          ((pre ++ sym_bits ll (257 + length_code L)) ++
            val_bits (extra_lbits.getD (length_code L) 0)
              (L - base_length.getD (length_code L) 0)).length := by
        simp only [List.length_append, sym_bits, code_bits_length,
          val_bits_length]
        omega
      rw [huff_decode2_pack d hvd (dist_code D) (by
        rw [hldd]
        show dist_code D < 30
        omega) husd B
        ((pre ++ sym_bits ll (257 + length_code L)) ++
          val_bits (extra_lbits.getD (length_code L) 0)
            (L - base_length.getD (length_code L) 0))
        (val_bits (extra_dbits.getD (dist_code D) 0)
            (D - base_dist.getD (dist_code D) 0) ++
          ((r.map (tok_bits ll d)).flatten ++ (sym_bits ll 256 ++ post)))
        _ hpre2
        (by
          rw [hBm]
          simp only [List.append_assoc])]
      dsimp only
      rw [if_neg (by omega)]
      have hpre3 : pos + ll.getD (257 + length_code L) 0 +
          extra_lbits.getD (length_code L) 0 + d.getD (dist_code D) 0 =
          (((pre ++ sym_bits ll (257 + length_code L)) ++
            val_bits (extra_lbits.getD (length_code L) 0)
              (L - base_length.getD (length_code L) 0)) ++
            sym_bits d (dist_code D)).length := by
        simp only [List.length_append, sym_bits, code_bits_length,
          val_bits_length]
        omega
      rw [br_read_pack B (((pre ++ sym_bits ll (257 + length_code L)) ++
          val_bits (extra_lbits.getD (length_code L) 0)
            (L - base_length.getD (length_code L) 0)) ++
          sym_bits d (dist_code D))
        ((r.map (tok_bits ll d)).flatten ++ (sym_bits ll 256 ++ post))
        (extra_dbits.getD (dist_code D) 0)
        (D - base_dist.getD (dist_code D) 0) _ hdiext hpre3
        (by
          rw [hBm]
          simp only [List.append_assoc])]
      dsimp only
      have hdst : base_dist.getD (dist_code D) 0 +
          (D - base_dist.getD (dist_code D) 0) = D := by omega
      rw [hdst]
      rw [if_neg (show ¬(D = 0 ∨ i < D) from by omega),
        if_neg (show ¬buf.length < i + L from by omega)]
      exact ih (i + L) fuel'
        (pos + ll.getD (257 + length_code L) 0 +
          extra_lbits.getD (length_code L) 0 + d.getD (dist_code D) 0 +
          extra_dbits.getD (dist_code D) 0)
        ((((pre ++ sym_bits ll (257 + length_code L)) ++
          val_bits (extra_lbits.getD (length_code L) 0)
            (L - base_length.getD (length_code L) 0)) ++
          sym_bits d (dist_code D)) ++
          val_bits (extra_dbits.getD (dist_code D) 0)
            (D - base_dist.getD (dist_code D) 0))
        post (copy_match out i D L)
        (evs ++ [tok_ev.mat i (length_code L) (dist_code D) L D])
        hokr husable_r (by simpa using hfuel)
        (by
          simp only [List.length_append, sym_bits, code_bits_length,
            val_bits_length]
          omega)
        (by
          rw [hBm]
          simp only [List.append_assoc])
        (copy_match_agree buf out i D L hD1 hDi hbytes hout)

/-! ## The compressed block round-trips. -/

theorem getD_le_of_valid (lens : List Nat) (hv : valid_lens lens) (s : Nat) :
    lens.getD s 0 ≤ 15 := by
  by_cases hs : s < lens.length
  · rw [nat_getD_eq_getElem lens s hs]
    exact hv.1 _ (List.getElem_mem hs)
  · rw [List.getD_eq_default _ _ (by omega)]
    omega

theorem extra_lbits_le : ∀ i, extra_lbits.getD i 0 ≤ 5 := by
  intro i
  by_cases hi : i < 29
  · revert hi
    revert i
    decide
  · rw [List.getD_eq_default _ _ (by
      show extra_lbits.length ≤ i
      norm_num [extra_lbits]
      omega)]
    omega

theorem extra_dbits_le : ∀ i, extra_dbits.getD i 0 ≤ 13 := by
  intro i
  by_cases hi : i < 30
  · revert hi
    revert i
    decide
  · rw [List.getD_eq_default _ _ (by
      show extra_dbits.length ≤ i
      norm_num [extra_dbits]
      omega)]
    omega

theorem tok_bits_le (ll d : List Nat) (hvll : valid_lens ll)
    (hvd : valid_lens d) (t : tok) : (tok_bits ll d t).length ≤ 48 := by
  cases t with
  | lit b =>
    show (sym_bits ll b).length ≤ 48
    rw [sym_bits, code_bits_length]
    have := getD_le_of_valid ll hvll b
    omega
  | mat L D =>
    show (sym_bits ll _ ++ val_bits _ _ ++ (sym_bits d _ ++ val_bits _ _)).length ≤ 48
    simp only [List.length_append, sym_bits, code_bits_length, val_bits_length]
    have h1 := getD_le_of_valid ll hvll (257 + length_code L)
    have h2 := getD_le_of_valid d hvd (dist_code D)
    have h3 := extra_lbits_le (length_code L)
    have h4 := extra_dbits_le (dist_code D)
    omega

theorem toks_bits_flatten_le (ll d : List Nat) (hvll : valid_lens ll)
    (hvd : valid_lens d) :
    ∀ toks : List tok,
      ((toks.map (tok_bits ll d)).flatten).length ≤ 48 * toks.length := by
  intro toks
  induction toks with
  | nil => simp
  | cons t r ih =>
    simp only [List.map_cons, List.flatten_cons, List.length_append,
      List.length_cons]
    have := tok_bits_le ll d hvll hvd t
    omega

theorem toks_ok_length (buf : List Nat) :
    ∀ toks i, toks_ok buf toks i → toks.length + i ≤ buf.length := by
  intro toks
  induction toks with
  | nil =>
    intro i hok
    have : i = buf.length := hok
    simp [this]
  | cons t r ih =>
    intro i hok
    cases t with
    | lit b =>
      obtain ⟨h1, _, h3⟩ := hok
      have := ih (i + 1) h3
      simp only [List.length_cons]
      omega
    | mat L D =>
      obtain ⟨h1, _, _, _, _, _, _, h8⟩ := hok
      have := ih (i + L) h8
      simp only [List.length_cons]
      omega

theorem tree_bits_length (ll d : List Nat) :
    (tree_bits ll d).length = 14 + (4 * ll.length + 4 * d.length) := by
  unfold tree_bits
  rw [List.length_append, List.length_append, List.length_append,
    val_bits_length, val_bits_length, flatten_val4_length,
    flatten_val4_length]

/-- Per-token bounds extracted from validity (for symbol usability). -/
theorem toks_usable_of_ok (buf : List Nat) (hb : ∀ x ∈ buf, x < 256)
    (ll d : List Nat) (toks0 : List tok)
    (hll3 : ∀ s < LITLEN_SYMS, 0 < f_ll toks0 s → 1 ≤ ll.getD s 0)
    (hd3 : ∀ s < DIST_SYMS, 0 < f_d toks0 s → 1 ≤ d.getD s 0) :
    ∀ toks i, toks_ok buf toks i → (∀ t ∈ toks, t ∈ toks0) →
      ∀ t ∈ toks, tok_usable ll d t := by
  intro toks
  induction toks with
  | nil => intro i _ _ t ht; exact absurd ht (List.not_mem_nil t)
  | cons u r ih =>
    intro i hok hmem t ht
    rcases List.mem_cons.mp ht with rfl | htr
    · cases t with
      | lit b =>
        obtain ⟨hi, hbval, _⟩ := hok
        have hb256 : b < 256 := by
          rw [hbval, nat_getD_eq_getElem buf i hi]
          exact hb _ (List.getElem_mem hi)
        show 1 ≤ ll.getD b 0
        apply hll3 b (by
          show b < 286
          omega)
        unfold f_ll
        have hc : 0 < toks0.countP (fun t => match t with
            | tok.lit x => x == b
            | tok.mat L _ => 257 + length_code L == b) := by
          rw [List.countP_pos_iff]
          exact ⟨tok.lit b, hmem _ (List.mem_cons_self _ r), by simp⟩
        omega
      | mat L D =>
        obtain ⟨hL3, hL258, hD1, _, hD32, _, _, _⟩ := hok
        obtain ⟨hli29, _, _⟩ := length_code_spec L hL3 hL258
        obtain ⟨hdi30, _, _⟩ := dist_code_spec D hD1 hD32
        constructor
        · apply hll3 (257 + length_code L) (by
            show 257 + length_code L < 286
            omega)
          unfold f_ll
          have hc : 0 < toks0.countP (fun t => match t with
              | tok.lit x => x == 257 + length_code L
              | tok.mat L2 _ => 257 + length_code L2 == 257 + length_code L) := by
            rw [List.countP_pos_iff]
            exact ⟨tok.mat L D, hmem _ (List.mem_cons_self _ r), by simp⟩
          omega
        · apply hd3 (dist_code D) (by
            show dist_code D < 30
            omega)
          unfold f_d
          rw [List.countP_pos_iff]
          exact ⟨tok.mat L D, hmem _ (List.mem_cons_self _ r), by simp⟩
    · cases u with
      | lit b =>
        exact ih (i + 1) hok.2.2
          (fun x hx => hmem x (List.mem_cons_of_mem _ hx)) t htr
      | mat L D =>
        exact ih (i + L) hok.2.2.2.2.2.2.2
          (fun x hx => hmem x (List.mem_cons_of_mem _ hx)) t htr

theorem kraft_ok_of_valid (lens : List Nat) (hv : valid_lens lens) :
    kraft_ok lens = true := by
  unfold kraft_ok
  exact decide_eq_true hv.2

/-- A compressed block is well formed and decodes back to its bytes. -/
theorem compress_block_ok (buf : List Nat) (hb : ∀ x ∈ buf, x < 256)
    (hle : buf.length ≤ ODZ_BLOCK_SIZE) :
    blk_ok (compress_block buf) ∧ blk_out (compress_block buf) = buf ∧
    blk_raw (compress_block buf) = buf.length := by
  unfold compress_block
  by_cases hbr : buf.length ≤ ((blk_bits buf).length + 7) / 8
  · rw [if_pos hbr]
    exact ⟨hle, rfl, rfl⟩
  · rw [if_neg hbr]
    obtain ⟨hlll0, hvll0, hll30⟩ :=
      huff_lengths_spec LITLEN_SYMS (f_ll (blk_toks buf)) (by norm_num [LITLEN_SYMS])
    obtain ⟨hldd0, hvd0, hd30⟩ :=
      huff_lengths_spec DIST_SYMS (f_d (blk_toks buf)) (by norm_num [DIST_SYMS])
    have hlll : (blk_ll buf).length = LITLEN_SYMS := hlll0
    have hvll : valid_lens (blk_ll buf) := hvll0
    have hll3 : ∀ s < LITLEN_SYMS, 0 < f_ll (blk_toks buf) s →
        1 ≤ (blk_ll buf).getD s 0 := hll30
    have hldd : (blk_d buf).length = DIST_SYMS := hldd0
    have hvd : valid_lens (blk_d buf) := hvd0
    have hd3 : ∀ s < DIST_SYMS, 0 < f_d (blk_toks buf) s →
        1 ≤ (blk_d buf).getD s 0 := hd30
    have hok : toks_ok buf (blk_toks buf) 0 :=
      lz_tokens_ok buf buf.length 0 (by omega) (by omega)
    have husable : ∀ t ∈ blk_toks buf, tok_usable (blk_ll buf) (blk_d buf) t :=
      toks_usable_of_ok buf hb (blk_ll buf) (blk_d buf) (blk_toks buf)
        hll3 hd3 (blk_toks buf) 0 hok (fun t ht => ht)
    have hend : 1 ≤ (blk_ll buf).getD 256 0 := by
      apply hll3 256 (by norm_num [LITLEN_SYMS])
      unfold f_ll
      simp
    have htlen : toks_ok buf (blk_toks buf) 0 → True := fun _ => trivial
    have h15ll : ∀ l ∈ blk_ll buf, l ≤ 15 := hvll.1
    have h15d : ∀ l ∈ blk_d buf, l ≤ 15 := hvd.1
    have hread := huff_read_trees_enc (blk_ll buf) (blk_d buf)
      (toks_bits (blk_ll buf) (blk_d buf) (blk_toks buf)) hlll hldd h15ll h15d
      (kraft_ok_of_valid _ hvll) (kraft_ok_of_valid _ hvd)
    have hdec := decode_tokens_enc buf (blk_ll buf) (blk_d buf) hvll hvd
      hlll hldd hb hend
      (tree_bits (blk_ll buf) (blk_d buf) ++
        toks_bits (blk_ll buf) (blk_d buf) (blk_toks buf))
      (blk_toks buf) 0 (buf.length + 1) 1278
      (tree_bits (blk_ll buf) (blk_d buf)) [] (fun _ => 0) []
      hok husable
      (by
        have := toks_ok_length buf (blk_toks buf) 0 hok
        omega)
      (by
        rw [tree_bits_length, hlll, hldd]
        rfl)
      (by
        unfold toks_bits
        simp only [List.append_assoc, List.append_nil])
      (by omega)
    have hdhb : decompress_huffman_block (pack_bits (blk_bits buf)) buf.length =
        decode_tokens (huff_build_decode_table2 (blk_ll buf))
          (huff_build_decode_table2 (blk_d buf)) buf.length (buf.length + 1)
          ⟨pack_bits (tree_bits (blk_ll buf) (blk_d buf) ++
            toks_bits (blk_ll buf) (blk_d buf) (blk_toks buf)), 1278⟩
          (fun _ => 0) 0 [] := by
      unfold decompress_huffman_block
      rw [show blk_bits buf = tree_bits (blk_ll buf) (blk_d buf) ++
        toks_bits (blk_ll buf) (blk_d buf) (blk_toks buf) from rfl]
      rw [hread]
    obtain ⟨hrc, hop, hout⟩ := hdec
    refine ⟨⟨hle, ?_, ?_, ?_⟩, ?_, rfl⟩
    · -- comp_size fits in 32 bits
      rw [pack_bits_length]
      have h1 : (blk_bits buf).length ≤ 1278 + (48 * buf.length + 15) := by
        rw [show blk_bits buf = tree_bits (blk_ll buf) (blk_d buf) ++
          toks_bits (blk_ll buf) (blk_d buf) (blk_toks buf) from rfl]
        rw [List.length_append, tree_bits_length, hlll, hldd]
        unfold toks_bits
        rw [List.length_append]
        have h2 := toks_bits_flatten_le (blk_ll buf) (blk_d buf) hvll hvd
          (blk_toks buf)
        have h3 : (sym_bits (blk_ll buf) 256).length ≤ 15 := by
          rw [sym_bits, code_bits_length]
          exact getD_le_of_valid _ hvll 256
        have h4 := toks_ok_length buf (blk_toks buf) 0 hok
        have h5 : LITLEN_SYMS = 286 := rfl
        have h6 : DIST_SYMS = 30 := rfl
        omega
      have hBS : ODZ_BLOCK_SIZE = 1048576 := rfl
      omega
    · rw [hdhb]
      exact hrc
    · rw [hdhb]
      exact hop
    · show (List.range buf.length).map
        (decompress_huffman_block (pack_bits (blk_bits buf)) buf.length).out = buf
      apply List.ext_getElem
      · simp
      · intro k h1 h2
        have hk : k < buf.length := by simpa using h1
        rw [List.getElem_map, List.getElem_range]
        rw [hdhb]
        rw [hout k hk]
        exact nat_getD_eq_getElem buf k hk

theorem chunk_bytes_lt (x : List Nat) (hb : ∀ b ∈ x, b < 256) :
    ∀ c ∈ chunks x, ∀ b ∈ c, b < 256 := by
  intro c hc b hbc
  apply hb
  rw [← chunks_flatten x]
  exact List.mem_flatten.mpr ⟨c, hc, hbc⟩

/-- C1: for every byte sequence `x` (bytes below 256, length within the
64-bit header field), `odz_decompress` applied to `odz_compress x`
succeeds and reproduces `x` exactly — decompression is a left inverse of
compression over byte streams. -/
theorem odz_round_trip (x : List Nat) (hb : ∀ b ∈ x, b < 256)
    (hlen : x.length < 18446744073709551616) :
    (odz_decompress (odz_compress x) none).rc = ODZ_OK ∧
    (odz_decompress (odz_compress x) none).output = x := by
  have hbs : ∀ b ∈ (chunks x).map compress_block, blk_ok b := by
    intro b hbm
    rw [List.mem_map] at hbm
    obtain ⟨c, hc, rfl⟩ := hbm
    exact (compress_block_ok c (chunk_bytes_lt x hb c hc) (chunks_le x c hc)).1
  have hout : ((chunks x).map compress_block).map blk_out = chunks x := by
    rw [List.map_map]
    have : ∀ c ∈ chunks x, (blk_out ∘ compress_block) c = id c := by
      intro c hc
      exact (compress_block_ok c (chunk_bytes_lt x hb c hc) (chunks_le x c hc)).2.1
    rw [List.map_congr_left this]
    simp
  have hraw : (((chunks x).map compress_block).map blk_raw).sum = x.length := by
    rw [List.map_map]
    have : ∀ c ∈ chunks x, (blk_raw ∘ compress_block) c = c.length := by
      intro c hc
      exact (compress_block_ok c (chunk_bytes_lt x hb c hc) (chunks_le x c hc)).2.2
    rw [List.map_congr_left this]
    have hfl := List.length_flatten (chunks x)
    rw [chunks_flatten x] at hfl
    rw [← hfl]
  have hne : (chunks x).map compress_block ≠ [] := by
    intro h
    exact chunks_ne_nil x (List.map_eq_nil_iff.mp h)
  show (odz_decompress (file_hdr x.length ++
      enc_blocks ((chunks x).map compress_block)) none).rc = ODZ_OK ∧
    (odz_decompress (file_hdr x.length ++
      enc_blocks ((chunks x).map compress_block)) none).output = x
  rw [odz_decompress_header x.length
    (enc_blocks ((chunks x).map compress_block)) none]
  rw [rd_u64le_u64le x.length hlen]
  have hrun := decompress_blocks_run none x.length
    ((chunks x).map compress_block) [] [] 0 []
    ((enc_blocks ((chunks x).map compress_block)).length + 1) hne hbs
    (by
      have := enc_blocks_length_ge ((chunks x).map compress_block)
      omega)
    (calls_zero_none x.length ((chunks x).map compress_block) 0)
  rw [List.append_nil] at hrun
  rw [hrun]
  rw [if_neg (by
    intro hcon
    apply hcon.2
    show 0 + (((chunks x).map compress_block).map blk_raw).sum = x.length
    rw [hraw]
    omega)]
  refine ⟨rfl, ?_⟩
  show [] ++ (((chunks x).map compress_block).map blk_out).flatten = x
  rw [List.nil_append, hout, chunks_flatten]

theorem odz_round_trip_witness :
    (∀ b ∈ ([7, 7, 7, 3] : List Nat), b < 256) ∧
    ([7, 7, 7, 3] : List Nat).length < 18446744073709551616 ∧
    ((odz_decompress (odz_compress [7, 7, 7, 3]) none).rc = ODZ_OK ∧
      (odz_decompress (odz_compress [7, 7, 7, 3]) none).output = [7, 7, 7, 3]) :=
  ⟨by decide, by decide, odz_round_trip [7, 7, 7, 3] (by decide) (by decide)⟩

/-! ## Scenario S3/S6: compressing a run of zeros, then truncating. -/

theorem rep_getD (n k : Nat) : (List.replicate n (0 : Nat)).getD k 0 = 0 := by
  by_cases hk : k < n
  · rw [nat_getD_eq_getElem _ _ (by simpa using hk)]
    exact List.getElem_replicate _ _
  · rw [List.getD_eq_default _ _ (by simpa using hk)]

theorem zero_match_len (n : Nat) :
    ∀ fuel p i, match_len (List.replicate n 0) p i fuel = min fuel (n - i) := by
  intro fuel
  induction fuel with
  | zero => intro p i; simp [match_len]
  | succ fuel ih =>
    intro p i
    rw [match_len]
    by_cases hi : i < n
    · rw [if_pos ⟨by simpa using hi, by rw [rep_getD, rep_getD]⟩,
        ih (p + 1) (i + 1)]
      omega
    · rw [if_neg (by
        intro hc
        exact hi (by simpa using hc.1))]
      omega

theorem zero_best (n i : Nat) (hin : i < n) :
    ∀ m, 1 ≤ m →
      best_match (List.replicate n 0) i m = (min 258 (n - i), 1) := by
  intro m
  induction m with
  | zero => omega
  | succ d ihd =>
    intro _
    rw [best_match]
    have hml : match_len (List.replicate n 0) (i - (d + 1)) i
        (min 258 ((List.replicate n (0 : Nat)).length - i)) = min 258 (n - i) := by
      rw [List.length_replicate, zero_match_len]
      omega
    rcases Nat.eq_zero_or_pos d with rfl | hd
    · rw [show best_match (List.replicate n 0) i 0 = (0, 0) from rfl]
      dsimp only
      rw [hml]
      rw [if_pos (by omega)]
    · rw [ihd hd]
      dsimp only
      rw [hml]
      rw [if_neg (by omega)]

theorem zero_lz_len (n : Nat) :
    ∀ fuel i, 1 ≤ i → i ≤ n → n ≤ i + fuel →
      (lz_tokens (List.replicate n 0) fuel i).length ≤
        (n - i) / 258 + 1 + min (n - i) 2 := by
  intro fuel
  induction fuel with
  | zero =>
    intro i h1 h2 h3
    simp [lz_tokens]
  | succ fuel ih =>
    intro i h1 h2 h3
    rw [lz_tokens]
    by_cases hi : i < (List.replicate n (0 : Nat)).length
    · rw [if_pos hi]
      rw [List.length_replicate] at hi
      have hbm := zero_best n i hi (min i 32768) (by omega)
      rw [hbm]
      dsimp only
      by_cases h3m : 3 ≤ min 258 (n - i)
      · rw [if_pos h3m]
        have hrec := ih (i + min 258 (n - i)) (by omega) (by omega) (by omega)
        simp only [List.length_cons]
        omega
      · rw [if_neg h3m]
        have hrec := ih (i + 1) (by omega) (by omega) (by omega)
        simp only [List.length_cons]
        omega
    · rw [if_neg hi]
      rw [List.length_replicate] at hi
      simp only [List.length_nil]
      omega

/-- The token stream of the all-zero megabyte block is short: one
literal, then maximal distance-1 matches. -/
theorem zero_blk_toks_len :
    (blk_toks (List.replicate (2 ^ 20) 0)).length ≤ 4068 := by
  unfold blk_toks
  rw [List.length_replicate]
  rw [show (2 ^ 20 : Nat) = (2 ^ 20 - 1) + 1 from by norm_num]
  rw [lz_tokens]
  rw [if_pos (by
    rw [List.length_replicate]
    norm_num)]
  rw [show min (0 : Nat) 32768 = 0 from rfl]
  rw [show best_match (List.replicate ((2 ^ 20 - 1) + 1) 0) 0 0 = (0, 0) from rfl]
  rw [if_neg (by norm_num)]
  rw [List.length_cons]
  have h := zero_lz_len ((2 ^ 20 - 1) + 1) (2 ^ 20 - 1) (0 + 1) (by norm_num)
    (by norm_num) (by omega)
  have hb : ((2 ^ 20 - 1) + 1 - (0 + 1)) / 258 + 1 +
      min ((2 ^ 20 - 1) + 1 - (0 + 1)) 2 ≤ 4067 := by decide
  exact Nat.le_trans (Nat.add_le_add_right (Nat.le_trans h hb) 1) (by decide)

/-- The emitted bit stream of the all-zero block is small. -/
theorem zero_blk_bits_le :
    (blk_bits (List.replicate (2 ^ 20) 0)).length ≤ 196557 := by
  obtain ⟨hlll0, hvll0, _⟩ :=
    huff_lengths_spec LITLEN_SYMS (f_ll (blk_toks (List.replicate (2 ^ 20) 0)))
      (by norm_num [LITLEN_SYMS])
  obtain ⟨hldd0, hvd0, _⟩ :=
    huff_lengths_spec DIST_SYMS (f_d (blk_toks (List.replicate (2 ^ 20) 0)))
      (by norm_num [DIST_SYMS])
  have hlll : (blk_ll (List.replicate (2 ^ 20) 0)).length = LITLEN_SYMS := hlll0
  have hvll : valid_lens (blk_ll (List.replicate (2 ^ 20) 0)) := hvll0
  have hldd : (blk_d (List.replicate (2 ^ 20) 0)).length = DIST_SYMS := hldd0
  have hvd : valid_lens (blk_d (List.replicate (2 ^ 20) 0)) := hvd0
  show (tree_bits _ _ ++ toks_bits _ _ _).length ≤ 196557
  rw [List.length_append]
  rw [tree_bits_length]
  rw [hlll, hldd]
  have hsplit : (toks_bits (blk_ll (List.replicate (2 ^ 20) 0))
      (blk_d (List.replicate (2 ^ 20) 0))
      (blk_toks (List.replicate (2 ^ 20) 0))).length =
      (((blk_toks (List.replicate (2 ^ 20) 0)).map
        (tok_bits (blk_ll (List.replicate (2 ^ 20) 0))
          (blk_d (List.replicate (2 ^ 20) 0)))).flatten).length +
      (sym_bits (blk_ll (List.replicate (2 ^ 20) 0)) 256).length :=
    List.length_append _ _
  rw [hsplit]
  have h2 := toks_bits_flatten_le (blk_ll (List.replicate (2 ^ 20) 0))
    (blk_d (List.replicate (2 ^ 20) 0)) hvll hvd
    (blk_toks (List.replicate (2 ^ 20) 0))
  have h3 : (sym_bits (blk_ll (List.replicate (2 ^ 20) 0)) 256).length ≤ 15 := by
    rw [sym_bits, code_bits_length]
    exact getD_le_of_valid _ hvll 256
  have h4 := zero_blk_toks_len
  have h5 : LITLEN_SYMS = 286 := rfl
  have h6 : DIST_SYMS = 30 := rfl
  omega

/-- The all-zero megabyte block compresses to a Huffman block. -/
theorem compress_zero_block :
    compress_block (List.replicate (2 ^ 20) 0) =
      enc_blk.huff (2 ^ 20)
        (pack_bits (blk_bits (List.replicate (2 ^ 20) 0))) := by
  unfold compress_block
  rw [List.length_replicate]
  rw [if_neg (by
    intro hcon
    have h1 := zero_blk_bits_le
    have h2 : (2 : Nat) ^ 20 = 1048576 := by norm_num
    rw [h2] at hcon h1
    omega)]

/-- The trailing single-zero block is stored. -/
theorem compress_one_zero : compress_block [0] = enc_blk.stored [0] := by
  unfold compress_block
  rw [if_pos (by
    obtain ⟨hlll0, _, _⟩ := huff_lengths_spec LITLEN_SYMS (f_ll (blk_toks [0]))
      (by norm_num [LITLEN_SYMS])
    obtain ⟨hldd0, _, _⟩ := huff_lengths_spec DIST_SYMS (f_d (blk_toks [0]))
      (by norm_num [DIST_SYMS])
    have htree : (tree_bits (blk_ll [0]) (blk_d [0])).length = 1278 := by
      rw [tree_bits_length]
      rw [show (blk_ll [0]).length = LITLEN_SYMS from hlll0,
        show (blk_d [0]).length = DIST_SYMS from hldd0]
      rfl
    have hsplit : (blk_bits [0]).length =
        (tree_bits (blk_ll [0]) (blk_d [0])).length +
        (toks_bits (blk_ll [0]) (blk_d [0]) (blk_toks [0])).length := by
      show (tree_bits _ _ ++ toks_bits _ _ _).length = _
      rw [List.length_append]
    have hone : ([0] : List Nat).length = 1 := rfl
    rw [hone, hsplit, htree]
    omega)]

/-- Chunking the `2 ^ 20 + 1` zero bytes: one full block and one byte. -/
theorem chunks_S3 :
    chunks (List.replicate (2 ^ 20 + 1) 0) =
      [List.replicate (2 ^ 20) 0, [0]] := by
  have h2 : (2 : Nat) ^ 20 = 1048576 := by norm_num
  rw [h2]
  unfold chunks
  rw [List.length_replicate]
  rw [chunks_f]
  rw [if_neg (by
    rw [List.length_replicate]
    show ¬1048576 + 1 ≤ ODZ_BLOCK_SIZE
    rw [show ODZ_BLOCK_SIZE = 1048576 from rfl]
    omega)]
  rw [show List.take ODZ_BLOCK_SIZE (List.replicate (1048576 + 1) (0 : Nat)) =
      List.replicate 1048576 0 from by
    rw [List.take_replicate]
    rw [show min ODZ_BLOCK_SIZE (1048576 + 1) = 1048576 from by
      rw [show ODZ_BLOCK_SIZE = 1048576 from rfl]
      exact min_eq_left (by omega)]]
  rw [show List.drop ODZ_BLOCK_SIZE (List.replicate (1048576 + 1) (0 : Nat)) =
      [0] from by
    rw [List.drop_replicate]
    rw [show 1048576 + 1 - ODZ_BLOCK_SIZE = 1 from by
      rw [show ODZ_BLOCK_SIZE = 1048576 from rfl]]
    rfl]
  rw [chunks_f]
  rw [if_pos (by
    show ([0] : List Nat).length ≤ ODZ_BLOCK_SIZE
    rw [show ODZ_BLOCK_SIZE = 1048576 from rfl]
    show 1 ≤ 1048576
    omega)]

/-- The compressed form of S3: header, Huffman block, stored block. -/
theorem compress_S3 :
    odz_compress (List.replicate (2 ^ 20 + 1) 0) =
      file_hdr (2 ^ 20 + 1) ++
        (enc_blk_bytes 0 (enc_blk.huff (2 ^ 20)
            (pack_bits (blk_bits (List.replicate (2 ^ 20) 0)))) ++
          enc_blk_bytes 1 (enc_blk.stored [0])) := by
  unfold odz_compress
  rw [List.length_replicate]
  rw [chunks_S3]
  rw [List.map_cons, List.map_cons, List.map_nil]
  rw [compress_zero_block, compress_one_zero]
  rfl

/-- Every block body starts with the 1278-bit tree transmission. -/
theorem blk_bits_ge (buf : List Nat) : 1278 ≤ (blk_bits buf).length := by
  obtain ⟨hlll0, _, _⟩ := huff_lengths_spec LITLEN_SYMS (f_ll (blk_toks buf))
    (by norm_num [LITLEN_SYMS])
  obtain ⟨hldd0, _, _⟩ := huff_lengths_spec DIST_SYMS (f_d (blk_toks buf))
    (by norm_num [DIST_SYMS])
  have htree : (tree_bits (blk_ll buf) (blk_d buf)).length = 1278 := by
    rw [tree_bits_length, show (blk_ll buf).length = LITLEN_SYMS from hlll0,
      show (blk_d buf).length = DIST_SYMS from hldd0]
    rfl
  have hsplit : (blk_bits buf).length =
      (tree_bits (blk_ll buf) (blk_d buf)).length +
      (toks_bits (blk_ll buf) (blk_d buf) (blk_toks buf)).length := by
    show ((tree_bits _ _) ++ (toks_bits _ _ _)).length = _
    rw [List.length_append]
  omega

/-- Dropping the last 10 bytes of the compressed S3 file cuts 4 bytes out
of the first (Huffman) block's payload, so its `fread` comes up short and
`odz_decompress` reports the IO error. -/
theorem truncated_s3_rc :
    (odz_decompress ((odz_compress (List.replicate (2 ^ 20 + 1) 0)).take
        ((odz_compress (List.replicate (2 ^ 20 + 1) 0)).length - 10)) none).rc =
      ODZ_ERR_IO := by
  rw [compress_S3]
  obtain ⟨C, hC⟩ : ∃ C, pack_bits (blk_bits (List.replicate (2 ^ 20) 0)) = C :=
    ⟨_, rfl⟩
  rw [hC]
  have hP4 : 4 ≤ C.length := by
    rw [← hC, pack_bits_length]
    have := blk_bits_ge (List.replicate (2 ^ 20) 0)
    omega
  have hP32 : C.length < 4294967296 := by
    rw [← hC, pack_bits_length]
    have := zero_blk_bits_le
    omega
  have hA : enc_blk_bytes 0 (enc_blk.huff (2 ^ 20) C) =
      2 :: (u32le (2 ^ 20) ++ (u32le C.length ++ C)) := by
    show (2 * blk_type_of (enc_blk.huff (2 ^ 20) C) + 0) :: blk_tail _ = _
    rw [show blk_type_of (enc_blk.huff (2 ^ 20) C) = 1 from rfl]
    rw [show blk_tail (enc_blk.huff (2 ^ 20) C) =
      u32le (2 ^ 20) ++ (u32le C.length ++ C) from by
        show u32le (2 ^ 20) ++ u32le C.length ++ C = _
        rw [List.append_assoc]]
  have hlen : (file_hdr (2 ^ 20 + 1) ++
      (enc_blk_bytes 0 (enc_blk.huff (2 ^ 20) C) ++
        enc_blk_bytes 1 (enc_blk.stored [0]))).length = 27 + C.length := by
    rw [hA]
    simp [file_hdr, u64le, u32le, enc_blk_bytes, blk_tail]
    omega
  rw [hlen]
  have hcut : 27 + C.length - 10 = 17 + C.length := by omega
  rw [hcut]
  have htake : (file_hdr (2 ^ 20 + 1) ++
      (enc_blk_bytes 0 (enc_blk.huff (2 ^ 20) C) ++
        enc_blk_bytes 1 (enc_blk.stored [0]))).take (17 + C.length) =
      file_hdr (2 ^ 20 + 1) ++
        (2 :: (u32le (2 ^ 20) ++ (u32le C.length ++ C.take (C.length - 4)))) := by
    rw [List.take_append_eq_append_take]
    rw [List.take_of_length_le (show (file_hdr (2 ^ 20 + 1)).length ≤ 17 + C.length
      from by
        simp [file_hdr, u64le]
        omega)]
    rw [show 17 + C.length - (file_hdr (2 ^ 20 + 1)).length = 5 + C.length
      from by
        simp [file_hdr, u64le]
        omega]
    rw [List.take_append_eq_append_take]
    rw [show 5 + C.length - (enc_blk_bytes 0 (enc_blk.huff (2 ^ 20) C)).length = 0
      from by
        rw [hA]
        simp [u32le]
        omega]
    rw [List.take_zero, List.append_nil]
    rw [hA]
    rw [show (5 : Nat) + C.length = (4 + C.length) + 1 from by omega]
    rw [List.take_succ_cons]
    rw [List.take_append_eq_append_take]
    rw [List.take_of_length_le (show (u32le (2 ^ 20)).length ≤ 4 + C.length from by
      simp [u32le])]
    rw [show 4 + C.length - (u32le (2 ^ 20)).length = C.length from by
      simp [u32le]]
    rw [List.take_append_eq_append_take]
    rw [List.take_of_length_le (show (u32le C.length).length ≤ C.length from by
      simp [u32le]
      omega)]
    rw [show C.length - (u32le C.length).length = C.length - 4 from by
      simp [u32le]]
  rw [htake]
  rw [odz_decompress_header (2 ^ 20 + 1)
    (2 :: (u32le (2 ^ 20) ++ (u32le C.length ++ C.take (C.length - 4)))) none]
  rw [rd_u64le_u64le (2 ^ 20 + 1) (by norm_num)]
  rw [decompress_blocks, take_exact_cons_one]
  dsimp only
  rw [show ([2] : List Nat).getD 0 0 = 2 from rfl]
  rw [show ((2 : Nat) >>> 1) &&& 3 = 1 from by decide]
  have hassoc : u32le (2 ^ 20) ++ (u32le C.length ++ C.take (C.length - 4)) =
      (u32le (2 ^ 20) ++ u32le C.length) ++ C.take (C.length - 4) := by
    rw [List.append_assoc]
  rw [hassoc]
  rw [show parse_block ((u32le (2 ^ 20) ++ u32le C.length) ++
      C.take (C.length - 4)) 1 = blk_res.err ODZ_ERR_IO from by
    unfold parse_block
    rw [if_neg (show ¬(1 : Nat) = ODZ_BLOCK_STORED from by decide)]
    rw [if_pos (show (1 : Nat) = ODZ_BLOCK_HUFFMAN from rfl)]
    rw [take_exact_of_length (u32le (2 ^ 20) ++ u32le C.length) _ 8
      (by simp [u32le])]
    dsimp only
    rw [show (u32le (2 ^ 20) ++ u32le C.length).take 4 = u32le (2 ^ 20) from by
      have := List.take_left (u32le (2 ^ 20)) (u32le C.length)
      rwa [u32le_length] at this]
    rw [show (u32le (2 ^ 20) ++ u32le C.length).drop 4 = u32le C.length from by
      have := List.drop_left (u32le (2 ^ 20)) (u32le C.length)
      rwa [u32le_length] at this]
    rw [rd_u32le_u32le (2 ^ 20) (by norm_num), rd_u32le_u32le C.length hP32]
    rw [if_neg (show ¬ODZ_BLOCK_SIZE < 2 ^ 20 from by
      norm_num [ODZ_BLOCK_SIZE])]
    rw [show take_exact C.length (C.take (C.length - 4)) = none from by
      unfold take_exact
      rw [if_neg (by
        rw [List.length_take]
        omega)]]]
  dsimp only
  rw [if_neg (by
    intro hcon
    have h1 : ODZ_ERR_IO = ODZ_OK := hcon.1
    exact absurd h1 (by decide))]

/-- C6 (counterexample): decompressing the compressed two-block file for
1,048,577 zero bytes (scenario S3) truncated by its last 10 bytes does
NOT fail with the CORRUPT status — the cut lands inside the first
block's Huffman payload, whose short read is reported as IO. -/
theorem truncated_s3_not_corrupt :
    (odz_decompress ((odz_compress (List.replicate (2 ^ 20 + 1) 0)).take
        ((odz_compress (List.replicate (2 ^ 20 + 1) 0)).length - 10)) none).rc ≠
      ODZ_ERR_CORRUPT := by
  rw [truncated_s3_rc]
  decide

/-- C6 (amended): decompressing the compressed file of scenario S3
truncated by dropping its last 10 bytes fails with the IO status (a
short `fread` inside the first block's payload), not CORRUPT. -/
theorem truncated_s3_io :
    (odz_decompress ((odz_compress (List.replicate (2 ^ 20 + 1) 0)).take
        ((odz_compress (List.replicate (2 ^ 20 + 1) 0)).length - 10)) none).rc =
      ODZ_ERR_IO :=
  truncated_s3_rc

/-- Concrete witness data for the claim theorems below. -/
def wbuf : Nat → Nat := fun j => (j * 7 + 3) % 256

theorem copy_match_eq_byte_copy_witness :
    1 ≤ 3 ∧ 3 ≤ 5 ∧ copy_match wbuf 5 3 11 = byte_copy wbuf 5 3 11 :=
  ⟨by decide, by decide, copy_match_eq_byte_copy wbuf 5 3 11 (by decide) (by decide)⟩

/-- Concrete table with one redirect entry, for the C7 witness. -/
def wtab : huff_decode_table_t where
  primary := fun i => if i = 5 then { len := 0x8000 + 12, sym := 3 } else { len := 7, sym := i }
  secondary := fun j => { len := 12, sym := 100 + j }

def wbr : bit_reader_t := { data := [0xA5, 0xCD, 0x3B], pos := 2 }

theorem huff_decode2_eq_ref_witness :
    valid_table wtab ∧ huff_decode2 wbr wtab = huffDecodeRef wbr wtab :=
  ⟨by decide, huff_decode2_eq_ref wbr wtab (by decide)⟩

end Odz
